import Mathlib

/-! Mermaid text parsers (`internal/mermaid/parser.go`) and the draw.io generator
(`internal/drawio/generator.go`).

A shallow embedding of the sequence-diagram and ER-diagram parsers and of the two
generators of draw.io cells.

Go strings are modelled as lists of Unicode code points (`List Char`), that is,
the inputs considered are valid UTF-8 texts.  The regular expressions of the
source are kept as regular-expression values and run by a small backtracking
matcher that returns every way to match, in the priority order of Go's
leftmost-first (Perl-like) semantics; the first result is the match that
`FindStringSubmatch` reports.  `bufio.Scanner` is modelled together with its
default token limit.
-/

namespace Mermaid

/-! ## Characters and the `strings` package -/

/-- The regular-expression class `\s` of Go's `regexp` (RE2): `[\t\n\f\r ]`. -/
def isReSpace (c : Char) : Bool :=
  c == '\t' || c == '\n' || c == '\x0c' || c == '\r' || c == ' '

/-- The regular-expression class `\w` of Go's `regexp` (RE2): `[0-9A-Za-z_]`. -/
def isWordChar (c : Char) : Bool :=
  c.isAlphanum || c == '_'

/-- The regular-expression atom `.` (without the `s` flag): any character but a newline. -/
def isAnyChar (c : Char) : Bool :=
  !(c == '\n')

/-- Go's `unicode.IsSpace`: the white space characters of Unicode
(`\t \n \v \f \r`, space, U+0085, U+00A0 and the category Z). -/
def isSpace (c : Char) : Bool :=
  c == '\t' || c == '\n' || c == '\x0b' || c == '\x0c' || c == '\r' || c == ' ' ||
  c.toNat == 0x85 || c.toNat == 0xA0 || c.toNat == 0x1680 ||
  (0x2000 ≤ c.toNat && c.toNat ≤ 0x200A) ||
  c.toNat == 0x2028 || c.toNat == 0x2029 || c.toNat == 0x202F ||
  c.toNat == 0x205F || c.toNat == 0x3000

/-- Removes the trailing characters that satisfy `p`. -/
def dropWhileEnd (p : Char → Bool) : List Char → List Char
  | [] => []
  | c :: cs =>
    match dropWhileEnd p cs with
    | [] => if p c then [] else [c]
    | r => c :: r

/-- Go's `strings.TrimSpace`: removes leading and trailing white space. -/
def trimSpace (s : List Char) : List Char :=
  dropWhileEnd isSpace (s.dropWhile isSpace)

/-- Go's `strings.HasPrefix(s, pre)`. -/
def hasPrefix (s pre : List Char) : Bool :=
  pre.isPrefixOf s

/-- Go's `strings.HasSuffix(s, suf)`. -/
def hasSuffix (s suf : List Char) : Bool :=
  suf.reverse.isPrefixOf s.reverse

/-- Go's `strings.Contains(s, sub)`. -/
def contains : List Char → List Char → Bool
  | [], sub => sub.isEmpty
  | c :: cs, sub => sub.isPrefixOf (c :: cs) || contains cs sub

/-- Go's `strings.Split(s, sep)` for a separator of one character. -/
def splitOnChar (sep : Char) : List Char → List (List Char)
  | [] => [[]]
  | c :: cs =>
    if c = sep then [] :: splitOnChar sep cs
    else
      match splitOnChar sep cs with
      | [] => [[c]]
      | p :: ps => (c :: p) :: ps

/-- Go's `strings.Fields`: the maximal runs of characters that are not white space. -/
def fields : List Char → List (List Char)
  | [] => []
  | c :: cs =>
    if isSpace c then fields cs
    else if (cs.head?.map isSpace).getD true then [c] :: fields cs
    else
      match fields cs with
      | [] => [[c]]
      | w :: ws => (c :: w) :: ws

/-- Go's `strings.Join(parts, sep)`. -/
def join (sep : List Char) : List (List Char) → List Char
  | [] => []
  | [p] => p
  | p :: q :: ps => p ++ sep ++ join sep (q :: ps)

/-- Go's `strings.ToUpper`, on the ASCII letters.  The parser applies it only to
a capture of the attribute expression, which is ASCII. -/
def toUpper (s : List Char) : List Char :=
  s.map Char.toUpper

/-! ## Regular expressions -/

/-- The values of the capture groups; a group that took no part in the match is `""`,
as in the slice returned by `FindStringSubmatch`. -/
abbrev Caps := Nat → List Char

/-- No group is set. -/
def Caps.none : Caps := fun _ => []

/-- Sets group `i` to `v`. -/
def Caps.set (c : Caps) (i : Nat) (v : List Char) : Caps :=
  fun j => if j = i then v else c j

/-- The regular expressions used by the parsers (all are anchored with `^`). -/
inductive Re where
  | eps : Re
  | lit : Char → Re
  | cls : (Char → Bool) → Re
  | seq : Re → Re → Re
  | alt : Re → Re → Re
  | star : Re → Re
  | opt : Re → Re
  | grp : Nat → Re → Re

/-- The greedy repetition `a*`, given the matcher of `a`: as many iterations as
possible first, then fewer.  Every iteration consumes input in the expressions of
this program, so `fuel = length of the input` iterations are enough. -/
def starRun (step : List Char → Caps → List (List Char × Caps)) :
    Nat → List Char → Caps → List (List Char × Caps)
  | 0, s, c => [(s, c)]
  | n + 1, s, c => (step s c).flatMap (fun rc => starRun step n rc.1 rc.2) ++ [(s, c)]

/-- All the ways to match a prefix of `s` with `r`, each as the rest of the input
and the captures, in the priority order of a backtracking matcher. -/
def Re.run : Re → List Char → Caps → List (List Char × Caps)
  | .eps, s, c => [(s, c)]
  | .lit x, s, c =>
    match s with
    | [] => []
    | y :: t => if y = x then [(t, c)] else []
  | .cls p, s, c =>
    match s with
    | [] => []
    | y :: t => if p y then [(t, c)] else []
  | .seq a b, s, c => (a.run s c).flatMap (fun rc => b.run rc.1 rc.2)
  | .alt a b, s, c => a.run s c ++ b.run s c
  | .star a, s, c => starRun a.run s.length s c
  | .opt a, s, c => a.run s c ++ [(s, c)]
  | .grp i a, s, c =>
    (a.run s c).map (fun rc => (rc.1, rc.2.set i (s.take (s.length - rc.1.length))))

/-- The expression `a+`. -/
def Re.plus (a : Re) : Re := .seq a (.star a)

/-- The expression matching the literal text `s`. -/
def Re.str : List Char → Re
  | [] => .eps
  | [c] => .lit c
  | c :: cs => .seq (.lit c) (Re.str cs)

/-- The expression `a b c ...`. -/
def Re.cat : List Re → Re
  | [] => .eps
  | [a] => a
  | a :: as => .seq a (Re.cat as)

/-- Go's `FindStringSubmatch` for an expression anchored at the start of the text:
the captures of the first match in priority order, or `none`. -/
def findSubmatch (r : Re) (s : List Char) : Option Caps :=
  ((r.run s Caps.none).head?).map (fun rc => rc.2)

/-! ## Data model

The field `Type` of the source structures is named `Typ` here (`Type` is a
reserved word). -/

inductive DiagramType where
  | SequenceDiagramType
  | ERDiagramType
  deriving DecidableEq, Repr

inductive MessageType where
  | SolidArrow
  | DashedArrow
  | SolidArrowWithX
  | DashedArrowWithX
  | Note
  deriving DecidableEq, Repr

structure Participant where
  Name : List Char
  Alias : List Char
  deriving DecidableEq, Repr

structure Message where
  From : List Char
  To : List Char
  Text : List Char
  Typ : MessageType
  Activate : Bool := false
  Deactivate : Bool := false
  deriving DecidableEq, Repr

structure SequenceDiagram where
  Participants : List Participant
  Messages : List Message
  deriving DecidableEq, Repr

structure Attribute where
  Name : List Char
  Typ : List Char
  IsPK : Bool := false
  IsFK : Bool := false
  IsUnique : Bool := false
  IsNotNull : Bool := false
  deriving DecidableEq, Repr

structure Entity where
  Name : List Char
  Attributes : List Attribute
  deriving DecidableEq, Repr

inductive RelationshipType where
  | OneToOne
  | OneToMany
  | ManyToOne
  | ManyToMany
  | Identifying
  | NonIdentifying
  deriving DecidableEq, Repr

structure Relationship where
  From : List Char
  To : List Char
  Typ : RelationshipType
  FromCardinality : List Char
  ToCardinality : List Char
  Label : List Char
  deriving DecidableEq, Repr

structure ERDiagram where
  Entities : List Entity
  Relationships : List Relationship
  deriving DecidableEq, Repr

/-! ## `bufio.Scanner` -/

/-- The lines of the input as `bufio.ScanLines` cuts them, before the carriage
return is dropped: each `\n` ends a line, and a last line without `\n` counts when
it is not empty. -/
def rawLines : List Char → List (List Char)
  | [] => []
  | c :: cs =>
    if c = '\n' then [] :: rawLines cs
    else
      match rawLines cs with
      | [] => [[c]]
      | l :: ls => (c :: l) :: ls

/-- The `dropCR` of `bufio`: removes one trailing carriage return. -/
def dropCR : List Char → List Char
  | [] => []
  | [c] => if c = '\r' then [] else [c]
  | c :: d :: cs => c :: dropCR (d :: cs)

/-- Length of the UTF-8 encoding, in bytes. -/
def utf8Len (s : List Char) : Nat :=
  (s.map Char.utf8Size).sum

/-- The `bufio.MaxScanTokenSize`: the buffer of a `Scanner` grows to 64 KiB. -/
def maxScanTokenSize : Nat := 65536

/-- The error values a parser returns: the only one is the scanner's `ErrTooLong`. -/
inductive ScanError where
  | ErrTooLong
  deriving DecidableEq, Repr

/-- The tokens that successive `scanner.Scan()` calls deliver, and `scanner.Err()`
afterwards.  A line that does not fit the buffer (its bytes, and its newline when
it has one, need `maxScanTokenSize` bytes or less) stops the scan with `ErrTooLong`. -/
def scanTokens : List (List Char) → List (List Char) × Option ScanError
  | [] => ([], none)
  | l :: ls =>
    if maxScanTokenSize ≤ utf8Len l then ([], some .ErrTooLong)
    else ((dropCR l) :: (scanTokens ls).1, (scanTokens ls).2)

/-- A `bufio.NewScanner(strings.NewReader(input))` run to its end. -/
def scanLines (input : List Char) : List (List Char) × Option ScanError :=
  scanTokens (rawLines input)

/-! ## The sequence parser -/

/-- The source's `shouldSkipSequenceLine`. -/
def shouldSkipSequenceLine (line : List Char) : Bool :=
  line == [] || hasPrefix line "%%".toList || hasPrefix line "sequenceDiagram".toList

/-- The expression `^\s*participant\s+(\w+)(?:\s+as\s+(.+))?`. -/
def participantRegex : Re :=
  Re.cat [.star (.cls isReSpace), Re.str "participant".toList, Re.plus (.cls isReSpace),
    .grp 1 (Re.plus (.cls isWordChar)),
    .opt (Re.cat [Re.plus (.cls isReSpace), Re.str "as".toList, Re.plus (.cls isReSpace),
      .grp 2 (Re.plus (.cls isAnyChar))])]

/-- The source's `parseParticipant`. -/
def parseParticipant (line : List Char) : Option Participant :=
  match findSubmatch participantRegex line with
  | some m =>
    let name := m 1
    let aliasText := if m 2 ≠ [] then m 2 else name
    some { Name := name, Alias := aliasText }
  | none => none

/-- The expression `^\s*(\w+)\s*(->|-->|->>|-->>)\s*(\w+)\s*:\s*(.*)`. -/
def messageRegex : Re :=
  Re.cat [.star (.cls isReSpace), .grp 1 (Re.plus (.cls isWordChar)), .star (.cls isReSpace),
    .grp 2 (.alt (Re.str "->".toList) (.alt (Re.str "-->".toList)
      (.alt (Re.str "->>".toList) (Re.str "-->>".toList)))),
    .star (.cls isReSpace), .grp 3 (Re.plus (.cls isWordChar)), .star (.cls isReSpace),
    .lit ':', .star (.cls isReSpace), .grp 4 (.star (.cls isAnyChar))]

/-- The source's `getMessageType`. -/
def getMessageType (arrow : List Char) : MessageType :=
  if arrow = "->".toList then .SolidArrow
  else if arrow = "-->".toList then .DashedArrow
  else if arrow = "->>".toList then .SolidArrowWithX
  else if arrow = "-->>".toList then .DashedArrowWithX
  else .SolidArrow

/-- The source's `parseMessage`. -/
def parseMessage (line : List Char) : Option Message :=
  match findSubmatch messageRegex line with
  | some m =>
    some { From := m 1, To := m 3, Text := m 4, Typ := getMessageType (m 2) }
  | none => none

/-- The expression `^\s*activate\s+(\w+)`. -/
def activateRegex : Re :=
  Re.cat [.star (.cls isReSpace), Re.str "activate".toList, Re.plus (.cls isReSpace),
    .grp 1 (Re.plus (.cls isWordChar))]

/-- The expression `^\s*deactivate\s+(\w+)`. -/
def deactivateRegex : Re :=
  Re.cat [.star (.cls isReSpace), Re.str "deactivate".toList, Re.plus (.cls isReSpace),
    .grp 1 (Re.plus (.cls isWordChar))]

/-- The source's `parseActivation`: it recognises the two line shapes and returns nothing. -/
def parseActivation (line : List Char) : Unit :=
  if (findSubmatch activateRegex line).isSome then ()
  else if (findSubmatch deactivateRegex line).isSome then ()
  else ()

/-- The variables of the loop of `ParseSequenceDiagram`; the set `participantMap`
is kept as the list of its keys. -/
structure SeqState where
  diagram : SequenceDiagram
  participantMap : List (List Char)
  deriving DecidableEq, Repr

/-- The source's `ensureParticipantsExist`. -/
def ensureParticipantsExist (st : SeqState) : List (List Char) → SeqState
  | [] => st
  | p :: ps =>
    if st.participantMap.contains p then ensureParticipantsExist st ps
    else
      ensureParticipantsExist
        { diagram := { st.diagram with
            Participants := st.diagram.Participants ++ [{ Name := p, Alias := p }] },
          participantMap := p :: st.participantMap } ps

/-- One turn of the loop of `ParseSequenceDiagram`, on the token `text` of the scanner. -/
def seqStep (st : SeqState) (text : List Char) : SeqState :=
  let line := trimSpace text
  if shouldSkipSequenceLine line then st
  else
    match parseParticipant line with
    | some participant =>
      if st.participantMap.contains participant.Name then st
      else
        { diagram := { st.diagram with
            Participants := st.diagram.Participants ++ [participant] },
          participantMap := participant.Name :: st.participantMap }
    | none =>
      match parseMessage line with
      | some message =>
        let st1 := ensureParticipantsExist st [message.From, message.To]
        { st1 with diagram := { st1.diagram with Messages := st1.diagram.Messages ++ [message] } }
      | none =>
        let _ := parseActivation line
        st

/-- The state before the first line. -/
def SeqState.init : SeqState :=
  { diagram := { Participants := [], Messages := [] }, participantMap := [] }

/-- The source's `ParseSequenceDiagram`: the diagram and `scanner.Err()`. -/
def ParseSequenceDiagram (input : List Char) : SequenceDiagram × Option ScanError :=
  (((scanLines input).1.foldl seqStep SeqState.init).diagram, (scanLines input).2)

/-! ## The ER parser -/

/-- The source's `shouldSkipLine`. -/
def shouldSkipLine (line : List Char) : Bool :=
  line == [] || hasPrefix line "%%".toList || hasPrefix line "erDiagram".toList

/-- The expression `^\s*(\w+)\s*\{`. -/
def entityRegex : Re :=
  Re.cat [.star (.cls isReSpace), .grp 1 (Re.plus (.cls isWordChar)), .star (.cls isReSpace),
    .lit '{']

/-- The source's `parseEntityStart`. -/
def parseEntityStart (line : List Char) : Option Entity :=
  match findSubmatch entityRegex line with
  | some m => some { Name := m 1, Attributes := [] }
  | none => none

/-- The expression `^\s*(\w+)\s+(\w+)(?:\s+(PK|FK|UK|NOT NULL))*`. -/
def attributeRegex : Re :=
  Re.cat [.star (.cls isReSpace), .grp 1 (Re.plus (.cls isWordChar)), Re.plus (.cls isReSpace),
    .grp 2 (Re.plus (.cls isWordChar)),
    .star (.seq (Re.plus (.cls isReSpace))
      (.grp 3 (.alt (Re.str "PK".toList) (.alt (Re.str "FK".toList)
        (.alt (Re.str "UK".toList) (Re.str "NOT NULL".toList))))))]

/-- The source's `parseAttribute`.  The slice `matches` always has four entries, so
the test `len(matches) > 3` holds at every match. -/
def parseAttribute (line : List Char) : Option Attribute :=
  match findSubmatch attributeRegex line with
  | some m =>
    let constraints := toUpper (m 3)
    some { Name := m 2, Typ := m 1,
           IsPK := contains constraints "PK".toList,
           IsFK := contains constraints "FK".toList,
           IsUnique := contains constraints "UK".toList,
           IsNotNull := contains constraints "NOT NULL".toList }
  | none => none

/-- The source's `parseRelationshipSymbol`. -/
def parseRelationshipSymbol (symbol : List Char) : RelationshipType × List Char × List Char :=
  let toCard := if contains symbol "\x7b".toList then "M".toList else "1".toList
  let fromCard := if contains symbol "\x7d".toList then "M".toList else "1".toList
  let relType :=
    if fromCard = "1".toList ∧ toCard = "1".toList then RelationshipType.OneToOne
    else if fromCard = "1".toList ∧ toCard = "M".toList then RelationshipType.OneToMany
    else if fromCard = "M".toList ∧ toCard = "1".toList then RelationshipType.ManyToOne
    else if fromCard = "M".toList ∧ toCard = "M".toList then RelationshipType.ManyToMany
    else RelationshipType.OneToOne
  (relType, fromCard, toCard)

/-- The source's `parseRelationship`. -/
def parseRelationship (line : List Char) : Option Relationship :=
  if !contains line "--".toList || !contains line ":".toList then none
  else
    match splitOnChar ':' line with
    | p0 :: p1 :: _ =>
      let leftPart := trimSpace p0
      let label := trimSpace p1
      let words := fields leftPart
      if words.length < 3 then none
      else
        let src := words.headD []
        let dst := words.getLastD []
        let relationSymbol := join " ".toList ((words.drop 1).dropLast)
        let r := parseRelationshipSymbol relationSymbol
        some { From := src, To := dst, Typ := r.1, FromCardinality := r.2.1,
               ToCardinality := r.2.2, Label := label }
    | _ => none

/-- The variables of the loop of `ParseERDiagram`.  The map `entityMap` of the
source is only written, never read, and is left out. -/
structure ERState where
  diagram : ERDiagram
  currentEntity : Option Entity
  inEntity : Bool
  deriving DecidableEq, Repr

/-- Appends the entity to `diagram.Entities`. -/
def ERDiagram.addEntity (d : ERDiagram) (e : Entity) : ERDiagram :=
  { d with Entities := d.Entities ++ [e] }

/-- One turn of the loop of `ParseERDiagram`, on the token `text` of the scanner. -/
def erStep (st : ERState) (text : List Char) : ERState :=
  let line := trimSpace text
  if shouldSkipLine line then st
  else if line = "\x7d".toList ∧ st.inEntity = true then
    match st.currentEntity with
    | some e => { diagram := st.diagram.addEntity e, currentEntity := none, inEntity := false }
    | none => { st with currentEntity := none, inEntity := false }
  else
    match parseEntityStart line with
    | some entity =>
      if hasSuffix line "\x7b\x7d".toList then
        { diagram := st.diagram.addEntity entity, currentEntity := none, inEntity := false }
      else
        { st with currentEntity := some entity, inEntity := true }
    | none =>
      match st.inEntity, st.currentEntity with
      | true, some e =>
        match parseAttribute line with
        | some attr =>
          { st with currentEntity := some { e with Attributes := e.Attributes ++ [attr] } }
        | none => st
      | _, _ =>
        match parseRelationship line with
        | some rel =>
          { st with diagram := { st.diagram with
              Relationships := st.diagram.Relationships ++ [rel] } }
        | none => st

/-- The state before the first line. -/
def ERState.init : ERState :=
  { diagram := { Entities := [], Relationships := [] }, currentEntity := none, inEntity := false }

/-- The end of `ParseERDiagram`: an entity still open is committed. -/
def ERState.finish (st : ERState) : ERDiagram :=
  match st.inEntity, st.currentEntity with
  | true, some e => st.diagram.addEntity e
  | _, _ => st.diagram

/-- The source's `ParseERDiagram`: the diagram and `scanner.Err()`. -/
def ParseERDiagram (input : List Char) : ERDiagram × Option ScanError :=
  (((scanLines input).1.foldl erStep ERState.init).finish, (scanLines input).2)

/-! ## The entry point -/

/-- The loop of `DetectDiagramType` over the lines of the input. -/
def detectLines : List (List Char) → DiagramType
  | [] => .SequenceDiagramType
  | l :: ls =>
    let line := trimSpace l
    if hasPrefix line "erDiagram".toList then .ERDiagramType
    else if hasPrefix line "sequenceDiagram".toList then .SequenceDiagramType
    else detectLines ls

/-- The source's `DetectDiagramType`; the lines are those of `strings.Split(input, "\n")`. -/
def DetectDiagramType (input : List Char) : DiagramType :=
  detectLines (splitOnChar '\n' input)

/-- The interface `Diagram` with its two implementations. -/
inductive Diagram where
  | Sequence : SequenceDiagram → Diagram
  | ER : ERDiagram → Diagram
  deriving DecidableEq, Repr

/-- The method `GetType` of the two diagram types. -/
def Diagram.GetType : Diagram → DiagramType
  | .Sequence _ => .SequenceDiagramType
  | .ER _ => .ERDiagramType

/-- The source's `ParseDiagram`.  `DiagramType` has the two values that
`DetectDiagramType` returns, so the `default` branch of the source is never taken. -/
def ParseDiagram (input : List Char) : Diagram × Option ScanError :=
  match DetectDiagramType input with
  | .SequenceDiagramType =>
    (.Sequence (ParseSequenceDiagram input).1, (ParseSequenceDiagram input).2)
  | .ERDiagramType => (.ER (ParseERDiagram input).1, (ParseERDiagram input).2)

/-! ## The draw.io generator (`internal/drawio/generator.go`)

The coordinates are `float64` in the source.  Every coordinate that the generator
computes is a natural number (a sum of products of list positions and the layout
constants), and `float64` arithmetic is exact on integers below `2 ^ 53`, a bound that
no diagram that fits in memory reaches; the coordinates are therefore natural
numbers here.  A map of the source is a list of bindings, the newest first. -/

def EntityWidth : Nat := 200
def EntityHeight : Nat := 30
def AttributeHeight : Nat := 20
def EntitySpacing : Nat := 300
def StartX : Nat := 50
def StartY : Nat := 50
def EntitiesPerRow : Nat := 3

def ParticipantWidth : Nat := 100
def ParticipantHeight : Nat := 50
def ParticipantSpacing : Nat := 200
def ParticipantY : Nat := 50

/-- The source's `MxGeometry`; a nil pointer is `none`. -/
structure MxGeometry where
  X : Option Nat := none
  Y : Option Nat := none
  Width : Option Nat := none
  Height : Option Nat := none
  As : List Char
  deriving DecidableEq, Repr

/-- The source's `MxCell`; a field left out of a composite literal is empty. -/
structure MxCell where
  ID : List Char
  Value : List Char := []
  Style : List Char := []
  Vertex : List Char := []
  Edge : List Char := []
  Parent : List Char := []
  Source : List Char := []
  Target : List Char := []
  Geometry : Option MxGeometry := none
  deriving DecidableEq, Repr

/-- The source's `MxRoot`. -/
structure MxRoot where
  MxCells : List MxCell := []
  deriving DecidableEq, Repr

/-- The source's `MxGraphModel`. -/
structure MxGraphModel where
  Dx : Nat
  Dy : Nat
  Grid : Nat
  GridSize : Nat
  Guides : Nat
  Tooltips : Nat
  Connect : Nat
  Arrows : Nat
  Fold : Nat
  Page : Nat
  PageScale : Nat
  PageWidth : Nat
  PageHeight : Nat
  Math : Nat
  Shadow : Nat
  Root : MxRoot
  deriving DecidableEq, Repr

/-- The source's `createBaseModel`. -/
def createBaseModel : MxGraphModel :=
  { Dx := 1234
    Dy := 732
    Grid := 1
    GridSize := 10
    Guides := 1
    Tooltips := 1
    Connect := 1
    Arrows := 1
    Fold := 1
    Page := 1
    PageScale := 1
    PageWidth := 827
    PageHeight := 1169
    Math := 0
    Shadow := 0
    Root := {} }

/-- The source's `createDefaultCells`. -/
def createDefaultCells : List MxCell :=
  [{ ID := "0".toList }, { ID := "1".toList, Parent := "0".toList }]

/-- The decimal digits of a counter: `%d` of `fmt.Sprintf`. -/
def itoa (n : Nat) : List Char :=
  Nat.toDigits 10 n

/-- Reading a `map[string]string`: the newest binding of the key, the empty string
when the key has none. -/
def mapGet : List (List Char × List Char) → List Char → List Char
  | [], _ => []
  | (k, v) :: m, key => if key = k then v else mapGet m key

/-- Writing a `map[string]string`. -/
def mapSet (m : List (List Char × List Char)) (key v : List Char) :
    List (List Char × List Char) :=
  (key, v) :: m

/-- The text put before the label of a primary-key attribute, as the source file has
it: the four characters U+00F0, U+0178, U+201D, U+2018 and a blank. -/
def keyPrefix : List Char :=
  "ðŸ”‘ ".toList

/-- The text put before the label of a foreign-key attribute, as the source file has
it: the four characters U+00F0, U+0178, U+201D, U+2014 and a blank. -/
def linkPrefix : List Char :=
  "ðŸ”— ".toList

/-- The label of an attribute cell: the variable `attrText` of `GenerateERDrawIOXML`
after its four conditional updates. -/
def attrText (attr : Attribute) : List Char :=
  let t0 := attr.Name ++ ": ".toList ++ attr.Typ
  let t1 := if attr.IsPK then keyPrefix ++ t0 else t0
  let t2 := if attr.IsFK then linkPrefix ++ t1 else t1
  let t3 := if attr.IsUnique then t2 ++ " (UK)".toList else t2
  if attr.IsNotNull then t3 ++ " (NN)".toList else t3

/-- The style of an entity header cell. -/
def entityStyle : List Char :=
  ("swimlane;fontStyle=1;align=center;verticalAlign=middle;childLayout=stackLayout;" ++
    "horizontal=1;startSize=30;horizontalStack=0;resizeParent=1;resizeParentMax=0;" ++
    "resizeLast=0;collapsible=0;marginBottom=0;whiteSpace=wrap;html=1;").toList

/-- The style of an attribute cell. -/
def attributeStyle : List Char :=
  ("text;strokeColor=none;fillColor=none;align=left;verticalAlign=middle;spacingLeft=4;" ++
    "spacingRight=4;overflow=hidden;points=[[0,0.5],[1,0.5]];portConstraint=eastwest;" ++
    "rotatable=0;whiteSpace=wrap;html=1;").toList

/-- The style every relationship cell starts with. -/
def relationshipBaseStyle : List Char :=
  ("endArrow=none;html=1;rounded=0;entryX=0;entryY=0.5;entryDx=0;entryDy=0;" ++
    "exitX=1;exitY=0.5;exitDx=0;exitDy=0;").toList

/-- The loop over the attributes of one entity: `i` is the position of the next
attribute, the state is the slice `cells` and the counter `cellID`. -/
def attrLoop (headerID : List Char) (y : Nat) :
    Nat → List Attribute → List MxCell × Nat → List MxCell × Nat
  | _, [], st => st
  | i, attr :: rest, (cells, cellID) =>
    let attrY := y + EntityHeight + i * AttributeHeight
    let attrID := "attr_".toList ++ itoa cellID
    let attrCell : MxCell :=
      { ID := attrID
        Value := attrText attr
        Style := attributeStyle
        Vertex := "1".toList
        Parent := headerID
        Geometry := some
          { Y := some attrY
            Width := some EntityWidth
            Height := some AttributeHeight
            As := "geometry".toList } }
    attrLoop headerID y (i + 1) rest (cells ++ [attrCell], cellID + 1)

/-- The variables of `GenerateERDrawIOXML` that its loops update. -/
structure ERGen where
  cells : List MxCell
  cellID : Nat
  entityCells : List (List Char × List Char)
  currentRow : Nat
  currentCol : Nat
  deriving DecidableEq, Repr

/-- The body of the loop over the entities. -/
def entityStep (st : ERGen) (entity : Entity) : ERGen :=
  let x := StartX + st.currentCol * EntitySpacing
  let y := StartY + st.currentRow * EntitySpacing
  let totalHeight := EntityHeight + entity.Attributes.length * AttributeHeight
  let headerID := "entity_header_".toList ++ itoa st.cellID
  let headerCell : MxCell :=
    { ID := headerID
      Value := entity.Name
      Style := entityStyle
      Vertex := "1".toList
      Parent := "1".toList
      Geometry := some
        { X := some x
          Y := some y
          Width := some EntityWidth
          Height := some totalHeight
          As := "geometry".toList } }
  let r := attrLoop headerID y 0 entity.Attributes (st.cells ++ [headerCell], st.cellID + 1)
  if EntitiesPerRow ≤ st.currentCol + 1 then
    { cells := r.1
      cellID := r.2
      entityCells := mapSet st.entityCells entity.Name headerID
      currentRow := st.currentRow + 1
      currentCol := 0 }
  else
    { cells := r.1
      cellID := r.2
      entityCells := mapSet st.entityCells entity.Name headerID
      currentRow := st.currentRow
      currentCol := st.currentCol + 1 }

/-- The arrow decoration that the `switch` on the relationship type appends. -/
def relationshipArrows : RelationshipType → List Char
  | .OneToOne => "startArrow=ERone;endArrow=ERone;".toList
  | .OneToMany => "startArrow=ERone;endArrow=ERmany;".toList
  | .ManyToOne => "startArrow=ERmany;endArrow=ERone;".toList
  | .ManyToMany => "startArrow=ERmany;endArrow=ERmany;".toList
  | .Identifying => []
  | .NonIdentifying => []

/-- The body of the loop over the relationships. -/
def relationshipStep (st : ERGen) (relationship : Relationship) : ERGen :=
  let fromID := mapGet st.entityCells relationship.From
  let toID := mapGet st.entityCells relationship.To
  if fromID = [] ∨ toID = [] then st
  else
    let style := relationshipBaseStyle ++ relationshipArrows relationship.Typ
    let relationshipCell : MxCell :=
      { ID := "relationship_".toList ++ itoa st.cellID
        Value := relationship.Label
        Style := style
        Edge := "1".toList
        Parent := "1".toList
        Source := fromID
        Target := toID
        Geometry := some { As := "geometry".toList } }
    { st with cells := st.cells ++ [relationshipCell], cellID := st.cellID + 1 }

/-- The variables of `GenerateERDrawIOXML` before its first loop. -/
def ERGen.init : ERGen :=
  { cells := createDefaultCells, cellID := 2, entityCells := [], currentRow := 0,
    currentCol := 0 }

/-- The slice `cells` of `GenerateERDrawIOXML` after its two loops: the cell list of the
generated document. -/
def erCells (diagram : ERDiagram) : List MxCell :=
  (diagram.Relationships.foldl relationshipStep
    (diagram.Entities.foldl entityStep ERGen.init)).cells

/-- The integer value of a `MessageType` constant. -/
def MessageType.toInt : MessageType → Int
  | .SolidArrow => 0
  | .DashedArrow => 1
  | .SolidArrowWithX => 2
  | .DashedArrowWithX => 3
  | .Note => 4

/-- The `switch` of `GenerateSequenceDrawIOXML` on the message type, over the integer
value of the type: a `MessageType` of the source is an `int`, and a value outside the
five constants takes the `default` branch. -/
def messageStyle (t : Int) : List Char :=
  if t = MessageType.SolidArrow.toInt then "endArrow=classic;html=1;".toList
  else if t = MessageType.DashedArrow.toInt then "endArrow=classic;html=1;dashed=1;".toList
  else if t = MessageType.SolidArrowWithX.toInt then "endArrow=block;endFill=1;html=1;".toList
  else if t = MessageType.DashedArrowWithX.toInt then
    "endArrow=block;endFill=1;html=1;dashed=1;".toList
  else "endArrow=classic;html=1;".toList

/-- The variables of `GenerateSequenceDrawIOXML` that its loops update. -/
structure SeqGen where
  cells : List MxCell
  cellID : Nat
  participantCells : List (List Char × List Char)
  deriving DecidableEq, Repr

/-- The loop over the participants: `i` is the position of the next participant. -/
def participantLoop : Nat → List Participant → SeqGen → SeqGen
  | _, [], st => st
  | i, participant :: rest, st =>
    let x := StartX + i * ParticipantSpacing
    let id := "participant_".toList ++ itoa st.cellID
    let cell : MxCell :=
      { ID := id
        Value := participant.Alias
        Style := "rounded=0;whiteSpace=wrap;html=1;".toList
        Vertex := "1".toList
        Parent := "1".toList
        Geometry := some
          { X := some x
            Y := some ParticipantY
            Width := some ParticipantWidth
            Height := some ParticipantHeight
            As := "geometry".toList } }
    let lifelineCell : MxCell :=
      { ID := "lifeline_".toList ++ itoa (st.cellID + 1)
        Style := "endArrow=none;dashed=1;html=1;".toList
        Edge := "1".toList
        Parent := "1".toList
        Geometry := some { As := "geometry".toList } }
    participantLoop (i + 1) rest
      { cells := st.cells ++ [cell] ++ [lifelineCell]
        cellID := st.cellID + 2
        participantCells := mapSet st.participantCells participant.Name id }

/-- The body of the loop over the messages. -/
def messageStep (st : SeqGen) (message : Message) : SeqGen :=
  let fromID := mapGet st.participantCells message.From
  let toID := mapGet st.participantCells message.To
  if fromID = [] ∨ toID = [] then st
  else
    let messageCell : MxCell :=
      { ID := "message_".toList ++ itoa st.cellID
        Value := message.Text
        Style := messageStyle message.Typ.toInt
        Edge := "1".toList
        Parent := "1".toList
        Source := fromID
        Target := toID
        Geometry := some { As := "geometry".toList } }
    { st with cells := st.cells ++ [messageCell], cellID := st.cellID + 1 }

/-- The variables of `GenerateSequenceDrawIOXML` before its first loop. -/
def SeqGen.init : SeqGen :=
  { cells := createDefaultCells, cellID := 2, participantCells := [] }

/-- The slice `cells` of `GenerateSequenceDrawIOXML` after its two loops: the cell list
of the generated document. -/
def sequenceCells (diagram : SequenceDiagram) : List MxCell :=
  (diagram.Messages.foldl messageStep
    (participantLoop 0 diagram.Participants SeqGen.init)).cells

/-! ### The XML text (`encoding/xml`)

The text that `xml.MarshalIndent(model, "", "  ")` writes for a model: every element
on a line of its own, two blanks for each level, an element without children closed
on its line.  The marshaller fails only on values that have no XML form (channels,
functions, ...); the model has none, so the error branch of the source after
`xml.MarshalIndent` is never taken. -/

/-- The `xml.Header`. -/
def xmlHeader : List Char :=
  "<?xml version=\x221.0\x22 encoding=\x22UTF-8\x22?>\n".toList

/-- The characters that XML allows (`isInCharacterRange` of `encoding/xml`). -/
def isInCharacterRange (c : Char) : Bool :=
  c.toNat == 0x09 || c.toNat == 0x0A || c.toNat == 0x0D ||
    (0x20 ≤ c.toNat && c.toNat ≤ 0xD7FF) || (0xE000 ≤ c.toNat && c.toNat ≤ 0xFFFD) ||
    (0x10000 ≤ c.toNat && c.toNat ≤ 0x10FFFF)

/-- The escape of one character of an attribute value. -/
def escapeChar (c : Char) : List Char :=
  if c = Char.ofNat 34 then "&#34;".toList
  else if c = Char.ofNat 39 then "&#39;".toList
  else if c = '&' then "&amp;".toList
  else if c = '<' then "&lt;".toList
  else if c = '>' then "&gt;".toList
  else if c = '\t' then "&#x9;".toList
  else if c = '\n' then "&#xA;".toList
  else if c = '\r' then "&#xD;".toList
  else if isInCharacterRange c then [c]
  else [Char.ofNat 0xFFFD]

/-- The escape of an attribute value (`EscapeString`). -/
def escapeString (s : List Char) : List Char :=
  s.flatMap escapeChar

/-- The text of a coordinate, `strconv.FormatFloat(f, 'g', -1, 64)` on a natural
number: the decimal digits up to six of them, the exponent form from seven on. -/
def formatFloat (n : Nat) : List Char :=
  let ds := Nat.toDigits 10 n
  if ds.length ≤ 6 then ds
  else
    let e := Nat.toDigits 10 (ds.length - 1)
    (match dropWhileEnd (fun c => c == '0') ds with
      | [] => []
      | [x] => [x]
      | x :: rest => x :: '.' :: rest) ++
      "e+".toList ++ (if e.length < 2 then '0' :: e else e)

/-- One attribute of a start tag. -/
def xmlAttr (name value : List Char) : List Char :=
  ' ' :: name ++ "=\x22".toList ++ escapeString value ++ "\x22".toList

/-- An attribute with `omitempty`, of a string. -/
def xmlAttrOmitEmpty (name value : List Char) : List Char :=
  if value = [] then [] else xmlAttr name value

/-- An attribute with `omitempty`, of a pointer to a coordinate. -/
def xmlFloatAttr (name : List Char) : Option Nat → List Char
  | none => []
  | some x => xmlAttr name (formatFloat x)

/-- The element of a geometry. -/
def marshalGeometry (g : MxGeometry) : List Char :=
  "<mxGeometry".toList ++ xmlFloatAttr "x".toList g.X ++ xmlFloatAttr "y".toList g.Y ++
    xmlFloatAttr "width".toList g.Width ++ xmlFloatAttr "height".toList g.Height ++
    xmlAttr "as".toList g.As ++ "></mxGeometry>".toList

/-- The lines of a cell. -/
def marshalCell (c : MxCell) : List Char :=
  "    <mxCell".toList ++ xmlAttr "id".toList c.ID ++ xmlAttrOmitEmpty "value".toList c.Value ++
    xmlAttrOmitEmpty "style".toList c.Style ++ xmlAttrOmitEmpty "vertex".toList c.Vertex ++
    xmlAttrOmitEmpty "edge".toList c.Edge ++ xmlAttrOmitEmpty "parent".toList c.Parent ++
    xmlAttrOmitEmpty "source".toList c.Source ++ xmlAttrOmitEmpty "target".toList c.Target ++
    ">".toList ++
    (match c.Geometry with
      | none => []
      | some g => "\n      ".toList ++ marshalGeometry g ++ "\n    ".toList) ++
    "</mxCell>".toList

/-- The text of `xml.MarshalIndent(model, "", "  ")`. -/
def marshalIndent (model : MxGraphModel) : List Char :=
  "<mxGraphModel".toList ++ xmlAttr "dx".toList (itoa model.Dx) ++
    xmlAttr "dy".toList (itoa model.Dy) ++ xmlAttr "grid".toList (itoa model.Grid) ++
    xmlAttr "gridSize".toList (itoa model.GridSize) ++
    xmlAttr "guides".toList (itoa model.Guides) ++
    xmlAttr "tooltips".toList (itoa model.Tooltips) ++
    xmlAttr "connect".toList (itoa model.Connect) ++
    xmlAttr "arrows".toList (itoa model.Arrows) ++ xmlAttr "fold".toList (itoa model.Fold) ++
    xmlAttr "page".toList (itoa model.Page) ++
    xmlAttr "pageScale".toList (formatFloat model.PageScale) ++
    xmlAttr "pageWidth".toList (itoa model.PageWidth) ++
    xmlAttr "pageHeight".toList (itoa model.PageHeight) ++
    xmlAttr "math".toList (itoa model.Math) ++ xmlAttr "shadow".toList (itoa model.Shadow) ++
    ">\n  <root>".toList ++
    (if model.Root.MxCells = [] then []
      else model.Root.MxCells.flatMap (fun c => '\n' :: marshalCell c) ++ "\n  ".toList) ++
    "</root>\n</mxGraphModel>".toList

/-- The source's `generateXMLOutput`: the text, or the message of an error. -/
def generateXMLOutput (model : MxGraphModel) : Except (List Char) (List Char) :=
  .ok (xmlHeader ++ marshalIndent model)

/-- The source's `GenerateERDrawIOXML`. -/
def GenerateERDrawIOXML (diagram : ERDiagram) : Except (List Char) (List Char) :=
  .ok (xmlHeader ++ marshalIndent { createBaseModel with Root := { MxCells := erCells diagram } })

/-- The source's `GenerateSequenceDrawIOXML`. -/
def GenerateSequenceDrawIOXML (diagram : SequenceDiagram) : Except (List Char) (List Char) :=
  generateXMLOutput { createBaseModel with Root := { MxCells := sequenceCells diagram } }

/-- What a value of the interface type `Diagram` holds when `GenerateDrawIOXML`
receives it: a sequence diagram, an ER diagram, or a value of another type that has
the method `GetType` (the type switch sends every such value, and the `nil` interface
value, to its `default` branch). -/
inductive DiagramValue where
  | Sequence : SequenceDiagram → DiagramValue
  | ER : ERDiagram → DiagramValue
  | Other : DiagramValue
  deriving DecidableEq, Repr

/-- A diagram of the parser as a value of the interface type. -/
def Diagram.toValue : Diagram → DiagramValue
  | .Sequence d => .Sequence d
  | .ER d => .ER d

/-- The source's `GenerateDrawIOXML`: the text, or the message of the error. -/
def GenerateDrawIOXML : DiagramValue → Except (List Char) (List Char)
  | .Sequence d => GenerateSequenceDrawIOXML d
  | .ER d => GenerateERDrawIOXML d
  | .Other => .error "unsupported diagram type".toList

/-! ## Definitions used in the statements and proofs -/

/-- The suffixes of `w` put before `rest`, the shortest first: what is left of the
input after a greedy repetition over `w` gives back none, one, two ... characters. -/
def backoff : List Char → List Char → List (List Char)
  | [], rest => [rest]
  | x :: w, rest => backoff w rest ++ [x :: w ++ rest]

/-- The first match of `r` on `s` leaves `x`. -/
def Re.Starts (r : Re) (s : List Char) (c : Caps) (x : List Char × Caps) : Prop :=
  (r.run s c).head? = some x

/-- Does not begin with a character of the class `p`. -/
def NoHead (p : Char → Bool) (s : List Char) : Prop :=
  ∀ ch t, s = ch :: t → p ch = false

/-- A word-character name: a non-empty text of characters of `\w`. -/
abbrev IsName (s : List Char) : Prop :=
  s ≠ [] ∧ ∀ ch ∈ s, isWordChar ch = true

/-- One of the four arrows `->`, `-->`, `->>`, `-->>`. -/
abbrev IsArrow (a : List Char) : Prop :=
  a = "->".toList ∨ a = "-->".toList ∨ a = "->>".toList ∨ a = "-->>".toList

/-- The message line `<from><arrow><to>: <text>`. -/
def messageLine (src arrow dst text : List Char) : List Char :=
  src ++ (arrow ++ (dst ++ (':' :: ' ' :: text)))

/-- The text that a message line `... : <text>` yields: the line loses its trailing
white space (`TrimSpace`) and the expression skips the `\s` characters after the colon. -/
def messageText (text : List Char) : List Char :=
  (dropWhileEnd isSpace (' ' :: text)).dropWhile isReSpace

/-- The text whose lines are `first`, then the lines of `rest`, separated by `\n`. -/
def joinLines (first : List Char) (rest : List (List Char)) : List Char :=
  first ++ rest.flatMap (fun l => '\n' :: l)

/-- Appends the name when it is new. -/
def addName (acc : List (List Char)) (n : List Char) : List (List Char) :=
  if n ∈ acc then acc else acc ++ [n]

/-- The parts of a message line `<from><arrow><to>: <text>`. -/
structure MessageLine where
  src : List Char
  arrow : List Char
  dst : List Char
  text : List Char
  deriving DecidableEq, Repr

/-- The line as it is written. -/
def MessageLine.render (m : MessageLine) : List Char :=
  messageLine m.src m.arrow m.dst m.text

/-- The endpoints are word-character names, the arrow is one of the four arrows and
the text stays on the line. -/
abbrev MessageLine.WF (m : MessageLine) : Prop :=
  IsName m.src ∧ IsArrow m.arrow ∧ IsName m.dst ∧ '\n' ∉ m.text

/-- The names that the message lines use, in the order of use. -/
def endpoints (ms : List MessageLine) : List (List Char) :=
  ms.flatMap (fun m => [m.src, m.dst])

/-- The participant that a message synthesises for the name `n`. -/
def Participant.ofName (n : List Char) : Participant :=
  { Name := n, Alias := n }

/-- The loop state lists the names `names`, each once, in the order of first use. -/
def SeqState.Lists (st : SeqState) (names : List (List Char)) : Prop :=
  st.diagram.Participants = (names.foldl addName []).map Participant.ofName ∧
    ∀ n, n ∈ st.participantMap ↔ n ∈ names

/-- The text has no white space at its start or end and no newline. -/
abbrev IsTrimmedText (text : List Char) : Prop :=
  (∀ c, text.head? = some c → isSpace c = false) ∧
  (∀ c, text.getLast? = some c → isSpace c = false) ∧ '\n' ∉ text

/-- One of the four constraint markers `PK`, `FK`, `UK`, `NOT NULL`. -/
abbrev IsMarker (m : List Char) : Prop :=
  m = "PK".toList ∨ m = "FK".toList ∨ m = "UK".toList ∨ m = "NOT NULL".toList

/-- The parts of an attribute line `<type> <name>` or `<type> <name> <marker>`. -/
structure AttributeLine where
  typ : List Char
  name : List Char
  marker : Option (List Char)
  deriving DecidableEq, Repr

/-- The line as it is written. -/
def AttributeLine.render (a : AttributeLine) : List Char :=
  a.typ ++ (' ' :: (a.name ++
    (match a.marker with
     | none => []
     | some m => ' ' :: m)))

/-- The type and the name are word-character tokens and the marker, when there is
one, is one of the four markers. -/
abbrev AttributeLine.WF (a : AttributeLine) : Prop :=
  IsName a.typ ∧ IsName a.name ∧ ∀ m, a.marker = some m → IsMarker m

/-- The attribute that the line declares: the flag of its marker is set, no other. -/
def AttributeLine.attribute (a : AttributeLine) : Attribute :=
  { Name := a.name, Typ := a.typ,
    IsPK := a.marker == some "PK".toList,
    IsFK := a.marker == some "FK".toList,
    IsUnique := a.marker == some "UK".toList,
    IsNotNull := a.marker == some "NOT NULL".toList }

/-- The end of `attributeRegex`: `(?:\s+(PK|FK|UK|NOT NULL))*`. -/
def attributeMarks : Re :=
  .star (.seq (Re.plus (.cls isReSpace))
    (.grp 3 (.alt (Re.str "PK".toList) (.alt (Re.str "FK".toList)
      (.alt (Re.str "UK".toList) (Re.str "NOT NULL".toList))))))

/-- The text whose lines are `ls`, separated by `\n`. -/
def joinAll : List (List Char) → List Char
  | [] => []
  | l :: ls => joinLines l ls

/-- A token of the left part of a relationship line: a non-empty text without white
space and without a colon. -/
abbrev IsToken (w : List Char) : Prop :=
  w ≠ [] ∧ ∀ c ∈ w, isSpace c = false ∧ c ≠ ':'

/-- One repetition of the end of `attributeRegex`: `\s+(PK|FK|UK|NOT NULL)`. -/
def attributeMark : Re :=
  .seq (Re.plus (.cls isReSpace))
    (.grp 3 (.alt (Re.str "PK".toList) (.alt (Re.str "FK".toList)
      (.alt (Re.str "UK".toList) (Re.str "NOT NULL".toList)))))

/-- The end of `participantRegex` inside its optional group: `\s+as\s+(.+)`. -/
def participantAlias : Re :=
  .seq (Re.plus (.cls isReSpace)) (.seq (Re.str "as".toList)
    (.seq (Re.plus (.cls isReSpace)) (.grp 2 (Re.plus (.cls isAnyChar)))))

/-- The names that occur on a line of a sequence text, in the order of occurrence:
the name of a participant declaration, or the sender and the receiver of a message;
none on a skipped or unrecognised line. -/
def lineNames (text : List Char) : List (List Char) :=
  if shouldSkipSequenceLine (trimSpace text) then []
  else
    match parseParticipant (trimSpace text) with
    | some p => [p.Name]
    | none =>
      match parseMessage (trimSpace text) with
      | some m => [m.From, m.To]
      | none => []

/-- The participants of the loop state are named `names`, each name once, in the order
of first occurrence, and `participantMap` holds exactly these names. -/
def SeqState.Names (st : SeqState) (names : List (List Char)) : Prop :=
  st.diagram.Participants.map Participant.Name = names.foldl addName [] ∧
    ∀ n, n ∈ st.participantMap ↔ n ∈ names

/-- The text with the line `L` inserted at line position `i` (before the line number
`i`, counted from 0; after the last line when `i` is the number of lines or more). -/
def insertLine (text : List Char) (i : Nat) (L : List Char) : List Char :=
  joinAll ((splitOnChar '\n' text).take i ++ L :: (splitOnChar '\n' text).drop i)

/-- The part of `messageRegex` after the arrow: `\s*(\w+)\s*:\s*(.*)`. -/
def messageTail : Re :=
  .seq (.star (.cls isReSpace)) (.seq (.grp 3 (Re.plus (.cls isWordChar)))
    (.seq (.star (.cls isReSpace)) (.seq (.lit ':')
      (.seq (.star (.cls isReSpace)) (.grp 4 (.star (.cls isAnyChar)))))))

/-- The arrows of `messageRegex`, in the order of its alternation. -/
def messageArrows : Re :=
  .alt (Re.str ['-', '>']) (.alt (Re.str ['-', '-', '>'])
    (.alt (Re.str ['-', '>', '>']) (Re.str ['-', '-', '>', '>'])))

/-- The identifier of the header cell that is the cell number `n` of the list. -/
def headerID (n : Nat) : List Char :=
  "entity_header_".toList ++ itoa n

/-- The attribute cell number `cellID` of the list, for the attribute at position `i`
of an entity whose header has the identifier `hid` and the ordinate `y`. -/
def attrCellAt (hid : List Char) (y i cellID : Nat) (attr : Attribute) : MxCell :=
  { ID := "attr_".toList ++ itoa cellID
    Value := attrText attr
    Style := attributeStyle
    Vertex := "1".toList
    Parent := hid
    Geometry := some
      { Y := some (y + 30 + 20 * i)
        Width := some 200
        Height := some 20
        As := "geometry".toList } }

/-- The attribute cells of one entity, from position `i` and cell number `cellID` on. -/
def attrCells (hid : List Char) (y : Nat) : Nat → Nat → List Attribute → List MxCell
  | _, _, [] => []
  | i, cellID, attr :: rest =>
    attrCellAt hid y i cellID attr :: attrCells hid y (i + 1) (cellID + 1) rest

/-- The header cell number `cellID` of the list, for the entity at position `k`. -/
def headerCellAt (k cellID : Nat) (e : Entity) : MxCell :=
  { ID := headerID cellID
    Value := e.Name
    Style := entityStyle
    Vertex := "1".toList
    Parent := "1".toList
    Geometry := some
      { X := some (50 + (k % 3) * 300)
        Y := some (50 + (k / 3) * 300)
        Width := some 200
        Height := some (30 + 20 * e.Attributes.length)
        As := "geometry".toList } }

/-- The number of cells of a list of entities: one header and one cell for each
attribute. -/
def blockSize (es : List Entity) : Nat :=
  es.length + (es.map (fun e => e.Attributes.length)).sum

/-- The cells of a list of entities whose first is at position `k` and has the cell
number `cellID`. -/
def entityBlocks : Nat → Nat → List Entity → List MxCell
  | _, _, [] => []
  | k, cellID, e :: es =>
    headerCellAt k cellID e ::
      (attrCells (headerID cellID) (50 + (k / 3) * 300) 0 (cellID + 1) e.Attributes ++
        entityBlocks (k + 1) (cellID + 1 + e.Attributes.length) es)

/-- The bindings of `entityCells` for a list of entities whose first has the cell
number `cellID`, the newest first. -/
def entityBindings : Nat → List Entity → List (List Char × List Char)
  | _, [] => []
  | cellID, e :: es =>
    entityBindings (cellID + 1 + e.Attributes.length) es ++ [(e.Name, headerID cellID)]

/-- The position of the header cell of the entity number `i` in the cell list. -/
def entityOffset (es : List Entity) (i : Nat) : Nat :=
  2 + blockSize (es.take i)

/-- The relationship cell number `cellID` of the list, with the map `m` of the
header cells. -/
def relationshipCellAt (m : List (List Char × List Char)) (cellID : Nat) (r : Relationship) :
    MxCell :=
  { ID := "relationship_".toList ++ itoa cellID
    Value := r.Label
    Style := relationshipBaseStyle ++ relationshipArrows r.Typ
    Edge := "1".toList
    Parent := "1".toList
    Source := mapGet m r.From
    Target := mapGet m r.To
    Geometry := some { As := "geometry".toList } }

/-- The relationship has both its ends in the map `m`. -/
def bound (m : List (List Char × List Char)) (src dst : List Char) : Bool :=
  decide (¬ (mapGet m src = [] ∨ mapGet m dst = []))

/-- The cells of a list of relationships, the first of which would get the cell
number `cellID`. -/
def relationshipCells (m : List (List Char × List Char)) :
    Nat → List Relationship → List MxCell
  | _, [] => []
  | cellID, r :: rs =>
    if bound m r.From r.To then
      relationshipCellAt m cellID r :: relationshipCells m (cellID + 1) rs
    else relationshipCells m cellID rs

/-- The identifier of the participant cell that is the cell number `n` of the list. -/
def participantID (n : Nat) : List Char :=
  "participant_".toList ++ itoa n

/-- The cell number `cellID` of the list, for the participant at position `i`. -/
def participantCellAt (i cellID : Nat) (p : Participant) : MxCell :=
  { ID := participantID cellID
    Value := p.Alias
    Style := "rounded=0;whiteSpace=wrap;html=1;".toList
    Vertex := "1".toList
    Parent := "1".toList
    Geometry := some
      { X := some (50 + 200 * i)
        Y := some 50
        Width := some 100
        Height := some 50
        As := "geometry".toList } }

/-- The lifeline cell number `cellID` of the list. -/
def lifelineCellAt (cellID : Nat) : MxCell :=
  { ID := "lifeline_".toList ++ itoa cellID
    Style := "endArrow=none;dashed=1;html=1;".toList
    Edge := "1".toList
    Parent := "1".toList
    Geometry := some { As := "geometry".toList } }

/-- The cells of a list of participants whose first is at position `i` and has the
cell number `cellID`. -/
def participantBlocks : Nat → Nat → List Participant → List MxCell
  | _, _, [] => []
  | i, cellID, p :: ps =>
    participantCellAt i cellID p :: lifelineCellAt (cellID + 1) ::
      participantBlocks (i + 1) (cellID + 2) ps

/-- The bindings of `participantCells` for a list of participants whose first has the
cell number `cellID`, the newest first. -/
def participantBindings : Nat → List Participant → List (List Char × List Char)
  | _, [] => []
  | cellID, p :: ps => participantBindings (cellID + 2) ps ++ [(p.Name, participantID cellID)]

/-- The message cell number `cellID` of the list, with the map `m` of the participant
cells. -/
def messageCellAt (m : List (List Char × List Char)) (cellID : Nat) (msg : Message) : MxCell :=
  { ID := "message_".toList ++ itoa cellID
    Value := msg.Text
    Style := messageStyle msg.Typ.toInt
    Edge := "1".toList
    Parent := "1".toList
    Source := mapGet m msg.From
    Target := mapGet m msg.To
    Geometry := some { As := "geometry".toList } }

/-- The cells of a list of messages, the first of which would get the cell number
`cellID`. -/
def messageCells (m : List (List Char × List Char)) : Nat → List Message → List MxCell
  | _, [] => []
  | cellID, msg :: ms =>
    if bound m msg.From msg.To then
      messageCellAt m cellID msg :: messageCells m (cellID + 1) ms
    else messageCells m cellID ms

/-- The first of the two structural cells. -/
def rootCell : MxCell :=
  { ID := "0".toList }

/-- The second of the two structural cells: the layer that holds the diagram. -/
def layerCell : MxCell :=
  { ID := "1".toList, Parent := "0".toList }

/-- The number that a text of decimal digits writes, after the digits `acc`. -/
def digitsValue : Nat → List Char → Nat
  | acc, [] => acc
  | acc, c :: cs => digitsValue (10 * acc + (c.toNat - 48)) cs

/-- The number at the end of an identifier: the value of what follows the characters
that are not digits. -/
def idNumber (id : List Char) : Nat :=
  digitsValue 0 (id.dropWhile (fun c => !c.isDigit))

/-- Every key of `participantMap` is the name of a participant of the diagram, and
both ends of every message of the diagram are names of participants. -/
def SeqState.Closed (st : SeqState) : Prop :=
  (∀ n ∈ st.participantMap, n ∈ st.diagram.Participants.map (fun p => p.Name)) ∧
    ∀ m ∈ st.diagram.Messages,
      m.From ∈ st.diagram.Participants.map (fun p => p.Name) ∧
        m.To ∈ st.diagram.Participants.map (fun p => p.Name)

/-- The attribute that a line inside an entity block adds, if any: none when the
line is skipped, else what `parseAttribute` returns for the trimmed line. -/
def blockAttribute (l : List Char) : Option Attribute :=
  if shouldSkipLine (trimSpace l) then none else parseAttribute (trimSpace l)

/-! ## The matcher: general facts -/

@[simp] theorem run_eps (s : List Char) (c : Caps) : Re.eps.run s c = [(s, c)] := rfl

@[simp] theorem run_lit_nil (x : Char) (c : Caps) : (Re.lit x).run [] c = [] := rfl

@[simp] theorem run_lit_cons (x y : Char) (t : List Char) (c : Caps) :
    (Re.lit x).run (y :: t) c = if y = x then [(t, c)] else [] := rfl

@[simp] theorem run_cls_nil (p : Char → Bool) (c : Caps) : (Re.cls p).run [] c = [] := rfl

@[simp] theorem run_cls_cons (p : Char → Bool) (y : Char) (t : List Char) (c : Caps) :
    (Re.cls p).run (y :: t) c = if p y = true then [(t, c)] else [] := rfl

@[simp] theorem run_seq (a b : Re) (s : List Char) (c : Caps) :
    (Re.seq a b).run s c = (a.run s c).flatMap (fun rc => b.run rc.1 rc.2) := rfl

@[simp] theorem run_alt (a b : Re) (s : List Char) (c : Caps) :
    (Re.alt a b).run s c = a.run s c ++ b.run s c := rfl

@[simp] theorem run_opt (a : Re) (s : List Char) (c : Caps) :
    (Re.opt a).run s c = a.run s c ++ [(s, c)] := rfl

@[simp] theorem run_grp (i : Nat) (a : Re) (s : List Char) (c : Caps) :
    (Re.grp i a).run s c =
      (a.run s c).map (fun rc => (rc.1, rc.2.set i (s.take (s.length - rc.1.length)))) := rfl

theorem run_star (a : Re) (s : List Char) (c : Caps) :
    (Re.star a).run s c = starRun a.run s.length s c := rfl

theorem run_plus (a : Re) (s : List Char) (c : Caps) :
    (Re.plus a).run s c = (a.run s c).flatMap (fun rc => (Re.star a).run rc.1 rc.2) := rfl

theorem backoff_cons (w rest : List Char) : ∃ tl, backoff w rest = rest :: tl := by
  induction w with
  | nil => exact ⟨[], rfl⟩
  | cons x w ih =>
    obtain ⟨tl, h⟩ := ih
    exact ⟨tl ++ [x :: w ++ rest], by simp [backoff, h]⟩

theorem mem_backoff {w rest x : List Char} (h : x ∈ backoff w rest) :
    ∃ u v, w = u ++ v ∧ x = v ++ rest := by
  induction w with
  | nil =>
    simp [backoff] at h
    exact ⟨[], [], rfl, by simp [h]⟩
  | cons y w ih =>
    simp only [backoff, List.mem_append, List.mem_singleton] at h
    rcases h with h | h
    · obtain ⟨u, v, h1, h2⟩ := ih h
      exact ⟨y :: u, v, by simp [h1], h2⟩
    · exact ⟨[], y :: w, rfl, by simp [h]⟩

theorem starRun_cls (p : Char → Bool) (w rest : List Char) (c : Caps)
    (hw : ∀ ch ∈ w, p ch = true) (hr : NoHead p rest) :
    ∀ n, w.length ≤ n →
      starRun (Re.run (.cls p)) n (w ++ rest) c = (backoff w rest).map (fun r => (r, c)) := by
  induction w with
  | nil =>
    intro n _
    cases n with
    | zero => simp [starRun, backoff]
    | succ n =>
      cases rest with
      | nil => simp [starRun, backoff]
      | cons ch t =>
        have := hr ch t rfl
        simp [starRun, backoff, this]
  | cons x w ih =>
    intro n hn
    cases n with
    | zero => simp at hn
    | succ n =>
      have hx : p x = true := hw x (by simp)
      have hw2 : ∀ ch ∈ w, p ch = true := fun ch h => hw ch (by simp [h])
      have := ih hw2 n (by simpa using hn)
      simp [starRun, backoff, hx, this]

theorem run_star_cls (p : Char → Bool) (w rest : List Char) (c : Caps)
    (hw : ∀ ch ∈ w, p ch = true) (hr : NoHead p rest) :
    (Re.star (.cls p)).run (w ++ rest) c = (backoff w rest).map (fun r => (r, c)) := by
  rw [run_star]
  exact starRun_cls p w rest c hw hr _ (by simp)

theorem run_plus_cls (p : Char → Bool) (x : Char) (w rest : List Char) (c : Caps)
    (hx : p x = true) (hw : ∀ ch ∈ w, p ch = true) (hr : NoHead p rest) :
    (Re.plus (.cls p)).run (x :: (w ++ rest)) c = (backoff w rest).map (fun r => (r, c)) := by
  have := run_star_cls p w rest c hw hr
  simp [run_plus, hx, this]

theorem mem_starRun_cls (p : Char → Bool) (c : Caps) :
    ∀ (n : Nat) (s : List Char) (x : List Char × Caps),
      x ∈ starRun (Re.run (.cls p)) n s c →
      x.2 = c ∧ ∃ w, s = w ++ x.1 ∧ ∀ ch ∈ w, p ch = true := by
  intro n
  induction n with
  | zero =>
    intro s x h
    simp [starRun] at h
    subst h
    exact ⟨rfl, [], rfl, by simp⟩
  | succ n ih =>
    intro s x h
    simp only [starRun, List.mem_append, List.mem_flatMap, List.mem_singleton] at h
    rcases h with ⟨y, hy, hx⟩ | h
    · cases s with
      | nil => simp at hy
      | cons ch t =>
        by_cases hp : p ch = true
        · simp [hp] at hy
          subst hy
          obtain ⟨h1, w, h2, h3⟩ := ih _ _ hx
          refine ⟨h1, ch :: w, by simp [← h2], ?_⟩
          intro d hd
          simp at hd
          rcases hd with hd | hd
          · simpa [hd] using hp
          · exact h3 d hd
        · simp [hp] at hy
    · subst h
      exact ⟨rfl, [], rfl, by simp⟩

theorem mem_run_star_cls {p : Char → Bool} {c : Caps} {s : List Char} {x : List Char × Caps}
    (h : x ∈ (Re.star (.cls p)).run s c) :
    x.2 = c ∧ ∃ w, s = w ++ x.1 ∧ ∀ ch ∈ w, p ch = true :=
  mem_starRun_cls p c _ s x h

theorem mem_run_plus_cls {p : Char → Bool} {c : Caps} {s : List Char} {x : List Char × Caps}
    (h : x ∈ (Re.plus (.cls p)).run s c) :
    x.2 = c ∧ ∃ ch w, s = ch :: w ++ x.1 ∧ p ch = true ∧ ∀ d ∈ w, p d = true := by
  simp only [run_plus, List.mem_flatMap] at h
  obtain ⟨y, hy, hx⟩ := h
  cases s with
  | nil => simp at hy
  | cons ch t =>
    by_cases hp : p ch = true
    · simp [hp] at hy
      subst hy
      obtain ⟨h1, w, h2, h3⟩ := mem_run_star_cls hx
      exact ⟨h1, ch, w, by simp [← h2], hp, h3⟩
    · simp [hp] at hy

theorem mem_run_str {c : Caps} {x : List Char × Caps} :
    ∀ (l s : List Char), x ∈ (Re.str l).run s c → x.2 = c ∧ s = l ++ x.1 := by
  intro l
  induction l with
  | nil =>
    intro s h
    simp [Re.str] at h
    simp [h]
  | cons a l ih =>
    intro s h
    cases l with
    | nil =>
      cases s with
      | nil => simp [Re.str] at h
      | cons y t =>
        by_cases hy : y = a
        · simp [Re.str, hy] at h
          simp [h, hy]
        · simp [Re.str, hy] at h
    | cons b l =>
      cases s with
      | nil => simp [Re.str] at h
      | cons y t =>
        by_cases hy : y = a
        · simp only [Re.str, run_seq, run_lit_cons, hy, if_true, List.flatMap_cons,
            List.flatMap_nil, List.append_nil] at h
          obtain ⟨h1, h2⟩ := ih t h
          exact ⟨h1, by rw [h2, hy]; simp⟩
        · simp [Re.str, hy] at h

theorem run_str_append (l rest : List Char) (c : Caps) :
    (Re.str l).run (l ++ rest) c = [(rest, c)] := by
  induction l with
  | nil => simp [Re.str]
  | cons a l ih =>
    cases l with
    | nil => simp [Re.str]
    | cons b l => simpa [Re.str] using ih

theorem Re.Starts.seq {a b : Re} {s : List Char} {c : Caps} {x y : List Char × Caps}
    (h1 : a.Starts s c x) (h2 : b.Starts x.1 x.2 y) : (Re.seq a b).Starts s c y := by
  unfold Re.Starts at *
  simp only [run_seq]
  cases h : a.run s c with
  | nil => simp [h] at h1
  | cons z zs =>
    simp [h] at h1
    subst h1
    cases h3 : b.run z.1 z.2 with
    | nil => simp [h3] at h2
    | cons u us =>
      simp [h3] at h2
      simp [h3, h2]

theorem Re.Starts.grp {a : Re} {s : List Char} {c : Caps} {x : List Char × Caps} (i : Nat)
    (h : a.Starts s c x) :
    (Re.grp i a).Starts s c (x.1, x.2.set i (s.take (s.length - x.1.length))) := by
  unfold Re.Starts at *
  simp only [run_grp]
  cases h1 : a.run s c with
  | nil => simp [h1] at h
  | cons z zs =>
    simp [h1] at h
    simp [h]

theorem starts_star_cls (p : Char → Bool) (w rest : List Char) (c : Caps)
    (hw : ∀ ch ∈ w, p ch = true) (hr : NoHead p rest) :
    (Re.star (.cls p)).Starts (w ++ rest) c (rest, c) := by
  unfold Re.Starts
  rw [run_star_cls p w rest c hw hr]
  obtain ⟨tl, h⟩ := backoff_cons w rest
  simp [h]

theorem starts_star_cls_nil (p : Char → Bool) (rest : List Char) (c : Caps)
    (hr : NoHead p rest) : (Re.star (.cls p)).Starts rest c (rest, c) :=
  starts_star_cls p [] rest c (by simp) hr

theorem starts_plus_cls (p : Char → Bool) (w rest : List Char) (c : Caps)
    (hne : w ≠ []) (hw : ∀ ch ∈ w, p ch = true) (hr : NoHead p rest) :
    (Re.plus (.cls p)).Starts (w ++ rest) c (rest, c) := by
  cases w with
  | nil => exact absurd rfl hne
  | cons x w =>
    unfold Re.Starts
    rw [List.cons_append, run_plus_cls p x w rest c (hw x (by simp))
      (fun ch h => hw ch (by simp [h])) hr]
    obtain ⟨tl, h⟩ := backoff_cons w rest
    simp [h]

theorem starts_grp_plus_cls (i : Nat) (p : Char → Bool) (w rest : List Char) (c : Caps)
    (hne : w ≠ []) (hw : ∀ ch ∈ w, p ch = true) (hr : NoHead p rest) :
    (Re.grp i (Re.plus (.cls p))).Starts (w ++ rest) c (rest, c.set i w) := by
  have := (starts_plus_cls p w rest c hne hw hr).grp i
  simpa using this

theorem starts_str (l rest : List Char) (c : Caps) :
    (Re.str l).Starts (l ++ rest) c (rest, c) := by
  unfold Re.Starts
  simp [run_str_append]

theorem starts_lit (x : Char) (t : List Char) (c : Caps) :
    (Re.lit x).Starts (x :: t) c (t, c) := by
  simp [Re.Starts]

theorem run_star_cls_nil (p : Char → Bool) (rest : List Char) (c : Caps)
    (hr : NoHead p rest) : (Re.star (.cls p)).run rest c = [(rest, c)] := by
  have := run_star_cls p [] rest c (by simp) hr
  simpa [backoff] using this

theorem take_length_sub (u v : List Char) :
    (u ++ v).take ((u ++ v).length - v.length) = u := by
  simp

theorem noHead_cons {p : Char → Bool} {x : Char} (t : List Char) (h : p x = false) :
    NoHead p (x :: t) := by
  intro ch t2 e
  cases e
  exact h

theorem noHead_nil (p : Char → Bool) : NoHead p [] := by
  intro ch t e
  cases e

theorem noHead_append {p : Char → Bool} {w : List Char} (t : List Char) (hne : w ≠ [])
    (hw : ∀ ch ∈ w, p ch = false) : NoHead p (w ++ t) := by
  cases w with
  | nil => exact absurd rfl hne
  | cons x w => exact noHead_cons _ (hw x (by simp))

theorem isReSpace_of_isWordChar_false {ch : Char} (h : isReSpace ch = true) :
    isWordChar ch = false := by
  simp only [isReSpace, Bool.or_eq_true, beq_iff_eq] at h
  rcases h with (((h | h) | h) | h) | h <;> subst h <;> decide

theorem isWordChar_not_reSpace {ch : Char} (h : isWordChar ch = true) :
    isReSpace ch = false := by
  cases h2 : isReSpace ch with
  | false => rfl
  | true => simp [isReSpace_of_isWordChar_false h2] at h

theorem isSpace_of_isReSpace {ch : Char} (h : isReSpace ch = true) : isSpace ch = true := by
  simp only [isReSpace, Bool.or_eq_true, beq_iff_eq] at h
  rcases h with (((h | h) | h) | h) | h <;> subst h <;> decide

theorem isWordChar_toNat {ch : Char} (h : isWordChar ch = true) :
    48 ≤ ch.toNat ∧ ch.toNat ≤ 122 := by
  simp only [isWordChar, Char.isAlphanum, Char.isAlpha, Char.isUpper, Char.isLower, Char.isDigit,
    Bool.or_eq_true, Bool.and_eq_true, decide_eq_true_eq, beq_iff_eq] at h
  simp only [UInt32.le_def, BitVec.le_def] at h
  have e : ch.toNat = ch.val.toBitVec.toNat := rfl
  have e1 : (UInt32.toBitVec 65).toNat = 65 := rfl
  have e2 : (UInt32.toBitVec 90).toNat = 90 := rfl
  have e3 : (UInt32.toBitVec 97).toNat = 97 := rfl
  have e4 : (UInt32.toBitVec 122).toNat = 122 := rfl
  have e5 : (UInt32.toBitVec 48).toNat = 48 := rfl
  have e6 : (UInt32.toBitVec 57).toNat = 57 := rfl
  rw [e]
  rw [e1, e2, e3, e4, e5, e6] at h
  rcases h with ((⟨h1, h2⟩ | ⟨h1, h2⟩) | ⟨h1, h2⟩) | h
  · omega
  · omega
  · omega
  · subst h; decide

theorem isWordChar_not_space {ch : Char} (h : isWordChar ch = true) : isSpace ch = false := by
  have hb := isWordChar_toNat h
  cases h2 : isSpace ch with
  | false => rfl
  | true =>
    exfalso
    simp only [isSpace, Bool.or_eq_true, Bool.and_eq_true, beq_iff_eq, decide_eq_true_eq] at h2
    rcases h2 with (((((((((((((h2 | h2) | h2) | h2) | h2) | h2) | h2) | h2) | h2) | h2) | h2) |
      h2) | h2) | h2) | h2
    all_goals first
      | omega
      | (subst h2; revert hb; decide)

theorem isWordChar_ne {ch x : Char} (h : isWordChar ch = true) (hx : isWordChar x = false) :
    ch ≠ x := by
  intro e
  subst e
  simp [h] at hx

theorem messageRegex_eq :
    messageRegex =
      .seq (.star (.cls isReSpace)) (.seq (.grp 1 (Re.plus (.cls isWordChar)))
        (.seq (.star (.cls isReSpace)) (.seq (.grp 2 messageArrows) messageTail))) := rfl

theorem messageTail_starts (T sp Z : List Char) (c : Caps) (hT : T ≠ [])
    (hTw : ∀ ch ∈ T, isWordChar ch = true) (hsp : ∀ ch ∈ sp, isReSpace ch = true)
    (hZ : NoHead isReSpace Z) (hZn : ∀ ch ∈ Z, isAnyChar ch = true) :
    messageTail.Starts (T ++ ':' :: (sp ++ Z)) c ([], (c.set 3 T).set 4 Z) := by
  unfold messageTail
  refine Re.Starts.seq (starts_star_cls_nil _ _ _
    (noHead_append _ hT (fun ch h => isWordChar_not_reSpace (hTw ch h)))) ?_
  refine Re.Starts.seq (starts_grp_plus_cls 3 _ T _ _ hT hTw (noHead_cons _ (by decide))) ?_
  refine Re.Starts.seq (starts_star_cls_nil _ _ _ (noHead_cons _ (by decide))) ?_
  refine Re.Starts.seq (starts_lit _ _ _) ?_
  refine Re.Starts.seq (starts_star_cls _ sp Z _ hsp hZ) ?_
  have h := (starts_star_cls isAnyChar Z [] (c.set 3 T) hZn (noHead_nil _)).grp 4
  simpa using h

theorem messageTail_fail (x : Char) (rest : List Char) (c : Caps)
    (hx : isWordChar x = false) (hs : isReSpace x = false) :
    messageTail.run (x :: rest) c = [] := by
  unfold messageTail
  rw [run_seq, run_star_cls_nil _ _ _ (noHead_cons _ hs)]
  simp [run_plus, hx]

theorem messageArrows_starts (a T sp Z : List Char) (c : Caps)
    (ha : a = ['-', '>'] ∨ a = ['-', '-', '>'] ∨ a = ['-', '>', '>'] ∨ a = ['-', '-', '>', '>'])
    (hT : T ≠ []) (hTw : ∀ ch ∈ T, isWordChar ch = true) (hsp : ∀ ch ∈ sp, isReSpace ch = true)
    (hZ : NoHead isReSpace Z) (hZn : ∀ ch ∈ Z, isAnyChar ch = true) :
    (Re.seq (.grp 2 messageArrows) messageTail).Starts (a ++ (T ++ ':' :: (sp ++ Z))) c
      ([], ((c.set 2 a).set 3 T).set 4 Z) := by
  cases T with
  | nil => exact absurd rfl hT
  | cons t T1 =>
    have ht : isWordChar t = true := hTw t (by simp)
    have h1 : t ≠ '>' := isWordChar_ne ht (by decide)
    have h2 : t ≠ '-' := isWordChar_ne ht (by decide)
    have hK := fun c1 => messageTail_starts (t :: T1) sp Z c1 hT hTw hsp hZ hZn
    have hF := fun r c1 => messageTail_fail '>' r c1 (by decide) (by decide)
    unfold Re.Starts at hK ⊢
    rcases ha with ha | ha | ha | ha <;> subst ha <;>
      simpa [messageArrows, Re.str, h1, h2, hF] using hK _

/-- A line `<from><arrow><to>:` followed by `\s` characters and a text on one line is
matched by `messageRegex` with the four captures as written. -/
theorem parseMessage_line (F a T sp Z : List Char)
    (hF : F ≠ []) (hFw : ∀ ch ∈ F, isWordChar ch = true)
    (ha : a = ['-', '>'] ∨ a = ['-', '-', '>'] ∨ a = ['-', '>', '>'] ∨ a = ['-', '-', '>', '>'])
    (hT : T ≠ []) (hTw : ∀ ch ∈ T, isWordChar ch = true) (hsp : ∀ ch ∈ sp, isReSpace ch = true)
    (hZ : NoHead isReSpace Z) (hZn : ∀ ch ∈ Z, isAnyChar ch = true) :
    parseMessage (F ++ (a ++ (T ++ ':' :: (sp ++ Z)))) =
      some { From := F, To := T, Text := Z, Typ := getMessageType a } := by
  have hna : NoHead isReSpace (a ++ (T ++ ':' :: (sp ++ Z))) := by
    rcases ha with ha | ha | ha | ha <;> subst ha <;> exact noHead_cons _ (by decide)
  have hnw : NoHead isWordChar (a ++ (T ++ ':' :: (sp ++ Z))) := by
    rcases ha with ha | ha | ha | ha <;> subst ha <;> exact noHead_cons _ (by decide)
  have h : messageRegex.Starts (F ++ (a ++ (T ++ ':' :: (sp ++ Z)))) Caps.none
      ([], (((Caps.none.set 1 F).set 2 a).set 3 T).set 4 Z) := by
    rw [messageRegex_eq]
    refine Re.Starts.seq (starts_star_cls_nil _ _ _
      (noHead_append _ hF (fun ch h => isWordChar_not_reSpace (hFw ch h)))) ?_
    refine Re.Starts.seq (starts_grp_plus_cls 1 _ F _ _ hF hFw hnw) ?_
    refine Re.Starts.seq (starts_star_cls_nil _ _ _ hna) ?_
    exact messageArrows_starts a T sp Z _ ha hT hTw hsp hZ hZn
  unfold Re.Starts at h
  simp [parseMessage, findSubmatch, h, Caps.set]

/-! ## Facts on the `strings` functions -/

theorem dropWhileEnd_cons (p : Char → Bool) (c : Char) (cs : List Char) :
    dropWhileEnd p (c :: cs) =
      if dropWhileEnd p cs = [] then (if p c = true then [] else [c])
      else c :: dropWhileEnd p cs := by
  simp only [dropWhileEnd]
  cases dropWhileEnd p cs with
  | nil => simp
  | cons a r => simp

theorem dropWhileEnd_cons_of_not (p : Char → Bool) (x : Char) (Y : List Char)
    (hx : p x = false) : dropWhileEnd p (x :: Y) = x :: dropWhileEnd p Y := by
  rw [dropWhileEnd_cons]
  by_cases h : dropWhileEnd p Y = [] <;> simp [h, hx]

theorem dropWhileEnd_append_cons (p : Char → Bool) (P : List Char) (x : Char) (Y : List Char)
    (hx : p x = false) : dropWhileEnd p (P ++ x :: Y) = P ++ x :: dropWhileEnd p Y := by
  induction P with
  | nil => exact dropWhileEnd_cons_of_not p x Y hx
  | cons c P ih =>
    rw [List.cons_append, dropWhileEnd_cons, ih]
    simp

theorem dropWhileEnd_concat_pos (p : Char → Bool) (l : List Char) (x : Char)
    (hx : p x = true) : dropWhileEnd p (l ++ [x]) = dropWhileEnd p l := by
  induction l with
  | nil => simp [dropWhileEnd, hx]
  | cons c l ih => rw [List.cons_append, dropWhileEnd_cons, ih, ← dropWhileEnd_cons]

theorem dropWhileEnd_of_getLast (p : Char → Bool) (l : List Char)
    (h : ∀ x, l.getLast? = some x → p x = false) : dropWhileEnd p l = l := by
  induction l with
  | nil => rfl
  | cons c l ih =>
    cases l with
    | nil =>
      have := h c (by simp)
      simp [dropWhileEnd, this]
    | cons d l =>
      have h2 := ih (fun x hx => h x (by simpa [List.getLast?_cons_cons] using hx))
      rw [dropWhileEnd_cons, h2]
      simp

theorem dropCR_concat (l : List Char) (x : Char) :
    dropCR (l ++ [x]) = if x = '\r' then l else l ++ [x] := by
  induction l with
  | nil => simp [dropCR]
  | cons c l ih =>
    cases l with
    | nil => by_cases hx : x = '\r' <;> simp [dropCR, hx]
    | cons d l =>
      have e : dropCR (c :: d :: l ++ [x]) = c :: dropCR (d :: l ++ [x]) := rfl
      rw [e, ih]
      by_cases hx : x = '\r' <;> simp [hx]

theorem dropWhile_append_of_exists (p : Char → Bool) (m t : List Char)
    (h : ∃ ch ∈ m, ¬ p ch = true) : List.dropWhile p (m ++ t) = List.dropWhile p m ++ t := by
  induction m with
  | nil => simp at h
  | cons c m ih =>
    by_cases hc : p c = true
    · have h2 : ∃ ch ∈ m, ¬ p ch = true := by
        obtain ⟨ch, h1, h2⟩ := h
        simp only [List.mem_cons] at h1
        rcases h1 with h1 | h1
        · subst h1; exact absurd hc h2
        · exact ⟨ch, h1, h2⟩
      simp [List.dropWhile_cons, hc, ih h2]
    · simp [List.dropWhile_cons, hc]

theorem trimSpace_dropCR (l : List Char) : trimSpace (dropCR l) = trimSpace l := by
  rcases List.eq_nil_or_concat l with h | ⟨m, x, h⟩
  · subst h; rfl
  · subst h
    rw [List.concat_eq_append, dropCR_concat]
    by_cases hx : x = '\r'
    · subst hx
      simp only [if_true, trimSpace]
      by_cases hm : ∀ ch ∈ m, isSpace ch = true
      · have h1 : List.dropWhile isSpace m = [] := by simpa using hm
        have h2 : List.dropWhile isSpace (m ++ ['\r']) = [] := by
          simp only [List.dropWhile_eq_nil_iff, List.mem_append, List.mem_singleton]
          rintro ch (h | h)
          · exact hm ch h
          · subst h; decide
        rw [h1, h2]
      · have hm2 : ∃ ch ∈ m, ¬ isSpace ch = true := by simpa using hm
        rw [dropWhile_append_of_exists _ _ _ hm2]
        exact (dropWhileEnd_concat_pos _ _ _ (by decide)).symm
    · simp [hx]

theorem hasPrefix_append_of_class (p : Char → Bool) (kw : List Char) (x : Char)
    (hkw : ∀ ch ∈ kw, p ch = true) (hx : p x = false) :
    ∀ (F r : List Char), hasPrefix F kw = false → hasPrefix (F ++ x :: r) kw = false := by
  induction kw with
  | nil => intro F r h; simp [hasPrefix] at h
  | cons k kw ih =>
    intro F r h
    cases F with
    | nil =>
      have : k ≠ x := fun e => by
        have := hkw k (by simp)
        rw [e, hx] at this
        exact absurd this (by simp)
      simp [hasPrefix, List.isPrefixOf, this]
    | cons f F =>
      simp only [hasPrefix, List.isPrefixOf, Bool.and_eq_false_iff, List.cons_append] at h ⊢
      rcases h with h | h
      · exact Or.inl h
      · exact Or.inr (ih (fun ch hc => hkw ch (by simp [hc])) F r h)

theorem append_cons_inj_of_class (p : Char → Bool) :
    ∀ (u v : List Char) (x y : Char) (r t : List Char),
      (∀ ch ∈ u, p ch = true) → (∀ ch ∈ v, p ch = true) → p x = false → p y = false →
      u ++ x :: r = v ++ y :: t → u = v ∧ x = y ∧ r = t := by
  intro u
  induction u with
  | nil =>
    intro v x y r t _ hv hx _ e
    cases v with
    | nil => simpa using e
    | cons b v =>
      simp only [List.nil_append, List.cons_append, List.cons.injEq] at e
      have := hv b (by simp)
      rw [← e.1, hx] at this
      exact absurd this (by simp)
  | cons a u ih =>
    intro v x y r t hu hv hx hy e
    cases v with
    | nil =>
      simp only [List.nil_append, List.cons_append, List.cons.injEq] at e
      have := hu a (by simp)
      rw [e.1, hy] at this
      exact absurd this (by simp)
    | cons b v =>
      simp only [List.cons_append, List.cons.injEq] at e
      obtain ⟨h1, h2, h3⟩ := ih v x y r t (fun ch h => hu ch (by simp [h]))
        (fun ch h => hv ch (by simp [h])) hx hy e.2
      exact ⟨by rw [e.1, h1], h2, h3⟩

/-! ## The sequence parser: lines -/

theorem participantRegex_sound {s : List Char} {c : Caps} {x : List Char × Caps}
    (h : x ∈ participantRegex.run s c) :
    ∃ ws ch r, s = ws ++ ("participant".toList ++ ch :: r) ∧
      (∀ d ∈ ws, isReSpace d = true) ∧ isReSpace ch = true := by
  simp only [participantRegex, Re.cat, run_seq, List.mem_flatMap] at h
  obtain ⟨y1, h1, y2, h2, y3, h3, _⟩ := h
  obtain ⟨_, ws, e1, hws⟩ := mem_run_star_cls h1
  obtain ⟨_, e2⟩ := mem_run_str _ _ h2
  obtain ⟨_, ch, w, e3, hch, _⟩ := mem_run_plus_cls h3
  exact ⟨ws, ch, w ++ y3.1, by rw [e1, e2, e3]; simp, hws, hch⟩

theorem parseParticipant_eq_none_of_run {s : List Char}
    (h : participantRegex.run s Caps.none = []) : parseParticipant s = none := by
  simp [parseParticipant, findSubmatch, h]

/-- A line that begins with a word directly followed by a character that is
neither a word character nor white space is no participant declaration. -/
theorem parseParticipant_word_other (F : List Char) (x : Char) (r : List Char)
    (hF : F ≠ []) (hFw : ∀ ch ∈ F, isWordChar ch = true)
    (hx : isWordChar x = false) (hxs : isReSpace x = false) :
    parseParticipant (F ++ x :: r) = none := by
  apply parseParticipant_eq_none_of_run
  rw [List.eq_nil_iff_forall_not_mem]
  intro y hy
  obtain ⟨ws, ch, t, e, hws, hch⟩ := participantRegex_sound hy
  cases ws with
  | cons d ws =>
    have hd := hws d (by simp)
    cases F with
    | nil => exact hF rfl
    | cons f F =>
      simp only [List.cons_append, List.cons.injEq] at e
      have := isWordChar_not_reSpace (hFw f (by simp))
      rw [e.1, hd] at this
      exact absurd this (by simp)
  | nil =>
    simp only [List.nil_append] at e
    have := append_cons_inj_of_class isWordChar F "participant".toList x ch r t hFw
      (by decide) hx (isReSpace_of_isWordChar_false hch) e
    rw [this.2.1, hch] at hxs
    exact absurd hxs (by simp)

theorem mem_of_mem_dropWhileEnd (p : Char → Bool) (ch : Char) :
    ∀ l : List Char, ch ∈ dropWhileEnd p l → ch ∈ l := by
  intro l
  induction l with
  | nil => simp [dropWhileEnd]
  | cons c l ih =>
    rw [dropWhileEnd_cons]
    by_cases h : dropWhileEnd p l = []
    · by_cases hc : p c = true
      · simp [h, hc]
      · intro e
        simp only [h, hc, if_true, if_false, List.mem_singleton, Bool.false_eq_true] at e
        exact List.mem_cons.mpr (Or.inl e)
    · simp only [h, if_false, List.mem_cons]
      rintro (h1 | h1)
      · exact Or.inl h1
      · exact Or.inr (ih h1)

theorem noHead_dropWhile (p : Char → Bool) (l : List Char) : NoHead p (l.dropWhile p) := by
  intro ch t e
  have := List.head_dropWhile_not p l (by rw [e]; simp)
  simpa [e] using this

theorem isArrow_head {a : List Char} (ha : IsArrow a) : ∃ t, a = '-' :: t := by
  rcases ha with h | h | h | h <;> subst h <;> exact ⟨_, rfl⟩

theorem trimSpace_messageLine (F a T X : List Char) (hF : IsName F) :
    trimSpace (messageLine F a T X) =
      F ++ (a ++ (T ++ ':' :: dropWhileEnd isSpace (' ' :: X))) := by
  obtain ⟨hne, hw⟩ := hF
  cases F with
  | nil => exact absurd rfl hne
  | cons f F =>
    have hf : isSpace f = false := isWordChar_not_space (hw f (by simp))
    have e : messageLine (f :: F) a T X = (f :: F ++ a ++ T) ++ ':' :: (' ' :: X) := by
      simp [messageLine]
    have e2 : List.dropWhile isSpace ((f :: F ++ a ++ T) ++ ':' :: (' ' :: X)) =
        (f :: F ++ a ++ T) ++ ':' :: (' ' :: X) := by
      simp [List.dropWhile_cons, hf]
    rw [trimSpace, e, e2, dropWhileEnd_append_cons _ _ _ _ (by decide)]
    simp

theorem shouldSkipSequenceLine_message (F x : List Char) (r : List Char) (hF : IsName F)
    (hk : hasPrefix F "sequenceDiagram".toList = false) :
    shouldSkipSequenceLine (F ++ ('-' :: x ++ r)) = false := by
  obtain ⟨hne, hw⟩ := hF
  have h1 := hasPrefix_append_of_class isWordChar "sequenceDiagram".toList '-' (by decide)
    (by decide) F (x ++ r) hk
  cases F with
  | nil => exact absurd rfl hne
  | cons f F =>
    have hf : f ≠ '%' := isWordChar_ne (hw f (by simp)) (by decide)
    simp only [shouldSkipSequenceLine, Bool.or_eq_false_iff]
    refine ⟨⟨by simp, ?_⟩, by simpa using h1⟩
    simp [hasPrefix, List.isPrefixOf, hf.symm]

theorem seqStep_messageLine (st : SeqState) (F a T X : List Char)
    (hF : IsName F) (ha : IsArrow a) (hT : IsName T)
    (hk : hasPrefix F "sequenceDiagram".toList = false) (hX : '\n' ∉ X) :
    seqStep st (messageLine F a T X) =
      { diagram := { (ensureParticipantsExist st [F, T]).diagram with
          Messages := (ensureParticipantsExist st [F, T]).diagram.Messages ++
            [{ From := F, To := T, Text := messageText X, Typ := getMessageType a }] },
        participantMap := (ensureParticipantsExist st [F, T]).participantMap } := by
  obtain ⟨t, hat⟩ := isArrow_head ha
  have hskip : shouldSkipSequenceLine
      (F ++ (a ++ (T ++ ':' :: dropWhileEnd isSpace (' ' :: X)))) = false := by
    rw [hat]
    exact shouldSkipSequenceLine_message F t _ hF hk
  have hpart : parseParticipant
      (F ++ (a ++ (T ++ ':' :: dropWhileEnd isSpace (' ' :: X)))) = none := by
    rw [hat]
    exact parseParticipant_word_other F '-' _ hF.1 hF.2 (by decide) (by decide)
  have hmsg : parseMessage (F ++ (a ++ (T ++ ':' :: dropWhileEnd isSpace (' ' :: X)))) =
      some { From := F, To := T, Text := messageText X, Typ := getMessageType a } := by
    have := parseMessage_line F a T
      ((dropWhileEnd isSpace (' ' :: X)).takeWhile isReSpace) (messageText X)
      hF.1 hF.2 ha hT.1 hT.2 (fun ch h => (List.mem_takeWhile_imp h))
      (noHead_dropWhile _ _) (by
        intro ch h
        have h1 := mem_of_mem_dropWhileEnd _ _ _ ((List.dropWhile_sublist _).subset h)
        simp only [List.mem_cons] at h1
        rcases h1 with h1 | h1
        · subst h1; decide
        · simp only [isAnyChar, Bool.not_eq_true', beq_eq_false_iff_ne]
          rintro rfl
          exact hX h1)
    simpa [messageText, List.takeWhile_append_dropWhile] using this
  simp only [seqStep, trimSpace_messageLine F a T X hF, hskip, hpart, hmsg]
  rfl

/-! ## The scanner -/

theorem rawLines_append_newline (l rest : List Char) (hl : '\n' ∉ l) :
    rawLines (l ++ '\n' :: rest) = l :: rawLines rest := by
  induction l with
  | nil => simp [rawLines]
  | cons c l ih =>
    have hc : c ≠ '\n' := fun e => hl (by simp [e])
    have h2 : '\n' ∉ l := fun h => hl (by simp [h])
    simp [rawLines, hc, ih h2]

theorem rawLines_single (l : List Char) (hne : l ≠ []) (hl : '\n' ∉ l) : rawLines l = [l] := by
  induction l with
  | nil => exact absurd rfl hne
  | cons c l ih =>
    have hc : c ≠ '\n' := fun e => hl (by simp [e])
    have h2 : '\n' ∉ l := fun h => hl (by simp [h])
    have e : rawLines (c :: l) =
        match rawLines l with
        | [] => [[c]]
        | m :: ms => (c :: m) :: ms := by
      simp [rawLines, hc]
    cases l with
    | nil => simp [rawLines, hc]
    | cons d l => rw [e, ih (by simp) h2]

theorem rawLines_joinLines (rest : List (List Char)) :
    ∀ first : List Char, first ≠ [] → '\n' ∉ first →
      (∀ l ∈ rest, l ≠ [] ∧ '\n' ∉ l) → rawLines (joinLines first rest) = first :: rest := by
  induction rest with
  | nil =>
    intro first hne hn _
    simpa [joinLines] using rawLines_single first hne hn
  | cons l rest ih =>
    intro first _ hn h
    have h1 := h l (by simp)
    have h2 := ih l h1.1 h1.2 (fun m hm => h m (by simp [hm]))
    have e : joinLines first (l :: rest) = first ++ '\n' :: joinLines l rest := by
      simp [joinLines]
    rw [e, rawLines_append_newline _ _ hn, h2]

theorem scanTokens_ok (ls : List (List Char)) (h : ∀ l ∈ ls, utf8Len l < maxScanTokenSize) :
    scanTokens ls = (ls.map dropCR, none) := by
  induction ls with
  | nil => rfl
  | cons l ls ih =>
    have h1 : ¬ maxScanTokenSize ≤ utf8Len l := Nat.not_le.mpr (h l (by simp))
    have h2 := ih (fun m hm => h m (by simp [hm]))
    simp [scanTokens, h1, h2]

theorem scanTokens_tooLong (ls1 : List (List Char)) (l : List Char) (ls2 : List (List Char))
    (h : ∀ m ∈ ls1, utf8Len m < maxScanTokenSize) (hl : maxScanTokenSize ≤ utf8Len l) :
    scanTokens (ls1 ++ l :: ls2) = (ls1.map dropCR, some .ErrTooLong) := by
  induction ls1 with
  | nil => simp [scanTokens, hl]
  | cons m ls1 ih =>
    have h1 : ¬ maxScanTokenSize ≤ utf8Len m := Nat.not_le.mpr (h m (by simp))
    have h2 := ih (fun k hk => h k (by simp [hk]))
    simp [scanTokens, h1, h2]

theorem seqStep_dropCR (st : SeqState) (l : List Char) : seqStep st (dropCR l) = seqStep st l := by
  simp only [seqStep, trimSpace_dropCR]

theorem foldl_seqStep_dropCR (ls : List (List Char)) :
    ∀ st : SeqState, (ls.map dropCR).foldl seqStep st = ls.foldl seqStep st := by
  induction ls with
  | nil => intro st; rfl
  | cons l ls ih => intro st; simp [seqStep_dropCR, ih]

theorem ParseSequenceDiagram_of_rawLines (input : List Char) (ls : List (List Char))
    (h : rawLines input = ls) (hs : ∀ l ∈ ls, utf8Len l < maxScanTokenSize) :
    ParseSequenceDiagram input = ((ls.foldl seqStep SeqState.init).diagram, none) := by
  simp [ParseSequenceDiagram, scanLines, h, scanTokens_ok ls hs, foldl_seqStep_dropCR]

theorem ParseSequenceDiagram_tooLong (input : List Char) (ls1 : List (List Char))
    (l : List Char) (ls2 : List (List Char)) (h : rawLines input = ls1 ++ l :: ls2)
    (hs : ∀ m ∈ ls1, utf8Len m < maxScanTokenSize) (hl : maxScanTokenSize ≤ utf8Len l) :
    ParseSequenceDiagram input =
      ((ls1.foldl seqStep SeqState.init).diagram, some .ErrTooLong) := by
  simp [ParseSequenceDiagram, scanLines, h, scanTokens_tooLong ls1 l ls2 hs hl,
    foldl_seqStep_dropCR]

/-! ## Participants in the order of first use -/

theorem mem_foldl_addName (names : List (List Char)) :
    ∀ n : List Char, n ∈ names.foldl addName [] ↔ n ∈ names := by
  induction names using List.reverseRecOn with
  | nil => simp
  | append_singleton names m ih =>
    intro n
    simp only [List.foldl_append, List.foldl_cons, List.foldl_nil, addName, List.mem_append,
      List.mem_singleton]
    by_cases hm : m ∈ names.foldl addName []
    · simp only [hm, if_true, ih]
      constructor
      · exact Or.inl
      · rintro (h | h)
        · exact h
        · subst h; exact (ih n).mp hm
    · simp [hm, ih]

theorem foldl_addName_eq (names : List (List Char)) :
    names.foldl addName [] = (names.reverse.dedup).reverse := by
  induction names using List.reverseRecOn with
  | nil => simp
  | append_singleton names m ih =>
    simp only [List.foldl_append, List.foldl_cons, List.foldl_nil, addName,
      List.reverse_append, List.reverse_cons, List.reverse_nil, List.nil_append,
      List.singleton_append, mem_foldl_addName]
    by_cases hm : m ∈ names
    · rw [List.dedup_cons_of_mem (by simpa using hm)]
      simp [hm, ih]
    · rw [List.dedup_cons_of_not_mem (by simpa using hm)]
      simp [hm, ih]

theorem ensureParticipantsExist_lists (ps : List (List Char)) :
    ∀ (st : SeqState) (names : List (List Char)), st.Lists names →
      (ensureParticipantsExist st ps).Lists (names ++ ps) ∧
      (ensureParticipantsExist st ps).diagram.Messages = st.diagram.Messages := by
  induction ps with
  | nil => intro st names h; simpa [ensureParticipantsExist] using h
  | cons p ps ih =>
    intro st names h
    have e : names ++ p :: ps = (names ++ [p]) ++ ps := by simp
    rw [e]
    by_cases hp : p ∈ st.participantMap
    · have hl : st.Lists (names ++ [p]) := by
        refine ⟨?_, fun n => ?_⟩
        · have : p ∈ names.foldl addName [] :=
            (mem_foldl_addName names p).mpr ((h.2 p).mp hp)
          rw [h.1]
          simp [addName, this]
        · rw [h.2 n]
          simp only [List.mem_append, List.mem_singleton]
          constructor
          · exact Or.inl
          · rintro (h1 | h1)
            · exact h1
            · subst h1; exact (h.2 n).mp hp
      simpa [ensureParticipantsExist, hp] using ih st (names ++ [p]) hl
    · have hl : SeqState.Lists
          { diagram := { st.diagram with
              Participants := st.diagram.Participants ++ [{ Name := p, Alias := p }] },
            participantMap := p :: st.participantMap } (names ++ [p]) := by
        refine ⟨?_, fun n => ?_⟩
        · have : p ∉ names.foldl addName [] := fun h1 =>
            hp ((h.2 p).mpr ((mem_foldl_addName names p).mp h1))
          simp [addName, this, h.1, Participant.ofName]
        · simp only [List.mem_cons, List.mem_append, List.mem_singleton, h.2 n,
            List.not_mem_nil, or_false]
          exact or_comm
      simpa [ensureParticipantsExist, hp] using ih _ (names ++ [p]) hl

theorem foldl_seqStep_messages (ms : List MessageLine)
    (hwf : ∀ m ∈ ms, m.WF)
    (hk : ∀ m ∈ ms, hasPrefix m.src "sequenceDiagram".toList = false) :
    ∀ (st : SeqState) (names : List (List Char)), st.Lists names →
      ((ms.map MessageLine.render).foldl seqStep st).Lists (names ++ endpoints ms) ∧
      ((ms.map MessageLine.render).foldl seqStep st).diagram.Messages =
        st.diagram.Messages ++ ms.map (fun m =>
          { From := m.src, To := m.dst, Text := messageText m.text,
            Typ := getMessageType m.arrow }) := by
  induction ms with
  | nil => intro st names h; simpa [endpoints] using h
  | cons m ms ih =>
    intro st names h
    have hm := hwf m (by simp)
    have hstep := seqStep_messageLine st m.src m.arrow m.dst m.text hm.1 hm.2.1 hm.2.2.1
      (hk m (by simp)) hm.2.2.2
    obtain ⟨h1, h2⟩ := ensureParticipantsExist_lists [m.src, m.dst] st names h
    have hl : (seqStep st m.render).Lists (names ++ [m.src, m.dst]) := by
      rw [MessageLine.render, hstep]
      exact ⟨h1.1, h1.2⟩
    obtain ⟨h3, h4⟩ := ih (fun k hk1 => hwf k (by simp [hk1])) (fun k hk1 => hk k (by simp [hk1]))
      (seqStep st m.render) _ hl
    have e : names ++ endpoints (m :: ms) = (names ++ [m.src, m.dst]) ++ endpoints ms := by
      simp [endpoints]
    refine ⟨by simpa [e] using h3, ?_⟩
    simp only [List.map_cons, List.foldl_cons, h4]
    rw [MessageLine.render, hstep]
    simp [h2]

theorem utf8Len_append (a b : List Char) : utf8Len (a ++ b) = utf8Len a + utf8Len b := by
  simp [utf8Len]

theorem utf8Len_replicate (n : Nat) (c : Char) :
    utf8Len (List.replicate n c) = n * c.utf8Size := by
  induction n with
  | zero => simp [utf8Len]
  | succ n ih =>
    have e : utf8Len (c :: List.replicate n c) = c.utf8Size + utf8Len (List.replicate n c) := by
      simp [utf8Len]
    rw [List.replicate_succ, e, ih]
    ring

theorem not_mem_replicate_of_ne (n : Nat) (c d : Char) (h : d ≠ c) :
    d ∉ List.replicate n c := fun hm => h (List.eq_of_mem_replicate hm)

theorem isName_no_newline {s : List Char} (h : IsName s) : '\n' ∉ s := fun hm => by
  have := h.2 _ hm
  revert this
  decide

theorem isArrow_no_newline {a : List Char} (h : IsArrow a) : '\n' ∉ a := by
  rcases h with h | h | h | h <;> subst h <;> decide

theorem render_no_newline {m : MessageLine} (h : m.WF) : '\n' ∉ m.render := by
  have h1 := isName_no_newline h.1
  have h2 := isArrow_no_newline h.2.1
  have h3 := isName_no_newline h.2.2.1
  have h4 := h.2.2.2
  simp only [MessageLine.render, messageLine, List.mem_append, List.mem_cons, not_or]
  exact ⟨h1, h2, h3, by decide, by decide, h4⟩

theorem render_ne_nil {m : MessageLine} (h : m.WF) : m.render ≠ [] := by
  have := h.1.1
  simp [MessageLine.render, messageLine, this]

theorem seqStep_init_keyword : seqStep SeqState.init "sequenceDiagram".toList = SeqState.init := by
  decide

theorem SeqState.init_lists : SeqState.init.Lists [] := by
  simp [SeqState.Lists, SeqState.init]

theorem utf8Len_keyword : utf8Len "sequenceDiagram".toList < maxScanTokenSize := by
  decide

theorem ParseSequenceDiagram_messages (ms : List MessageLine)
    (hwf : ∀ m ∈ ms, m.WF)
    (hk : ∀ m ∈ ms, hasPrefix m.src "sequenceDiagram".toList = false)
    (hlen : ∀ m ∈ ms, utf8Len m.render < maxScanTokenSize) :
    ParseSequenceDiagram (joinLines "sequenceDiagram".toList (ms.map MessageLine.render)) =
      ({ Participants := (((endpoints ms).reverse.dedup).reverse).map Participant.ofName,
         Messages := ms.map (fun m =>
          { From := m.src, To := m.dst, Text := messageText m.text,
            Typ := getMessageType m.arrow }) }, none) := by
  have hraw : rawLines (joinLines "sequenceDiagram".toList (ms.map MessageLine.render)) =
      "sequenceDiagram".toList :: ms.map MessageLine.render := by
    apply rawLines_joinLines _ _ (by decide) (by decide)
    intro l hl
    obtain ⟨m, hm, rfl⟩ := List.mem_map.mp hl
    exact ⟨render_ne_nil (hwf m hm), render_no_newline (hwf m hm)⟩
  rw [ParseSequenceDiagram_of_rawLines _ _ hraw (by
    intro l hl
    simp only [List.mem_cons, List.mem_map] at hl
    rcases hl with h | ⟨m, hm, rfl⟩
    · subst h; exact utf8Len_keyword
    · exact hlen m hm)]
  obtain ⟨h1, h2⟩ := foldl_seqStep_messages ms hwf hk SeqState.init [] SeqState.init_lists
  simp only [List.foldl_cons, seqStep_init_keyword]
  have h3 := h1.1
  rw [List.nil_append, foldl_addName_eq] at h3
  have h4 : SeqState.init.diagram.Messages = [] := rfl
  rw [h4, List.nil_append] at h2
  generalize (ms.map MessageLine.render).foldl seqStep SeqState.init = st at h2 h3
  rcases st with ⟨⟨ps, msgs⟩, pm⟩
  simp only at h2 h3
  rw [h2, h3]

theorem ParseSequenceDiagram_long_line (l : List Char) (hne : l ≠ []) (hn : '\n' ∉ l)
    (hl : maxScanTokenSize ≤ utf8Len l) :
    ParseSequenceDiagram (joinLines "sequenceDiagram".toList [l]) =
      ({ Participants := [], Messages := [] }, some .ErrTooLong) := by
  have hraw : rawLines (joinLines "sequenceDiagram".toList [l]) =
      ["sequenceDiagram".toList] ++ l :: [] := by
    apply rawLines_joinLines _ _ (by decide) (by decide)
    intro m hm
    simp only [List.mem_singleton] at hm
    subst hm
    exact ⟨hne, hn⟩
  rw [ParseSequenceDiagram_tooLong _ _ _ _ hraw (by
    intro m hm
    simp only [List.mem_singleton] at hm
    subst hm
    exact utf8Len_keyword) hl]
  simp only [List.foldl_cons, List.foldl_nil, seqStep_init_keyword]
  rfl

theorem utf8Len_messageLine_ge (F a T X : List Char) :
    utf8Len X ≤ utf8Len (messageLine F a T X) := by
  have e : messageLine F a T X = (F ++ a ++ T ++ [':', ' ']) ++ X := by simp [messageLine]
  rw [e, utf8Len_append]
  exact Nat.le_add_left _ _

/-- C1 (amended): for a sequence text made of the keyword line followed only by
message lines `<from><arrow><to>: <text>` whose names are non-empty words of word
characters (ASCII letters, digits, `_`), whose arrows are `->`, `-->`, `->>` or `-->>`,
whose sender names do not begin with `sequenceDiagram` and whose lines are shorter
than 64 KiB, `ParseSequenceDiagram` returns no error and exactly one participant per
distinct name, in the order of first use (within a message the sender before the
receiver), each with `Alias = Name`. -/
theorem participants_in_first_use_order (ms : List MessageLine)
    (hwf : ∀ m ∈ ms, m.WF)
    (hk : ∀ m ∈ ms, hasPrefix m.src "sequenceDiagram".toList = false)
    (hlen : ∀ m ∈ ms, utf8Len m.render < maxScanTokenSize) :
    (ParseSequenceDiagram
        (joinLines "sequenceDiagram".toList (ms.map MessageLine.render))).2 = none ∧
    (ParseSequenceDiagram
        (joinLines "sequenceDiagram".toList (ms.map MessageLine.render))).1.Participants =
      (((endpoints ms).reverse.dedup).reverse).map Participant.ofName ∧
    (ParseSequenceDiagram
        (joinLines "sequenceDiagram".toList (ms.map MessageLine.render))).1.Participants.length =
      (endpoints ms).toFinset.card ∧
    ∀ p ∈ (ParseSequenceDiagram
        (joinLines "sequenceDiagram".toList (ms.map MessageLine.render))).1.Participants,
      p.Alias = p.Name := by
  rw [ParseSequenceDiagram_messages ms hwf hk hlen]
  refine ⟨rfl, rfl, ?_, ?_⟩
  · simp only [List.length_map, List.length_reverse]
    have e : (endpoints ms).reverse.dedup.length = (endpoints ms).reverse.toFinset.card :=
      (List.card_toFinset _).symm
    rw [e, List.toFinset_reverse]
  · intro p hp
    simp only [List.mem_map] at hp
    obtain ⟨n, _, rfl⟩ := hp
    rfl

/-- Witness of C1: the theorem `participants_in_first_use_order` at the text of three messages
between `A`, `B` and `C`: the participants are `A`, `B`, `C`. -/
theorem participants_in_first_use_order_witness :
    (ParseSequenceDiagram "sequenceDiagram\nB->A: Hello\nB-->C: Hi\nA->>B: Bye".toList).2 = none ∧
    (ParseSequenceDiagram
      "sequenceDiagram\nB->A: Hello\nB-->C: Hi\nA->>B: Bye".toList).1.Participants =
      [Participant.ofName "B".toList, Participant.ofName "A".toList,
       Participant.ofName "C".toList] := by
  have h := participants_in_first_use_order
    [⟨"B".toList, "->".toList, "A".toList, "Hello".toList⟩,
     ⟨"B".toList, "-->".toList, "C".toList, "Hi".toList⟩,
     ⟨"A".toList, "->>".toList, "B".toList, "Bye".toList⟩]
    (by decide) (by decide) (by decide)
  exact ⟨h.1, h.2.1⟩

/-- C1 as stated fails.  The message line `sequenceDiagramX->B: hi` mentions two names
and is skipped like the keyword line, so no participant is returned; a message line
of 64 KiB stops the scanner with `ErrTooLong` before any participant is added; and
the message lines `web-app->B: hi` and `Émile->B: hi`, whose sender is not a word of
word characters, `A->web-app: hi`, whose receiver is not, and `A-xB: hi`, whose arrow
is none of the four, are not recognised: each mentions two names and no participant
is returned. -/
theorem participants_in_first_use_order_counterexample :
    (MessageLine.WF ⟨"sequenceDiagramX".toList, "->".toList, "B".toList, "hi".toList⟩ ∧
      (endpoints [⟨"sequenceDiagramX".toList, "->".toList, "B".toList,
        "hi".toList⟩]).toFinset.card = 2 ∧
      ParseSequenceDiagram "sequenceDiagram\nsequenceDiagramX->B: hi".toList =
        ({ Participants := [], Messages := [] }, none)) ∧
    (MessageLine.WF ⟨"A".toList, "->".toList, "B".toList, List.replicate 65536 'x'⟩ ∧
      ParseSequenceDiagram (joinLines "sequenceDiagram".toList
          [messageLine "A".toList "->".toList "B".toList (List.replicate 65536 'x')]) =
        ({ Participants := [], Messages := [] }, some .ErrTooLong)) ∧
    ParseSequenceDiagram "sequenceDiagram\nweb-app->B: hi".toList =
      ({ Participants := [], Messages := [] }, none) ∧
    ParseSequenceDiagram "sequenceDiagram\nÉmile->B: hi".toList =
      ({ Participants := [], Messages := [] }, none) ∧
    ParseSequenceDiagram "sequenceDiagram\nA-xB: hi".toList =
      ({ Participants := [], Messages := [] }, none) ∧
    ParseSequenceDiagram "sequenceDiagram\nA->web-app: hi".toList =
      ({ Participants := [], Messages := [] }, none) := by
  have hx : '\n' ∉ List.replicate 65536 'x' := not_mem_replicate_of_ne _ _ _ (by decide)
  have hwf : MessageLine.WF ⟨"A".toList, "->".toList, "B".toList, List.replicate 65536 'x'⟩ :=
    ⟨by decide, by decide, by decide, hx⟩
  refine ⟨⟨by decide, by decide, by decide⟩, ⟨hwf, ?_⟩, by decide, by decide, by decide,
    by decide⟩
  apply ParseSequenceDiagram_long_line
  · exact render_ne_nil hwf
  · exact render_no_newline hwf
  · refine Nat.le_trans ?_ (utf8Len_messageLine_ge _ _ _ _)
    rw [utf8Len_replicate]
    decide

theorem ensureParticipantsExist_messages (ps : List (List Char)) :
    ∀ st : SeqState, (ensureParticipantsExist st ps).diagram.Messages = st.diagram.Messages := by
  induction ps with
  | nil => intro st; rfl
  | cons p ps ih =>
    intro st
    by_cases hp : p ∈ st.participantMap
    · simp [ensureParticipantsExist, hp, ih]
    · simp [ensureParticipantsExist, hp, ih]

theorem messageText_of_trimmed (X : List Char) (h : IsTrimmedText X) : messageText X = X := by
  cases X with
  | nil => decide
  | cons x X =>
    have h1 : isSpace x = false := h.1 x rfl
    have h2 : isReSpace x = false := by
      cases h3 : isReSpace x with
      | false => rfl
      | true => rw [isSpace_of_isReSpace h3] at h1; exact absurd h1 (by simp)
    have h4 : dropWhileEnd isSpace (' ' :: x :: X) = ' ' :: x :: X :=
      dropWhileEnd_of_getLast _ _ (fun c hc =>
        h.2.1 c (by simpa [List.getLast?_cons_cons] using hc))
    have h5 : isReSpace ' ' = true := by decide
    simp [messageText, h4, List.dropWhile_cons, h2, h5]

theorem getMessageType_arrows :
    getMessageType "->".toList = .SolidArrow ∧ getMessageType "-->".toList = .DashedArrow ∧
    getMessageType "->>".toList = .SolidArrowWithX ∧
    getMessageType "-->>".toList = .DashedArrowWithX := by
  decide

/-- C2 (amended): for all word-character names `F` and `T` where `F` does not begin
with `sequenceDiagram`, every arrow `a` of `->`, `-->`, `->>`, `-->>` and every text `X`
without a newline and without white space at its start or end, the line `F<a>T: X`
adds, in every state of the loop, exactly one message with `From = F`, `To = T`,
`Text = X` and the type of the arrow (`SolidArrow`, `DashedArrow`, `SolidArrowWithX`,
`DashedArrowWithX` respectively); when the line is shorter than 64 KiB,
`ParseSequenceDiagram` of that line returns exactly this message and no error. -/
theorem message_line_parsed (F a T X : List Char)
    (hF : IsName F) (ha : IsArrow a) (hT : IsName T)
    (hk : hasPrefix F "sequenceDiagram".toList = false) (hX : IsTrimmedText X) :
    (∀ st : SeqState, (seqStep st (messageLine F a T X)).diagram.Messages =
      st.diagram.Messages ++ [{ From := F, To := T, Text := X, Typ := getMessageType a }]) ∧
    (utf8Len (messageLine F a T X) < maxScanTokenSize →
      (ParseSequenceDiagram (messageLine F a T X)).1.Messages =
        [{ From := F, To := T, Text := X, Typ := getMessageType a }] ∧
      (ParseSequenceDiagram (messageLine F a T X)).2 = none) ∧
    (getMessageType "->".toList = .SolidArrow ∧ getMessageType "-->".toList = .DashedArrow ∧
      getMessageType "->>".toList = .SolidArrowWithX ∧
      getMessageType "-->>".toList = .DashedArrowWithX) := by
  have hstep : ∀ st : SeqState, (seqStep st (messageLine F a T X)).diagram.Messages =
      st.diagram.Messages ++ [{ From := F, To := T, Text := X, Typ := getMessageType a }] := by
    intro st
    rw [seqStep_messageLine st F a T X hF ha hT hk hX.2.2, messageText_of_trimmed X hX,
      ensureParticipantsExist_messages]
  refine ⟨hstep, ?_, getMessageType_arrows⟩
  intro hlen
  have hwf : MessageLine.WF ⟨F, a, T, X⟩ := ⟨hF, ha, hT, hX.2.2⟩
  have hraw : rawLines (messageLine F a T X) = [messageLine F a T X] :=
    rawLines_single _ (render_ne_nil hwf) (render_no_newline hwf)
  rw [ParseSequenceDiagram_of_rawLines _ _ hraw (by
    intro l hl
    simp only [List.mem_singleton] at hl
    subst hl
    exact hlen)]
  simp only [List.foldl_cons, List.foldl_nil, hstep]
  exact ⟨rfl, trivial⟩

/-- Witness of C2: the theorem `message_line_parsed` at the line `A->>B: solid arrow with x`. -/
theorem message_line_parsed_witness :
    (ParseSequenceDiagram "A->>B: solid arrow with x".toList).1.Messages =
      [{ From := "A".toList, To := "B".toList, Text := "solid arrow with x".toList,
         Typ := .SolidArrowWithX }] ∧
    (ParseSequenceDiagram "A->>B: solid arrow with x".toList).2 = none :=
  (message_line_parsed "A".toList "->>".toList "B".toList "solid arrow with x".toList
    (by decide) (by decide) (by decide) (by decide) (by decide)).2.1 (by decide)

/-- C2 as stated fails.  With the word-character name `F = sequenceDiagram` the line
`sequenceDiagram->B: hi` is skipped and gives no message; with the text `X = "hi "` the
line `A->B: hi ` gives the text `hi`, not `X`; and with `X = " hi"` the text is `hi` too. -/
theorem message_line_parsed_counterexample :
    IsName "sequenceDiagram".toList ∧
    (ParseSequenceDiagram (messageLine "sequenceDiagram".toList "->".toList "B".toList
      "hi".toList)).1.Messages = [] ∧
    (ParseSequenceDiagram (messageLine "A".toList "->".toList "B".toList
      "hi ".toList)).1.Messages =
      [{ From := "A".toList, To := "B".toList, Text := "hi".toList, Typ := .SolidArrow }] ∧
    (ParseSequenceDiagram (messageLine "A".toList "->".toList "B".toList
      " hi".toList)).1.Messages =
      [{ From := "A".toList, To := "B".toList, Text := "hi".toList, Typ := .SolidArrow }] := by
  decide

/-! ## The ER parser: lines -/

theorem entityRegex_eq :
    entityRegex =
      .seq (.star (.cls isReSpace)) (.seq (.grp 1 (Re.plus (.cls isWordChar)))
        (.seq (.star (.cls isReSpace)) (.lit '{'))) := rfl

theorem parseEntityStart_line (N ws rest : List Char) (hN : IsName N)
    (hws : ∀ ch ∈ ws, isReSpace ch = true) :
    parseEntityStart (N ++ (ws ++ '{' :: rest)) = some { Name := N, Attributes := [] } := by
  have hnw : NoHead isWordChar (ws ++ '{' :: rest) := by
    cases ws with
    | nil => exact noHead_cons _ (by decide)
    | cons w ws => exact noHead_cons _ (isReSpace_of_isWordChar_false (hws w (by simp)))
  have h : entityRegex.Starts (N ++ (ws ++ '{' :: rest)) Caps.none
      (rest, Caps.none.set 1 N) := by
    rw [entityRegex_eq]
    refine Re.Starts.seq (starts_star_cls_nil _ _ _
      (noHead_append _ hN.1 (fun ch h => isWordChar_not_reSpace (hN.2 ch h)))) ?_
    refine Re.Starts.seq (starts_grp_plus_cls 1 _ N _ _ hN.1 hN.2 hnw) ?_
    refine Re.Starts.seq (starts_star_cls _ ws _ _ hws (noHead_cons _ (by decide))) ?_
    exact starts_lit _ _ _
  unfold Re.Starts at h
  simp [parseEntityStart, findSubmatch, h, Caps.set]

theorem entityRegex_sound {s : List Char} {c : Caps} {x : List Char × Caps}
    (h : x ∈ entityRegex.run s c) :
    ∃ ws w ws2 r, s = ws ++ (w ++ (ws2 ++ '{' :: r)) ∧
      (∀ d ∈ ws, isReSpace d = true) ∧ IsName w ∧ (∀ d ∈ ws2, isReSpace d = true) := by
  simp only [entityRegex_eq, run_seq, run_grp, List.mem_flatMap, List.mem_map] at h
  obtain ⟨y1, h1, y2, ⟨z, hz, hzy⟩, y3, h3, h4⟩ := h
  obtain ⟨_, ws, e1, hws⟩ := mem_run_star_cls h1
  obtain ⟨_, ch, w, e2, hch, hw⟩ := mem_run_plus_cls hz
  obtain ⟨_, ws2, e3, hws2⟩ := mem_run_star_cls h3
  have e4 : ∃ r, y3.1 = '{' :: r := by
    cases h5 : y3.1 with
    | nil => simp [h5] at h4
    | cons a r =>
      by_cases ha : a = '{'
      · exact ⟨r, by rw [ha]⟩
      · simp [h5, ha] at h4
  obtain ⟨r, e4⟩ := e4
  have e5 : y2.1 = z.1 := by rw [← hzy]
  refine ⟨ws, ch :: w, ws2, r, ?_, hws, ⟨by simp, ?_⟩, hws2⟩
  · rw [e1, e2, ← e5, e3, e4]
  · intro d hd
    simp only [List.mem_cons] at hd
    rcases hd with hd | hd
    · rw [hd]; exact hch
    · exact hw d hd

theorem parseEntityStart_eq_none_of_run {s : List Char}
    (h : entityRegex.run s Caps.none = []) : parseEntityStart s = none := by
  simp [parseEntityStart, findSubmatch, h]

/-- A line `<word><space...><word>...` is no entity start. -/
theorem parseEntityStart_two_words (T : List Char) (sp : Char) (sps N rest : List Char)
    (hT : IsName T) (hsp : isReSpace sp = true) (hsps : ∀ d ∈ sps, isReSpace d = true)
    (hN : IsName N) :
    parseEntityStart (T ++ (sp :: sps ++ (N ++ rest))) = none := by
  apply parseEntityStart_eq_none_of_run
  rw [List.eq_nil_iff_forall_not_mem]
  intro y hy
  obtain ⟨ws, w, ws2, r, e, hws, hw, hws2⟩ := entityRegex_sound hy
  obtain ⟨n, N1, rfl⟩ := List.exists_cons_of_ne_nil hN.1
  have hn : isWordChar n = true := hN.2 n (by simp)
  cases ws with
  | cons d ws =>
    obtain ⟨t, T1, rfl⟩ := List.exists_cons_of_ne_nil hT.1
    simp only [List.cons_append, List.cons.injEq] at e
    have := isWordChar_not_reSpace (hT.2 t (by simp))
    rw [e.1, hws d (by simp)] at this
    exact absurd this (by simp)
  | nil =>
    simp only [List.nil_append] at e
    have hy2 : ∃ y0 t0, ws2 ++ '{' :: r = y0 :: t0 ∧ isWordChar y0 = false := by
      cases ws2 with
      | nil => exact ⟨'{', r, rfl, by decide⟩
      | cons a ws2 => exact ⟨a, _, rfl, isReSpace_of_isWordChar_false (hws2 a (by simp))⟩
    obtain ⟨y0, t0, e0, hy0⟩ := hy2
    rw [e0] at e
    have h1 := append_cons_inj_of_class isWordChar T w sp y0 (sps ++ (n :: N1 ++ rest)) t0
      hT.2 hw.2 (isReSpace_of_isWordChar_false hsp) hy0 (by simpa using e)
    have e1 : sp :: sps ++ (n :: N1 ++ rest) = ws2 ++ '{' :: r := by
      rw [e0, ← h1.2.1, ← h1.2.2]
      simp
    have h2 := append_cons_inj_of_class isReSpace (sp :: sps) ws2 n '{'
      (N1 ++ rest) r (by
        intro d hd
        simp only [List.mem_cons] at hd
        rcases hd with hd | hd
        · rw [hd]; exact hsp
        · exact hsps d hd) hws2 (isWordChar_not_reSpace hn) (by decide) (by simpa using e1)
    rw [h2.2.1] at hn
    exact absurd hn (by decide)

theorem attributeRegex_eq :
    attributeRegex =
      .seq (.star (.cls isReSpace)) (.seq (.grp 1 (Re.plus (.cls isWordChar)))
        (.seq (Re.plus (.cls isReSpace)) (.seq (.grp 2 (Re.plus (.cls isWordChar)))
          attributeMarks))) := rfl

theorem attributeMarks_nil (c : Caps) : attributeMarks.Starts [] c ([], c) := rfl

theorem attributeMarks_marker (M : List Char) (hM : IsMarker M) (c : Caps) :
    attributeMarks.Starts (' ' :: M) c ([], c.set 3 M) := by
  rcases hM with h | h | h | h <;> subst h <;> rfl

theorem parseAttribute_tail (T N tail : List Char) (hT : IsName T) (hN : IsName N)
    (hw : NoHead isWordChar tail) (c3 : List Char)
    (ht : ∃ (rest : List Char) (c1 : Caps),
      attributeMarks.Starts tail ((Caps.none.set 1 T).set 2 N) (rest, c1) ∧
      c1 1 = T ∧ c1 2 = N ∧ c1 3 = c3) :
    parseAttribute (T ++ (' ' :: (N ++ tail))) =
      some { Name := N, Typ := T,
             IsPK := contains (toUpper c3) "PK".toList,
             IsFK := contains (toUpper c3) "FK".toList,
             IsUnique := contains (toUpper c3) "UK".toList,
             IsNotNull := contains (toUpper c3) "NOT NULL".toList } := by
  obtain ⟨rest, c1, hs, e1, e2, e3⟩ := ht
  have h : attributeRegex.Starts (T ++ (' ' :: (N ++ tail))) Caps.none (rest, c1) := by
    rw [attributeRegex_eq]
    refine Re.Starts.seq (starts_star_cls_nil _ _ _
      (noHead_append _ hT.1 (fun ch h => isWordChar_not_reSpace (hT.2 ch h)))) ?_
    refine Re.Starts.seq (starts_grp_plus_cls 1 _ T _ _ hT.1 hT.2 (noHead_cons _ (by decide))) ?_
    refine Re.Starts.seq (starts_plus_cls isReSpace [' '] (N ++ tail) _ (by simp)
      (by decide) (noHead_append _ hN.1 (fun ch h => isWordChar_not_reSpace (hN.2 ch h)))) ?_
    refine Re.Starts.seq (starts_grp_plus_cls 2 _ N _ _ hN.1 hN.2 hw) ?_
    exact hs
  unfold Re.Starts at h
  simp [parseAttribute, findSubmatch, h, e1, e2, e3]

theorem parseAttribute_attributeLine (a : AttributeLine) (h : a.WF) :
    parseAttribute a.render = some a.attribute := by
  obtain ⟨hT, hN, hM⟩ := h
  rcases a with ⟨T, N, m⟩
  cases m with
  | none =>
    have := parseAttribute_tail T N [] hT hN (noHead_nil _) []
      ⟨_, _, attributeMarks_nil _, rfl, rfl, rfl⟩
    rw [AttributeLine.render, this]
    rfl
  | some M =>
    have hm := hM M rfl
    have := parseAttribute_tail T N (' ' :: M) hT hN (noHead_cons _ (by decide)) M
      ⟨_, _, attributeMarks_marker M hm _, rfl, rfl, rfl⟩
    rw [AttributeLine.render, this]
    rcases hm with h | h | h | h <;> subst h <;> rfl

theorem attributeRegex_sound {s : List Char} {c : Caps} {x : List Char × Caps}
    (h : x ∈ attributeRegex.run s c) : ∃ ch ∈ s, isReSpace ch = true := by
  simp only [attributeRegex_eq, run_seq, run_grp, List.mem_flatMap, List.mem_map] at h
  obtain ⟨y1, h1, y2, ⟨z, hz, hzy⟩, y3, h3, _⟩ := h
  obtain ⟨_, ws, e1, _⟩ := mem_run_star_cls h1
  obtain ⟨_, ch, w, e2, _, _⟩ := mem_run_plus_cls hz
  obtain ⟨_, sp, sps, e3, hsp, _⟩ := mem_run_plus_cls h3
  have e5 : y2.1 = z.1 := by rw [← hzy]
  refine ⟨sp, ?_, hsp⟩
  rw [e1, e2, ← e5, e3]
  simp

theorem parseAttribute_word (w : List Char) (hw : ∀ ch ∈ w, isWordChar ch = true) :
    parseAttribute w = none := by
  have h : attributeRegex.run w Caps.none = [] := by
    rw [List.eq_nil_iff_forall_not_mem]
    intro y hy
    obtain ⟨ch, hch, hs⟩ := attributeRegex_sound hy
    have := isWordChar_not_reSpace (hw ch hch)
    rw [hs] at this
    exact absurd this (by simp)
  simp [parseAttribute, findSubmatch, h]

/-- C7: for all word-character tokens `T` and `N`, `parseAttribute` of `T N` returns the
attribute with `Type = T`, `Name = N` and the four flags false; of `T N M` for a single
upper-case marker `M` of `PK`, `FK`, `UK`, `NOT NULL` the same attribute with exactly
the flag of `M` set (`IsPK`, `IsFK`, `IsUnique`, `IsNotNull` respectively); and a line
that is a single word is rejected. -/
theorem parseAttribute_tokens (T N : List Char) (hT : IsName T) (hN : IsName N) :
    parseAttribute (T ++ " ".toList ++ N) =
      some { Name := N, Typ := T, IsPK := false, IsFK := false, IsUnique := false,
             IsNotNull := false } ∧
    parseAttribute (T ++ " ".toList ++ N ++ " PK".toList) =
      some { Name := N, Typ := T, IsPK := true, IsFK := false, IsUnique := false,
             IsNotNull := false } ∧
    parseAttribute (T ++ " ".toList ++ N ++ " FK".toList) =
      some { Name := N, Typ := T, IsPK := false, IsFK := true, IsUnique := false,
             IsNotNull := false } ∧
    parseAttribute (T ++ " ".toList ++ N ++ " UK".toList) =
      some { Name := N, Typ := T, IsPK := false, IsFK := false, IsUnique := true,
             IsNotNull := false } ∧
    parseAttribute (T ++ " ".toList ++ N ++ " NOT NULL".toList) =
      some { Name := N, Typ := T, IsPK := false, IsFK := false, IsUnique := false,
             IsNotNull := true } ∧
    parseAttribute T = none := by
  have h0 := parseAttribute_attributeLine ⟨T, N, none⟩ ⟨hT, hN, by simp⟩
  have h1 := parseAttribute_attributeLine ⟨T, N, some "PK".toList⟩
    ⟨hT, hN, by intro m hm; cases hm; decide⟩
  have h2 := parseAttribute_attributeLine ⟨T, N, some "FK".toList⟩
    ⟨hT, hN, by intro m hm; cases hm; decide⟩
  have h3 := parseAttribute_attributeLine ⟨T, N, some "UK".toList⟩
    ⟨hT, hN, by intro m hm; cases hm; decide⟩
  have h4 := parseAttribute_attributeLine ⟨T, N, some "NOT NULL".toList⟩
    ⟨hT, hN, by intro m hm; cases hm; decide⟩
  refine ⟨?_, ?_, ?_, ?_, ?_, parseAttribute_word T hT.2⟩
  · simpa [AttributeLine.render, AttributeLine.attribute] using h0
  · simpa [AttributeLine.render, AttributeLine.attribute] using h1
  · simpa [AttributeLine.render, AttributeLine.attribute] using h2
  · simpa [AttributeLine.render, AttributeLine.attribute] using h3
  · simpa [AttributeLine.render, AttributeLine.attribute] using h4

/-- Witness of C7: the theorem `parseAttribute_tokens` at the tokens `int` and `id`. -/
theorem parseAttribute_tokens_witness :
    parseAttribute "int id".toList =
      some { Name := "id".toList, Typ := "int".toList, IsPK := false, IsFK := false,
             IsUnique := false, IsNotNull := false } ∧
    parseAttribute "int id PK".toList =
      some { Name := "id".toList, Typ := "int".toList, IsPK := true, IsFK := false,
             IsUnique := false, IsNotNull := false } ∧
    parseAttribute "int".toList = none := by
  have h := parseAttribute_tokens "int".toList "id".toList (by decide) (by decide)
  exact ⟨h.1, h.2.1, h.2.2.2.2.2⟩

theorem trimSpace_of_ends (l : List Char) (h1 : ∀ c, l.head? = some c → isSpace c = false)
    (h2 : ∀ c, l.getLast? = some c → isSpace c = false) : trimSpace l = l := by
  have e : l.dropWhile isSpace = l := by
    cases l with
    | nil => rfl
    | cons c l => simp [List.dropWhile_cons, h1 c rfl]
  rw [trimSpace, e, dropWhileEnd_of_getLast _ _ h2]

theorem head?_name_append {N : List Char} (hN : IsName N) (r : List Char) (c : Char)
    (h : (N ++ r).head? = some c) : isWordChar c = true := by
  obtain ⟨n, N1, rfl⟩ := List.exists_cons_of_ne_nil hN.1
  simp only [List.cons_append, List.head?_cons, Option.some.injEq] at h
  rw [← h]
  exact hN.2 n (by simp)

theorem shouldSkipLine_name (N : List Char) (x : Char) (r : List Char) (hN : IsName N)
    (hx : isWordChar x = false) (hk : hasPrefix N "erDiagram".toList = false) :
    shouldSkipLine (N ++ x :: r) = false := by
  have h1 := hasPrefix_append_of_class isWordChar "erDiagram".toList x (by decide) hx N r hk
  obtain ⟨n, N1, rfl⟩ := List.exists_cons_of_ne_nil hN.1
  have hf : n ≠ '%' := isWordChar_ne (hN.2 n (by simp)) (by decide)
  simp only [shouldSkipLine, Bool.or_eq_false_iff]
  refine ⟨⟨by simp, ?_⟩, by simpa using h1⟩
  simp [hasPrefix, List.isPrefixOf, hf.symm]

theorem name_append_ne_close (N : List Char) (r : List Char) (hN : IsName N) :
    N ++ r ≠ "\x7d".toList := by
  obtain ⟨n, N1, rfl⟩ := List.exists_cons_of_ne_nil hN.1
  intro e
  have hn := hN.2 n (by simp)
  have e1 : n = '}' := by
    have := congrArg List.head? e
    simpa using this
  rw [e1] at hn
  exact absurd hn (by decide)

theorem erStep_entityOpen (st : ERState) (N : List Char) (hN : IsName N)
    (hk : hasPrefix N "erDiagram".toList = false) :
    erStep st (N ++ " \x7b".toList) =
      { st with currentEntity := some { Name := N, Attributes := [] }, inEntity := true } := by
  have ht : trimSpace (N ++ " \x7b".toList) = N ++ " \x7b".toList :=
    trimSpace_of_ends _ (fun c h => isWordChar_not_space (head?_name_append hN _ c h))
      (fun c h => by
        have e : c = '{' := by
          have : (N ++ " \x7b".toList).getLast? = some '{' := by
            simp [List.getLast?_append]
          rw [this] at h
          exact (Option.some.inj h).symm
        subst e
        decide)
  have hs : shouldSkipLine (N ++ " \x7b".toList) = false :=
    shouldSkipLine_name N ' ' _ hN (by decide) hk
  have hc : N ++ " \x7b".toList ≠ "\x7d".toList := name_append_ne_close N _ hN
  have he : parseEntityStart (N ++ " \x7b".toList) = some { Name := N, Attributes := [] } :=
    parseEntityStart_line N [' '] [] hN (by decide)
  have hx : hasSuffix (N ++ " \x7b".toList) "\x7b\x7d".toList = false := by
    simp [hasSuffix, List.isPrefixOf]
  generalize N ++ " \x7b".toList = L at ht hs hc he hx
  simp only [erStep, ht, hs, hc, he, hx, false_and, if_false, Bool.false_eq_true]

theorem erStep_entityInline (st : ERState) (N : List Char) (hN : IsName N)
    (hk : hasPrefix N "erDiagram".toList = false) :
    erStep st (N ++ " \x7b\x7d".toList) =
      { diagram := st.diagram.addEntity { Name := N, Attributes := [] },
        currentEntity := none, inEntity := false } := by
  have ht : trimSpace (N ++ " \x7b\x7d".toList) = N ++ " \x7b\x7d".toList :=
    trimSpace_of_ends _ (fun c h => isWordChar_not_space (head?_name_append hN _ c h))
      (fun c h => by
        have e : c = '}' := by
          have : (N ++ " \x7b\x7d".toList).getLast? = some '}' := by
            simp [List.getLast?_append]
          rw [this] at h
          exact (Option.some.inj h).symm
        subst e
        decide)
  have hs : shouldSkipLine (N ++ " \x7b\x7d".toList) = false :=
    shouldSkipLine_name N ' ' _ hN (by decide) hk
  have hc : N ++ " \x7b\x7d".toList ≠ "\x7d".toList := name_append_ne_close N _ hN
  have he : parseEntityStart (N ++ " \x7b\x7d".toList) =
      some { Name := N, Attributes := [] } :=
    parseEntityStart_line N [' '] ['}'] hN (by decide)
  have hx : hasSuffix (N ++ " \x7b\x7d".toList) "\x7b\x7d".toList = true := by
    simp [hasSuffix, List.isPrefixOf]
  generalize N ++ " \x7b\x7d".toList = L at ht hs hc he hx
  simp only [erStep, ht, hs, hc, he, hx, false_and, if_false, if_true, Bool.false_eq_true]

theorem render_getLast_word (a : AttributeLine) (h : a.WF) (c : Char)
    (hc : a.render.getLast? = some c) : isSpace c = false := by
  obtain ⟨hT, hN, hM⟩ := h
  rcases a with ⟨T, N, m⟩
  cases m with
  | none =>
    have e : AttributeLine.render ⟨T, N, none⟩ = (T ++ [' ']) ++ N := by
      simp [AttributeLine.render]
    rw [e, List.getLast?_append_of_ne_nil _ hN.1] at hc
    exact isWordChar_not_space (hN.2 c (List.mem_of_getLast?_eq_some hc))
  | some M =>
    have hm := hM M rfl
    have e : AttributeLine.render ⟨T, N, some M⟩ = (T ++ ' ' :: N ++ [' ']) ++ M := by
      simp [AttributeLine.render]
    have hne : M ≠ [] := by rcases hm with h | h | h | h <;> subst h <;> simp
    rw [e, List.getLast?_append_of_ne_nil _ hne] at hc
    rcases hm with h | h | h | h <;> subst h <;>
      (have e2 := Option.some.inj hc; subst e2; decide)

theorem erStep_attributeLine (st : ERState) (e : Entity) (a : AttributeLine)
    (hin : st.inEntity = true) (hcur : st.currentEntity = some e) (h : a.WF)
    (hk : hasPrefix a.typ "erDiagram".toList = false) :
    erStep st a.render =
      { st with currentEntity := some { e with Attributes := e.Attributes ++ [a.attribute] } } := by
  have hlast := render_getLast_word a h
  have hattr := parseAttribute_attributeLine a h
  obtain ⟨hT, hN, hM⟩ := h
  have ht : trimSpace a.render = a.render :=
    trimSpace_of_ends _ (fun c h => isWordChar_not_space (head?_name_append hT _ c h)) hlast
  have hs : shouldSkipLine a.render = false :=
    shouldSkipLine_name a.typ ' ' _ hT (by decide) hk
  have hc : a.render ≠ "\x7d".toList := name_append_ne_close a.typ _ hT
  have he : parseEntityStart a.render = none :=
    parseEntityStart_two_words a.typ ' ' [] a.name _ hT (by decide) (by simp) hN
  generalize a.render = L at ht hs hc he hattr
  simp only [erStep, ht, hs, hc, he, hattr, hin, hcur, false_and, if_false, Bool.false_eq_true]

theorem erStep_close (st : ERState) (e : Entity)
    (hin : st.inEntity = true) (hcur : st.currentEntity = some e) :
    erStep st "\x7d".toList =
      { diagram := st.diagram.addEntity e, currentEntity := none, inEntity := false } := by
  have ht : trimSpace "\x7d".toList = "\x7d".toList := by decide
  have hs : shouldSkipLine "\x7d".toList = false := by decide
  simp only [erStep, ht, hs, hin, hcur, and_self, if_true, if_false, Bool.false_eq_true]

theorem foldl_erStep_attributes (attrs : List AttributeLine)
    (hwf : ∀ a ∈ attrs, a.WF)
    (hk : ∀ a ∈ attrs, hasPrefix a.typ "erDiagram".toList = false) :
    ∀ (st : ERState) (e : Entity), st.inEntity = true → st.currentEntity = some e →
      (attrs.map AttributeLine.render).foldl erStep st =
        { diagram := st.diagram,
          currentEntity := some ⟨e.Name, e.Attributes ++ attrs.map AttributeLine.attribute⟩,
          inEntity := st.inEntity } := by
  induction attrs with
  | nil =>
    intro st e _ hcur
    rcases st with ⟨d, cur, ie⟩
    simp only at hcur
    subst hcur
    simp
  | cons a attrs ih =>
    intro st e hin hcur
    rw [List.map_cons, List.foldl_cons,
      erStep_attributeLine st e a hin hcur (hwf a (by simp)) (hk a (by simp)),
      ih (fun b hb => hwf b (by simp [hb])) (fun b hb => hk b (by simp [hb]))
        { st with currentEntity := some { e with Attributes := e.Attributes ++ [a.attribute] } }
        { e with Attributes := e.Attributes ++ [a.attribute] } hin rfl]
    simp

theorem erStep_dropCR (st : ERState) (l : List Char) : erStep st (dropCR l) = erStep st l := by
  simp only [erStep, trimSpace_dropCR]

theorem foldl_erStep_dropCR (ls : List (List Char)) :
    ∀ st : ERState, (ls.map dropCR).foldl erStep st = ls.foldl erStep st := by
  induction ls with
  | nil => intro st; rfl
  | cons l ls ih => intro st; simp [erStep_dropCR, ih]

theorem ParseERDiagram_of_rawLines (input : List Char) (ls : List (List Char))
    (h : rawLines input = ls) (hs : ∀ l ∈ ls, utf8Len l < maxScanTokenSize) :
    ParseERDiagram input = ((ls.foldl erStep ERState.init).finish, none) := by
  simp [ParseERDiagram, scanLines, h, scanTokens_ok ls hs, foldl_erStep_dropCR]

theorem ParseERDiagram_tooLong (input : List Char) (ls1 : List (List Char))
    (l : List Char) (ls2 : List (List Char)) (h : rawLines input = ls1 ++ l :: ls2)
    (hs : ∀ m ∈ ls1, utf8Len m < maxScanTokenSize) (hl : maxScanTokenSize ≤ utf8Len l) :
    ParseERDiagram input = ((ls1.foldl erStep ERState.init).finish, some .ErrTooLong) := by
  simp [ParseERDiagram, scanLines, h, scanTokens_tooLong ls1 l ls2 hs hl, foldl_erStep_dropCR]

theorem rawLines_joinAll (ls : List (List Char)) (hn : ∀ l ∈ ls, '\n' ∉ l)
    (hlast : ∀ l, ls.getLast? = some l → l ≠ []) : rawLines (joinAll ls) = ls := by
  induction ls with
  | nil => rfl
  | cons l ls ih =>
    cases ls with
    | nil =>
      have := rawLines_single l (hlast l rfl) (hn l (by simp))
      simpa [joinAll, joinLines] using this
    | cons m ms =>
      have e : joinAll (l :: m :: ms) = l ++ '\n' :: joinAll (m :: ms) := by
        simp [joinAll, joinLines]
      rw [e, rawLines_append_newline _ _ (hn l (by simp)),
        ih (fun k hk => hn k (by simp [hk]))
          (fun k hk => hlast k (by simpa [List.getLast?_cons_cons] using hk))]

theorem erStep_init_keyword : erStep ERState.init "erDiagram".toList = ERState.init := by
  decide

theorem attributeLine_render_ne_nil {a : AttributeLine} (h : a.WF) : a.render ≠ [] := by
  have := h.1.1
  simp [AttributeLine.render, this]

theorem isMarker_no_newline {m : List Char} (h : IsMarker m) : '\n' ∉ m := by
  rcases h with h | h | h | h <;> subst h <;> decide

theorem attributeLine_render_no_newline {a : AttributeLine} (h : a.WF) : '\n' ∉ a.render := by
  obtain ⟨hT, hN, hM⟩ := h
  have h1 := isName_no_newline hT
  have h2 := isName_no_newline hN
  rcases a with ⟨T, N, m⟩
  cases m with
  | none =>
    simp only [AttributeLine.render, List.mem_append, List.mem_cons, not_or, List.append_nil]
    exact ⟨h1, by decide, h2⟩
  | some M =>
    have h3 := isMarker_no_newline (hM M rfl)
    simp only [AttributeLine.render, List.mem_append, List.mem_cons, not_or]
    exact ⟨h1, by decide, h2, by decide, h3⟩

theorem entityOpen_no_newline {N : List Char} (hN : IsName N) :
    '\n' ∉ N ++ " \x7b".toList := by
  have h1 := isName_no_newline hN
  simp only [List.mem_append, not_or]
  exact ⟨h1, by decide⟩

/-- The state that the loop reaches from `st` over an entity start `N {` and the
attribute lines `attrs`. -/
theorem foldl_erStep_block (st : ERState) (N : List Char) (attrs : List AttributeLine)
    (hN : IsName N) (hkN : hasPrefix N "erDiagram".toList = false)
    (hwf : ∀ a ∈ attrs, a.WF)
    (hk : ∀ a ∈ attrs, hasPrefix a.typ "erDiagram".toList = false) :
    ((N ++ " \x7b".toList) :: attrs.map AttributeLine.render).foldl erStep st =
      { diagram := st.diagram,
        currentEntity := some ⟨N, attrs.map AttributeLine.attribute⟩,
        inEntity := true } := by
  rw [List.foldl_cons, erStep_entityOpen st N hN hkN,
    foldl_erStep_attributes attrs hwf hk _ ⟨N, []⟩ rfl rfl]
  simp

/-- C3 (amended): for an ER text made of the keyword line, an entity-start line
`<name> {`, attribute lines `<type> <name>` (each also with one constraint marker, if
any) and a closing `}` line, where the entity name, the types and the attribute names
are non-empty words of word characters (ASCII letters, digits, `_`), neither the
entity name nor a type begins with `erDiagram` and every line is shorter than 64 KiB,
`ParseERDiagram` returns no error and exactly one entity with that name whose
attributes are those of the attribute lines, in declaration order, each with `Type`
the first token and `Name` the second. -/
theorem entity_block_parsed (N : List Char) (attrs : List AttributeLine)
    (hN : IsName N) (hkN : hasPrefix N "erDiagram".toList = false)
    (hwf : ∀ a ∈ attrs, a.WF)
    (hk : ∀ a ∈ attrs, hasPrefix a.typ "erDiagram".toList = false)
    (hlenN : utf8Len (N ++ " \x7b".toList) < maxScanTokenSize)
    (hlen : ∀ a ∈ attrs, utf8Len a.render < maxScanTokenSize) :
    ParseERDiagram (joinAll ("erDiagram".toList :: (N ++ " \x7b".toList) ::
        (attrs.map AttributeLine.render ++ ["\x7d".toList]))) =
      ({ Entities := [{ Name := N, Attributes := attrs.map AttributeLine.attribute }],
         Relationships := [] }, none) ∧
    (attrs.map AttributeLine.attribute).map (fun x => (x.Typ, x.Name)) =
      attrs.map (fun a => (a.typ, a.name)) := by
  refine ⟨?_, by simp [AttributeLine.attribute]⟩
  have hraw : rawLines (joinAll ("erDiagram".toList :: (N ++ " \x7b".toList) ::
        (attrs.map AttributeLine.render ++ ["\x7d".toList]))) =
      "erDiagram".toList :: (N ++ " \x7b".toList) ::
        (attrs.map AttributeLine.render ++ ["\x7d".toList]) := by
    apply rawLines_joinAll
    · intro l hl
      simp only [List.mem_cons, List.mem_append, List.mem_map, List.mem_singleton,
        List.not_mem_nil, or_false] at hl
      rcases hl with h | h | ⟨a, ha, rfl⟩ | h
      · subst h; decide
      · subst h; exact entityOpen_no_newline hN
      · exact attributeLine_render_no_newline (hwf a ha)
      · subst h; decide
    · intro l hl
      have e : ("erDiagram".toList :: (N ++ " \x7b".toList) ::
          (attrs.map AttributeLine.render ++ ["\x7d".toList])) =
          ("erDiagram".toList :: (N ++ " \x7b".toList) :: attrs.map AttributeLine.render) ++
            ["\x7d".toList] := by simp
      rw [e, List.getLast?_append_of_ne_nil _ (by simp)] at hl
      have := Option.some.inj hl
      subst this
      decide
  rw [ParseERDiagram_of_rawLines _ _ hraw (by
    intro l hl
    simp only [List.mem_cons, List.mem_append, List.mem_map, List.mem_singleton,
      List.not_mem_nil, or_false] at hl
    rcases hl with h | h | ⟨a, ha, rfl⟩ | h
    · subst h; decide
    · subst h; exact hlenN
    · exact hlen a ha
    · subst h; decide)]
  have e2 : ("erDiagram".toList :: (N ++ " \x7b".toList) ::
      (attrs.map AttributeLine.render ++ ["\x7d".toList])) =
      ["erDiagram".toList] ++ ((N ++ " \x7b".toList) :: attrs.map AttributeLine.render) ++
        ["\x7d".toList] := by simp
  have e3 : List.foldl erStep ERState.init ["erDiagram".toList] = ERState.init :=
    erStep_init_keyword
  rw [e2, List.foldl_append, List.foldl_append, e3,
    foldl_erStep_block _ N attrs hN hkN hwf hk, List.foldl_cons,
    List.foldl_nil, erStep_close _ ⟨N, attrs.map AttributeLine.attribute⟩ rfl rfl]
  rfl

/-- Witness of C3: the theorem `entity_block_parsed` at the entity `USER` with the attributes
`int id` and `string name`. -/
theorem entity_block_parsed_witness :
    ParseERDiagram "erDiagram\nUSER \x7b\nint id\nstring name\n\x7d".toList =
      ({ Entities := [{ Name := "USER".toList, Attributes :=
            [{ Name := "id".toList, Typ := "int".toList },
             { Name := "name".toList, Typ := "string".toList }] }],
         Relationships := [] }, none) :=
  (entity_block_parsed "USER".toList
    [⟨"int".toList, "id".toList, none⟩, ⟨"string".toList, "name".toList, none⟩]
    (by decide) (by decide) (by decide) (by decide) (by decide) (by decide)).1

theorem ParseERDiagram_long_attribute (big : List Char) (post : List (List Char))
    (hn : '\n' ∉ big) (hl : maxScanTokenSize ≤ utf8Len big)
    (hpost : ∀ l ∈ post, '\n' ∉ l ∧ l ≠ []) :
    ParseERDiagram (joinAll (["erDiagram".toList, "USER \x7b".toList] ++
        ("int ".toList ++ big) :: post)) =
      ({ Entities := [{ Name := "USER".toList, Attributes := [] }], Relationships := [] },
        some .ErrTooLong) := by
  have hn2 : '\n' ∉ "int ".toList ++ big := by
    simp only [List.mem_append, not_or]
    exact ⟨by decide, hn⟩
  have hne : "int ".toList ++ big ≠ [] := by simp
  have hraw : rawLines (joinAll (["erDiagram".toList, "USER \x7b".toList] ++
      ("int ".toList ++ big) :: post)) =
      ["erDiagram".toList, "USER \x7b".toList] ++ ("int ".toList ++ big) :: post := by
    apply rawLines_joinAll
    · intro l hl
      simp only [List.mem_cons, List.mem_append, List.not_mem_nil, or_false] at hl
      rcases hl with (h | h) | h | h
      · subst h; decide
      · subst h; decide
      · subst h; exact hn2
      · exact (hpost l h).1
    · intro l hl
      have hm := List.mem_of_getLast?_eq_some hl
      simp only [List.mem_cons, List.mem_append, List.not_mem_nil, or_false] at hm
      rcases hm with (h | h) | h | h
      · subst h; decide
      · subst h; decide
      · subst h; exact hne
      · exact (hpost l h).2
  rw [ParseERDiagram_tooLong _ _ _ _ hraw (by decide) (by
    rw [utf8Len_append]
    exact Nat.le_trans hl (Nat.le_add_left _ _))]
  decide

/-- C3 as stated fails.  An entity whose name begins with `erDiagram` is skipped like
the keyword line (no entity is returned); an attribute whose type begins with
`erDiagram` is skipped (the entity comes out without it); an attribute line of
64 KiB stops the scanner with `ErrTooLong`, so the entity comes out without it; and
with a name or a type that is not a word of word characters the lines are not
recognised as written: the attribute line `varchar(255) name` gives no attribute, the
entity-start line `LINE-ITEM {` opens no entity, and the attribute line
`int user-id` gives the name `user`, not the second token. -/
theorem entity_block_parsed_counterexample :
    ParseERDiagram "erDiagram\nerDiagramX \x7b\nint id\n\x7d".toList =
      ({ Entities := [], Relationships := [] }, none) ∧
    ParseERDiagram "erDiagram\nUSER \x7b\nerDiagramKind kind\n\x7d".toList =
      ({ Entities := [{ Name := "USER".toList, Attributes := [] }], Relationships := [] },
        none) ∧
    (IsName (List.replicate 65536 'x') ∧
      ParseERDiagram (joinAll ["erDiagram".toList, "USER \x7b".toList,
          "int ".toList ++ List.replicate 65536 'x', "\x7d".toList]) =
        ({ Entities := [{ Name := "USER".toList, Attributes := [] }], Relationships := [] },
          some .ErrTooLong)) ∧
    ParseERDiagram "erDiagram\nUSER \x7b\nvarchar(255) name\n\x7d".toList =
      ({ Entities := [{ Name := "USER".toList, Attributes := [] }], Relationships := [] },
        none) ∧
    ParseERDiagram "erDiagram\nLINE-ITEM \x7b\nint id\n\x7d".toList =
      ({ Entities := [], Relationships := [] }, none) ∧
    ParseERDiagram "erDiagram\nUSER \x7b\nint user-id\n\x7d".toList =
      ({ Entities := [{ Name := "USER".toList,
                        Attributes := [{ Name := "user".toList, Typ := "int".toList }] }],
         Relationships := [] }, none) := by
  refine ⟨by decide, by decide, ⟨⟨?_, ?_⟩, ?_⟩, by decide, by decide, by decide⟩
  · intro h
    have := congrArg List.length h
    rw [List.length_replicate, List.length_nil] at this
    exact absurd this (by decide)
  · intro ch hch
    rw [List.eq_of_mem_replicate hch]
    decide
  · apply ParseERDiagram_long_attribute _ ["\x7d".toList]
    · exact not_mem_replicate_of_ne _ _ _ (by decide)
    · rw [utf8Len_replicate]
      decide
    · decide

/-- C8 as stated fails.  An unterminated block whose name begins with `erDiagram` is
never opened, so no entity is committed; with an attribute line of 64 KiB the parser
returns the error `ErrTooLong`, not "no error"; and with a name that is not a word of
word characters the line `LINE-ITEM {` is no entity start: the block is never
opened, so no entity is committed. -/
theorem unterminated_block_committed_counterexample :
    ParseERDiagram "erDiagram\nerDiagramX \x7b\nint id".toList =
      ({ Entities := [], Relationships := [] }, none) ∧
    ParseERDiagram (joinAll ["erDiagram".toList, "USER \x7b".toList,
        "int ".toList ++ List.replicate 65536 'x']) =
      ({ Entities := [{ Name := "USER".toList, Attributes := [] }], Relationships := [] },
        some .ErrTooLong) ∧
    ParseERDiagram "erDiagram\nLINE-ITEM \x7b\nint id".toList =
      ({ Entities := [], Relationships := [] }, none) := by
  refine ⟨by decide, ?_, by decide⟩
  apply ParseERDiagram_long_attribute _ []
  · exact not_mem_replicate_of_ne _ _ _ (by decide)
  · rw [utf8Len_replicate]
    decide
  · decide

theorem erStep_outside (st : ERState) (l : List Char) (hout : st.inEntity = false)
    (hs : shouldSkipLine (trimSpace l) = false) (he : parseEntityStart (trimSpace l) = none) :
    erStep st l =
      match parseRelationship (trimSpace l) with
      | some rel =>
        { st with diagram := { st.diagram with
            Relationships := st.diagram.Relationships ++ [rel] } }
      | none => st := by
  simp only [erStep, hs, he, hout, and_false, if_false, Bool.false_eq_true]

theorem ParseERDiagram_long_line (l : List Char) (hne : l ≠ []) (hn : '\n' ∉ l)
    (hl : maxScanTokenSize ≤ utf8Len l) :
    ParseERDiagram (joinAll ["erDiagram".toList, l]) =
      ({ Entities := [], Relationships := [] }, some .ErrTooLong) := by
  have hraw : rawLines (joinAll ["erDiagram".toList, l]) = ["erDiagram".toList] ++ l :: [] := by
    apply rawLines_joinAll
    · intro m hm
      simp only [List.mem_cons, List.not_mem_nil, or_false] at hm
      rcases hm with h | h
      · subst h; decide
      · subst h; exact hn
    · intro m hm
      have e : m = l := by
        have h2 : (["erDiagram".toList, l] : List (List Char)).getLast? = some l := rfl
        rw [h2] at hm
        exact (Option.some.inj hm).symm
      subst e
      exact hne
  rw [ParseERDiagram_tooLong _ _ _ _ hraw (by decide) hl]
  decide

/-- C9 as stated fails: in state Outside the line `erDiagramX {}`, an entity-start
pattern ending in `{}`, is skipped like the keyword line and appends no entity; and
a line `<name> {}` with a name of 64 KiB stops the scanner with `ErrTooLong` before
any entity is appended. -/
theorem inline_entity_stays_outside_counterexample :
    (IsName "erDiagramX".toList ∧
      parseEntityStart "erDiagramX \x7b\x7d".toList =
        some { Name := "erDiagramX".toList, Attributes := [] } ∧
      erStep ERState.init "erDiagramX \x7b\x7d".toList = ERState.init ∧
      ParseERDiagram "erDiagram\nerDiagramX \x7b\x7d".toList =
        ({ Entities := [], Relationships := [] }, none)) ∧
    (IsName (List.replicate 65536 'x') ∧
      ParseERDiagram (joinAll ["erDiagram".toList,
          List.replicate 65536 'x' ++ " \x7b\x7d".toList]) =
        ({ Entities := [], Relationships := [] }, some .ErrTooLong)) := by
  have hname : IsName (List.replicate 65536 'x') := by
    refine ⟨?_, ?_⟩
    · intro h
      have := congrArg List.length h
      rw [List.length_replicate, List.length_nil] at this
      exact absurd this (by decide)
    · intro ch hch
      rw [List.eq_of_mem_replicate hch]
      decide
  refine ⟨by decide, hname, ?_⟩
  apply ParseERDiagram_long_line
  · intro h
    have := congrArg List.length h
    rw [List.length_append, List.length_replicate] at this
    exact absurd this (by decide)
  · have := isName_no_newline hname
    simp only [List.mem_append, not_or]
    exact ⟨this, by decide⟩
  · rw [utf8Len_append, utf8Len_replicate]
    exact Nat.le_trans (by decide) (Nat.le_add_right _ _)

/-- C4 fails on the code: inside a block, the line `ORDER {` is not an attribute
attempt.  It replaces the entity in progress (`USER` with its attribute `id` is lost,
never committed), and the line `ORDER {}` commits `ORDER`, drops `USER` and leaves
the block. -/
theorem entity_start_inside_block_drops_entity :
    erStep { diagram := { Entities := [], Relationships := [] },
             currentEntity :=
               some ⟨"USER".toList, [{ Name := "id".toList, Typ := "int".toList }]⟩,
             inEntity := true } "ORDER \x7b".toList =
      { diagram := { Entities := [], Relationships := [] },
        currentEntity := some { Name := "ORDER".toList, Attributes := [] },
        inEntity := true } ∧
    ParseERDiagram "erDiagram\nUSER \x7b\nint id\nORDER \x7b\nint x\n\x7d".toList =
      ({ Entities := [⟨"ORDER".toList, [{ Name := "x".toList, Typ := "int".toList }]⟩],
         Relationships := [] }, none) ∧
    ParseERDiagram "erDiagram\nUSER \x7b\nint id\nORDER \x7b\x7d\nstring name\n\x7d".toList =
      ({ Entities := [{ Name := "ORDER".toList, Attributes := [] }],
         Relationships := [] }, none) := by
  decide

theorem attributeMarks_eq : attributeMarks = .star attributeMark := rfl

theorem attributeMark_cap {s : List Char} {c : Caps} {x : List Char × Caps}
    (h : x ∈ attributeMark.run s c) : IsMarker (x.2 3) := by
  simp only [attributeMark, run_seq, run_grp, run_alt, List.mem_flatMap, List.mem_map,
    List.mem_append] at h
  obtain ⟨y, _, z, hz, rfl⟩ := h
  have hcap : ∀ M : List Char, y.1 = M ++ z.1 →
      List.take (y.1.length - z.1.length) y.1 = M := by
    intro M e
    rw [e]
    simp
  rcases hz with hz | hz | hz | hz
  · have e := (mem_run_str _ _ hz).2
    simp only [Caps.set, if_true]
    rw [hcap _ e]
    exact Or.inl rfl
  · have e := (mem_run_str _ _ hz).2
    simp only [Caps.set, if_true]
    rw [hcap _ e]
    exact Or.inr (Or.inl rfl)
  · have e := (mem_run_str _ _ hz).2
    simp only [Caps.set, if_true]
    rw [hcap _ e]
    exact Or.inr (Or.inr (Or.inl rfl))
  · have e := (mem_run_str _ _ hz).2
    simp only [Caps.set, if_true]
    rw [hcap _ e]
    exact Or.inr (Or.inr (Or.inr rfl))

theorem starRun_attributeMark_cap :
    ∀ (n : Nat) (s : List Char) (c : Caps) (x : List Char × Caps),
      x ∈ starRun attributeMark.run n s c → x.2 3 = c 3 ∨ IsMarker (x.2 3) := by
  intro n
  induction n with
  | zero =>
    intro s c x h
    simp only [starRun, List.mem_singleton] at h
    subst h
    exact Or.inl rfl
  | succ n ih =>
    intro s c x h
    simp only [starRun, List.mem_append, List.mem_flatMap, List.mem_singleton] at h
    rcases h with ⟨y, hy, hx⟩ | h
    · have hm := attributeMark_cap hy
      rcases ih _ _ _ hx with h1 | h1
      · exact Or.inr (h1 ▸ hm)
      · exact Or.inr h1
    · subst h
      exact Or.inl rfl

theorem attributeRegex_cap {s : List Char} {x : List Char × Caps}
    (h : x ∈ attributeRegex.run s Caps.none) : x.2 3 = [] ∨ IsMarker (x.2 3) := by
  simp only [attributeRegex_eq, run_seq, run_grp, List.mem_flatMap, List.mem_map] at h
  obtain ⟨y1, h1, y2, ⟨z1, hz1, e1⟩, y3, h3, y4, ⟨z2, hz2, e2⟩, h5⟩ := h
  have c1 := (mem_run_star_cls h1).1
  have c2 := (mem_run_plus_cls hz1).1
  have c3 := (mem_run_plus_cls h3).1
  have c4 := (mem_run_plus_cls hz2).1
  rw [attributeMarks_eq, run_star] at h5
  have h6 := starRun_attributeMark_cap _ _ _ _ h5
  have e3 : y4.2 3 = [] := by
    rw [← e2]
    simp only [Caps.set]
    rw [c4, c3, ← e1]
    simp only [Caps.set]
    rw [c2, c1]
    rfl
  rw [e3] at h6
  exact h6

/-- Whatever the line, `parseAttribute` sets at most one of the four flags. -/
theorem parseAttribute_at_most_one_flag (line : List Char) (a : Attribute)
    (h : parseAttribute line = some a) :
    (a.IsPK, a.IsFK, a.IsUnique, a.IsNotNull) ∈
      [(false, false, false, false), (true, false, false, false),
       (false, true, false, false), (false, false, true, false),
       (false, false, false, true)] := by
  unfold parseAttribute findSubmatch at h
  cases hr : attributeRegex.run line Caps.none with
  | nil => simp [hr] at h
  | cons rc rest =>
    have hmem : rc ∈ attributeRegex.run line Caps.none := by rw [hr]; simp
    have hcap := attributeRegex_cap hmem
    simp only [hr, List.head?_cons, Option.map_some', Option.some.injEq] at h
    subst h
    rcases hcap with h1 | h1 | h1 | h1 | h1 <;> simp only [h1] <;> decide

/-- C5 fails on the code: of several markers only the last one is decoded.  The line
`int id PK FK` comes out as a foreign key that is no primary key, and
`int id PK NOT NULL` as not-null only; whatever the line, `parseAttribute` never
returns an attribute that is both PK and FK. -/
theorem parseAttribute_keeps_last_marker_only :
    parseAttribute "int id PK FK".toList =
      some { Name := "id".toList, Typ := "int".toList, IsPK := false, IsFK := true,
             IsUnique := false, IsNotNull := false } ∧
    parseAttribute "int id PK NOT NULL".toList =
      some { Name := "id".toList, Typ := "int".toList, IsPK := false, IsFK := false,
             IsUnique := false, IsNotNull := true } ∧
    ∀ (line : List Char) (a : Attribute), parseAttribute line = some a →
      ¬ (a.IsPK = true ∧ a.IsFK = true) := by
  refine ⟨by decide, by decide, ?_⟩
  intro line a h hb
  have := parseAttribute_at_most_one_flag line a h
  rw [hb.1, hb.2] at this
  revert this
  cases a.IsUnique <;> cases a.IsNotNull <;> decide

theorem attributeMarks_lower (m : List Char)
    (hm : m = "pk".toList ∨ m = "fk".toList ∨ m = "uk".toList ∨ m = "not null".toList)
    (c : Caps) : attributeMarks.Starts (' ' :: m) c (' ' :: m, c) := by
  rcases hm with h | h | h | h <;> subst h <;> rfl

theorem parseAttribute_lower (T N m : List Char) (hT : IsName T) (hN : IsName N)
    (hm : m = "pk".toList ∨ m = "fk".toList ∨ m = "uk".toList ∨ m = "not null".toList) :
    parseAttribute (T ++ " ".toList ++ N ++ " ".toList ++ m) =
      some { Name := N, Typ := T, IsPK := false, IsFK := false, IsUnique := false,
             IsNotNull := false } := by
  have h := parseAttribute_tail T N (' ' :: m) hT hN (noHead_cons _ (by decide)) []
    ⟨_, _, attributeMarks_lower m hm _, rfl, rfl, rfl⟩
  have e : T ++ " ".toList ++ N ++ " ".toList ++ m = T ++ (' ' :: (N ++ ' ' :: m)) := by
    simp
  rw [e, h]
  rfl

/-- C6 fails on the code: a marker in lower or mixed case sets no flag.  The lines
`int id pk` and `int id Pk` come out with the four flags false, while `int id PK`
sets `IsPK`; and for all word-character tokens `T` and `N` the lines `T N pk`,
`T N fk`, `T N uk` and `T N not null` give the attribute with the four flags false. -/
theorem parseAttribute_lower_case_marker_ignored :
    parseAttribute "int id pk".toList =
      some { Name := "id".toList, Typ := "int".toList, IsPK := false, IsFK := false,
             IsUnique := false, IsNotNull := false } ∧
    parseAttribute "int id Pk".toList =
      some { Name := "id".toList, Typ := "int".toList, IsPK := false, IsFK := false,
             IsUnique := false, IsNotNull := false } ∧
    parseAttribute "int id PK".toList =
      some { Name := "id".toList, Typ := "int".toList, IsPK := true, IsFK := false,
             IsUnique := false, IsNotNull := false } ∧
    ∀ T N m : List Char, IsName T → IsName N →
      (m = "pk".toList ∨ m = "fk".toList ∨ m = "uk".toList ∨ m = "not null".toList) →
      parseAttribute (T ++ " ".toList ++ N ++ " ".toList ++ m) =
        some { Name := N, Typ := T, IsPK := false, IsFK := false, IsUnique := false,
               IsNotNull := false } :=
  ⟨by decide, by decide, by decide, fun T N m hT hN hm => parseAttribute_lower T N m hT hN hm⟩

/-! ## Relationship lines -/

theorem fields_cons (c : Char) (cs : List Char) :
    fields (c :: cs) =
      if isSpace c then fields cs
      else if (cs.head?.map isSpace).getD true then [c] :: fields cs
      else
        match fields cs with
        | [] => [[c]]
        | w :: ws => (c :: w) :: ws := rfl

theorem fields_cons_space (c : Char) (cs : List Char) (h : isSpace c = true) :
    fields (c :: cs) = fields cs := by
  rw [fields_cons, if_pos h]

theorem fields_of_spaces (sp : List Char) (h : ∀ c ∈ sp, isSpace c = true) : fields sp = [] := by
  induction sp with
  | nil => rfl
  | cons c sp ih =>
    rw [fields_cons_space c sp (h c (by simp))]
    exact ih (fun d hd => h d (by simp [hd]))

theorem fields_cons_cons (c d : Char) (cs : List Char) (hc : isSpace c = false)
    (hd : isSpace d = false) :
    fields (c :: d :: cs) =
      match fields (d :: cs) with
      | [] => [[c]]
      | w :: ws => (c :: w) :: ws := by
  rw [fields_cons]
  simp [hc, hd]

theorem fields_cons_then_space (c d : Char) (cs : List Char) (hc : isSpace c = false)
    (hd : isSpace d = true) : fields (c :: d :: cs) = [c] :: fields cs := by
  rw [fields_cons]
  simp [hc, hd, fields_cons_space d cs hd]

theorem fields_singleton (c : Char) (hc : isSpace c = false) : fields [c] = [[c]] := by
  rw [fields_cons]
  simp [hc, fields]

theorem fields_word_space (w : List Char) (d : Char) (rest : List Char) (hne : w ≠ [])
    (hw : ∀ c ∈ w, isSpace c = false) (hd : isSpace d = true) :
    fields (w ++ d :: rest) = w :: fields rest := by
  induction w with
  | nil => exact absurd rfl hne
  | cons c w ih =>
    cases w with
    | nil => exact fields_cons_then_space c d rest (hw c (by simp)) hd
    | cons c2 w =>
      have h2 := ih (by simp) (fun x hx => hw x (by simp [hx]))
      have e : (c :: c2 :: w) ++ d :: rest = c :: c2 :: (w ++ d :: rest) := rfl
      rw [e, fields_cons_cons c c2 _ (hw c (by simp)) (hw c2 (by simp))]
      have e2 : c2 :: (w ++ d :: rest) = (c2 :: w) ++ d :: rest := rfl
      rw [e2, h2]

theorem fields_word (w : List Char) (hne : w ≠ []) (hw : ∀ c ∈ w, isSpace c = false) :
    fields w = [w] := by
  induction w with
  | nil => exact absurd rfl hne
  | cons c w ih =>
    cases w with
    | nil => exact fields_singleton c (hw c (by simp))
    | cons c2 w =>
      have h2 := ih (by simp) (fun x hx => hw x (by simp [hx]))
      rw [fields_cons_cons c c2 _ (hw c (by simp)) (hw c2 (by simp)), h2]

theorem fields_join (ws : List (List Char)) (h : ∀ w ∈ ws, IsToken w) :
    fields (join " ".toList ws) = ws := by
  induction ws with
  | nil => rfl
  | cons w ws ih =>
    have hw := h w (by simp)
    cases ws with
    | nil => exact fields_word w hw.1 (fun c hc => (hw.2 c hc).1)
    | cons v ws =>
      have h2 := ih (fun x hx => h x (by simp [hx]))
      have e : join " ".toList (w :: v :: ws) = w ++ ' ' :: join " ".toList (v :: ws) := by
        simp [join]
      rw [e, fields_word_space w ' ' _ hw.1 (fun c hc => (hw.2 c hc).1) (by decide), h2]

theorem fields_append_spaces (sp : List Char) (hsp : ∀ c ∈ sp, isSpace c = true) :
    ∀ t : List Char, fields (t ++ sp) = fields t := by
  intro t
  induction t with
  | nil => simpa using fields_of_spaces sp hsp
  | cons c t ih =>
    by_cases hc : isSpace c = true
    · rw [List.cons_append, fields_cons_space c _ hc, fields_cons_space c _ hc, ih]
    · have hc2 : isSpace c = false := by simpa using hc
      cases t with
      | nil =>
        cases sp with
        | nil => rfl
        | cons d sp =>
          have hd := hsp d (by simp)
          have e : [c] ++ d :: sp = c :: d :: sp := rfl
          rw [e, fields_cons_then_space c d sp hc2 hd,
            fields_of_spaces sp (fun x hx => hsp x (by simp [hx])), fields_singleton c hc2]
      | cons d t =>
        have e : (c :: d :: t) ++ sp = c :: d :: (t ++ sp) := rfl
        have e2 : d :: (t ++ sp) = (d :: t) ++ sp := rfl
        by_cases hd : isSpace d = true
        · rw [e, fields_cons_then_space c d _ hc2 hd, fields_cons_then_space c d _ hc2 hd]
          have := ih
          rw [← e2, fields_cons_space d _ hd, fields_cons_space d _ hd] at this
          rw [this]
        · have hd2 : isSpace d = false := by simpa using hd
          rw [e, fields_cons_cons c d _ hc2 hd2, fields_cons_cons c d _ hc2 hd2, e2, ih]

theorem dropWhileEnd_decompose (p : Char → Bool) (s : List Char) :
    ∃ sp, (∀ c ∈ sp, p c = true) ∧ s = dropWhileEnd p s ++ sp := by
  induction s with
  | nil => exact ⟨[], by simp, rfl⟩
  | cons c s ih =>
    obtain ⟨sp, h1, h2⟩ := ih
    rw [dropWhileEnd_cons]
    by_cases h : dropWhileEnd p s = []
    · have hs : s = sp := by
        rw [h, List.nil_append] at h2
        exact h2
      by_cases hc : p c = true
      · refine ⟨c :: sp, ?_, ?_⟩
        · intro d hd
          simp only [List.mem_cons] at hd
          rcases hd with hd | hd
          · rw [hd]; exact hc
          · exact h1 d hd
        · rw [if_pos h, if_pos hc, hs]
          rfl
      · refine ⟨sp, h1, ?_⟩
        rw [if_pos h, if_neg hc, hs]
        rfl
    · refine ⟨sp, h1, ?_⟩
      simp only [h, if_false, List.cons_append]
      rw [← h2]

theorem fields_dropWhile (s : List Char) : fields (s.dropWhile isSpace) = fields s := by
  induction s with
  | nil => rfl
  | cons c s ih =>
    by_cases hc : isSpace c = true
    · rw [List.dropWhile_cons_of_pos hc, ih, fields_cons_space c s hc]
    · rw [List.dropWhile_cons_of_neg hc]

theorem fields_trimSpace (s : List Char) : fields (trimSpace s) = fields s := by
  obtain ⟨sp, h1, h2⟩ := dropWhileEnd_decompose isSpace (s.dropWhile isSpace)
  have h3 := fields_append_spaces sp h1 (dropWhileEnd isSpace (s.dropWhile isSpace))
  rw [← h2, fields_dropWhile] at h3
  rw [trimSpace, ← h3]

theorem contains_iff (sub : List Char) :
    ∀ s : List Char, contains s sub = true ↔ ∃ a b, s = a ++ sub ++ b := by
  intro s
  induction s with
  | nil =>
    simp only [contains, List.isEmpty_iff]
    constructor
    · intro h; exact ⟨[], [], by simp [h]⟩
    · rintro ⟨a, b, h⟩
      have := congrArg List.length h
      simp only [List.length_nil, List.length_append] at this
      exact List.length_eq_zero.mp (by omega)
  | cons c s ih =>
    simp only [contains, Bool.or_eq_true, List.isPrefixOf_iff_prefix, ih]
    constructor
    · rintro (⟨b, h⟩ | ⟨a, b, h⟩)
      · exact ⟨[], b, by simp [h]⟩
      · exact ⟨c :: a, b, by simp [h]⟩
    · rintro ⟨a, b, h⟩
      cases a with
      | nil => exact Or.inl ⟨b, by simpa using h.symm⟩
      | cons x a =>
        simp only [List.cons_append, List.cons.injEq] at h
        exact Or.inr ⟨a, b, h.2⟩

theorem contains_append_of_right (a s sub : List Char) (h : contains s sub = true) :
    contains (a ++ s) sub = true := by
  obtain ⟨x, y, e⟩ := (contains_iff sub s).mp h
  exact (contains_iff sub _).mpr ⟨a ++ x, y, by simp [e]⟩

theorem contains_append_of_left (s b sub : List Char) (h : contains s sub = true) :
    contains (s ++ b) sub = true := by
  obtain ⟨x, y, e⟩ := (contains_iff sub s).mp h
  exact (contains_iff sub _).mpr ⟨x, y ++ b, by simp [e]⟩

theorem splitOnChar_ne_nil (sep : Char) (s : List Char) : splitOnChar sep s ≠ [] := by
  induction s with
  | nil => simp [splitOnChar]
  | cons c s ih =>
    by_cases hc : c = sep
    · simp [splitOnChar, hc]
    · simp only [splitOnChar, hc, if_false]
      cases h : splitOnChar sep s with
      | nil => exact absurd h ih
      | cons q qs => simp

theorem splitOnChar_append_sep (sep : Char) (l rest : List Char) (hl : sep ∉ l) :
    splitOnChar sep (l ++ sep :: rest) = l :: splitOnChar sep rest := by
  induction l with
  | nil => simp [splitOnChar]
  | cons c l ih =>
    have hc : c ≠ sep := fun e => hl (by simp [e])
    have h2 := ih (fun h => hl (by simp [h]))
    simp [splitOnChar, hc, h2]

theorem splitOnChar_of_not_mem (sep : Char) (l : List Char) (hl : sep ∉ l) :
    splitOnChar sep l = [l] := by
  induction l with
  | nil => rfl
  | cons c l ih =>
    have hc : c ≠ sep := fun e => hl (by simp [e])
    have h2 := ih (fun h => hl (by simp [h]))
    simp [splitOnChar, hc, h2]

theorem join_no_colon (ws : List (List Char)) (h : ∀ w ∈ ws, IsToken w) :
    ':' ∉ join " ".toList ws := by
  induction ws with
  | nil => simp [join]
  | cons w ws ih =>
    have hw : ':' ∉ w := fun hm => ((h w (by simp)).2 _ hm).2 rfl
    cases ws with
    | nil => simpa [join] using hw
    | cons v ws =>
      have h2 := ih (fun x hx => h x (by simp [hx]))
      have e : join " ".toList (w :: v :: ws) = w ++ ' ' :: join " ".toList (v :: ws) := by
        simp [join]
      rw [e]
      simp only [List.mem_append, List.mem_cons, not_or]
      exact ⟨hw, by decide, h2⟩

theorem trimSpace_cons_space (c : Char) (s : List Char) (hc : isSpace c = true) :
    trimSpace (c :: s) = trimSpace s := by
  simp [trimSpace, List.dropWhile_cons, hc]

/-- The relationship that `parseRelationship` builds from the words of the left part. -/
theorem parseRelationship_of_fields (left L : List Char) (hl : ':' ∉ left) (hL : ':' ∉ L)
    (hd : contains (left ++ ':' :: L) "--".toList = true)
    (hw : 3 ≤ (fields left).length) :
    parseRelationship (left ++ ':' :: L) =
      some { From := (fields left).headD [], To := (fields left).getLastD [],
             Typ := (parseRelationshipSymbol
               (join " ".toList ((fields left).drop 1).dropLast)).1,
             FromCardinality := (parseRelationshipSymbol
               (join " ".toList ((fields left).drop 1).dropLast)).2.1,
             ToCardinality := (parseRelationshipSymbol
               (join " ".toList ((fields left).drop 1).dropLast)).2.2,
             Label := trimSpace L } := by
  have hc : contains (left ++ ':' :: L) ":".toList = true :=
    (contains_iff _ _).mpr ⟨left, L, by simp⟩
  have hsplit : splitOnChar ':' (left ++ ':' :: L) = [left, L] := by
    rw [splitOnChar_append_sep _ _ _ hl, splitOnChar_of_not_mem _ _ hL]
  have hlen : ¬ (fields left).length < 3 := Nat.not_lt.mpr hw
  simp only [parseRelationship, hd, hc, hsplit, fields_trimSpace, hlen, Bool.not_true,
    Bool.or_self, Bool.false_eq_true, if_false]

theorem join_cons_of_ne_nil (sep w : List Char) (ws : List (List Char)) (h : ws ≠ []) :
    join sep (w :: ws) = w ++ sep ++ join sep ws := by
  cases ws with
  | nil => exact absurd rfl h
  | cons v ws => rfl

theorem join_append_singleton (sep b : List Char) (ws : List (List Char)) (h : ws ≠ []) :
    join sep (ws ++ [b]) = join sep ws ++ sep ++ b := by
  induction ws with
  | nil => exact absurd rfl h
  | cons w ws ih =>
    cases ws with
    | nil => simp [join]
    | cons v ws =>
      have h2 := ih (by simp)
      have e : (w :: v :: ws) ++ [b] = w :: ((v :: ws) ++ [b]) := rfl
      rw [e, join_cons_of_ne_nil sep w _ (by simp), h2, join_cons_of_ne_nil sep w _ (by simp)]
      simp

theorem parseRelationship_words (A B : List Char) (mid : List (List Char)) (L : List Char)
    (hA : IsToken A) (hB : IsToken B) (hL : ':' ∉ L)
    (hmid : ∀ w ∈ mid, IsToken w) (hne : mid ≠ [])
    (hS : contains (join " ".toList mid) "--".toList = true) :
    parseRelationship (join " ".toList (A :: (mid ++ [B])) ++ " : ".toList ++ L) =
      some { From := A, To := B,
             Typ := (parseRelationshipSymbol (join " ".toList mid)).1,
             FromCardinality := (parseRelationshipSymbol (join " ".toList mid)).2.1,
             ToCardinality := (parseRelationshipSymbol (join " ".toList mid)).2.2,
             Label := trimSpace L } := by
  have htok : ∀ w ∈ A :: (mid ++ [B]), IsToken w := by
    intro w hw
    simp only [List.mem_cons, List.mem_append, List.not_mem_nil, or_false] at hw
    rcases hw with h | h | h
    · rw [h]; exact hA
    · exact hmid w h
    · rw [h]; exact hB
  have e : join " ".toList (A :: (mid ++ [B])) ++ " : ".toList ++ L =
      (join " ".toList (A :: (mid ++ [B])) ++ [' ']) ++ ':' :: (' ' :: L) := by
    simp
  have hl : ':' ∉ join " ".toList (A :: (mid ++ [B])) ++ [' '] := by
    have := join_no_colon _ htok
    simp only [List.mem_append, List.mem_singleton, not_or]
    exact ⟨this, by decide⟩
  have hL2 : ':' ∉ ' ' :: L := by
    simp only [List.mem_cons, not_or]
    exact ⟨by decide, hL⟩
  have hf : fields (join " ".toList (A :: (mid ++ [B])) ++ [' ']) = A :: (mid ++ [B]) := by
    rw [fields_append_spaces [' '] (by decide), fields_join _ htok]
  have hd : contains ((join " ".toList (A :: (mid ++ [B])) ++ [' ']) ++ ':' :: (' ' :: L))
      "--".toList = true := by
    have e2 : join " ".toList (A :: (mid ++ [B])) =
        (A ++ " ".toList) ++ (join " ".toList mid ++ (" ".toList ++ B)) := by
      rw [join_cons_of_ne_nil _ _ _ (by simp), join_append_singleton _ _ _ hne]
      simp
    rw [e2]
    apply contains_append_of_left
    apply contains_append_of_left
    apply contains_append_of_right
    exact contains_append_of_left _ _ _ hS
  have hlen : 3 ≤ (fields (join " ".toList (A :: (mid ++ [B])) ++ [' '])).length := by
    rw [hf]
    have : 0 < mid.length := List.length_pos.mpr hne
    simp only [List.length_cons, List.length_append, List.length_nil]
    omega
  rw [e, parseRelationship_of_fields _ _ hl hL2 hd hlen, hf,
    trimSpace_cons_space ' ' L (by decide)]
  have h1 : (A :: (mid ++ [B])).getLastD [] = B := by
    have e3 : A :: (mid ++ [B]) = (A :: mid) ++ [B] := rfl
    rw [e3, List.getLastD_eq_getLast?, List.getLast?_append_of_ne_nil _ (by simp)]
    rfl
  have h2 : ((A :: (mid ++ [B])).drop 1).dropLast = mid := by
    simp [List.dropLast_concat]
  rw [h1, h2]
  rfl

/-- C10: for all tokens `A` and `B` (non-empty, without white space or colon), every
symbol `S` of the same kind that contains `--`, and every colon-free label text `L`,
`parseRelationship` of `A S B : L` returns the relationship with `From = A`, `To = B`,
`Label = L` trimmed and the type and cardinalities of `parseRelationshipSymbol S`;
with several tokens between the first and the last, the symbol decoded is those
tokens joined by single spaces. -/
theorem parseRelationship_tokens (A B L : List Char)
    (hA : IsToken A) (hB : IsToken B) (hL : ':' ∉ L) :
    (∀ S : List Char, IsToken S → contains S "--".toList = true →
      parseRelationship (A ++ " ".toList ++ S ++ " ".toList ++ B ++ " : ".toList ++ L) =
        some { From := A, To := B,
               Typ := (parseRelationshipSymbol S).1,
               FromCardinality := (parseRelationshipSymbol S).2.1,
               ToCardinality := (parseRelationshipSymbol S).2.2,
               Label := trimSpace L }) ∧
    (∀ mid : List (List Char), (∀ w ∈ mid, IsToken w) → mid ≠ [] →
      contains (join " ".toList mid) "--".toList = true →
      parseRelationship (join " ".toList (A :: (mid ++ [B])) ++ " : ".toList ++ L) =
        some { From := A, To := B,
               Typ := (parseRelationshipSymbol (join " ".toList mid)).1,
               FromCardinality := (parseRelationshipSymbol (join " ".toList mid)).2.1,
               ToCardinality := (parseRelationshipSymbol (join " ".toList mid)).2.2,
               Label := trimSpace L }) := by
  refine ⟨fun S hS hd => ?_, fun mid hmid hne hd =>
    parseRelationship_words A B mid L hA hB hL hmid hne hd⟩
  have h := parseRelationship_words A B [S] L hA hB hL
    (by intro w hw; simp only [List.mem_singleton] at hw; rw [hw]; exact hS) (by simp) hd
  have e : join " ".toList (A :: ([S] ++ [B])) = A ++ " ".toList ++ S ++ " ".toList ++ B := by
    simp [join]
  rw [e] at h
  exact h

/-- Witness of C10: the theorem `parseRelationship_tokens` at `USER ||--o{ ORDER : places` and at a
line with three tokens between the names. -/
theorem parseRelationship_tokens_witness :
    parseRelationship "USER ||--o\x7b ORDER : places".toList =
      some { From := "USER".toList, To := "ORDER".toList, Typ := .OneToMany,
             FromCardinality := "1".toList, ToCardinality := "M".toList,
             Label := "places".toList } ∧
    parseRelationship "USER \x7d| -- |\x7b ORDER :  has many ".toList =
      some { From := "USER".toList, To := "ORDER".toList, Typ := .ManyToMany,
             FromCardinality := "M".toList, ToCardinality := "M".toList,
             Label := "has many".toList } := by
  have h1 := parseRelationship_tokens "USER".toList "ORDER".toList "places".toList
    (by decide) (by decide) (by decide)
  have h2 := parseRelationship_tokens "USER".toList "ORDER".toList " has many ".toList
    (by decide) (by decide) (by decide)
  exact ⟨h1.1 "||--o\x7b".toList (by decide) (by decide),
    h2.2 ["\x7d|".toList, "--".toList, "|\x7b".toList] (by decide) (by decide) (by decide)⟩

/-! ## Cardinality symbols -/

/-- C13: `parseRelationshipSymbol` is total and its result depends only on whether the
symbol contains `{` and whether it contains `}`: `ToCardinality` is `M` iff the symbol
contains `{` (else `1`), `FromCardinality` is `M` iff it contains `}` (else `1`), the
type follows from the pair as (1,1) OneToOne, (1,M) OneToMany, (M,1) ManyToOne,
(M,M) ManyToMany, so `Identifying` and `NonIdentifying` are never returned, and
`||--||` and `||..||` decode identically. -/
theorem parseRelationshipSymbol_presence :
    (∀ symbol : List Char,
      (parseRelationshipSymbol symbol).2.2 =
        (if contains symbol "\x7b".toList then "M".toList else "1".toList) ∧
      (parseRelationshipSymbol symbol).2.1 =
        (if contains symbol "\x7d".toList then "M".toList else "1".toList) ∧
      (parseRelationshipSymbol symbol).1 =
        (match contains symbol "\x7d".toList, contains symbol "\x7b".toList with
         | false, false => RelationshipType.OneToOne
         | false, true => RelationshipType.OneToMany
         | true, false => RelationshipType.ManyToOne
         | true, true => RelationshipType.ManyToMany) ∧
      (parseRelationshipSymbol symbol).1 ≠ RelationshipType.Identifying ∧
      (parseRelationshipSymbol symbol).1 ≠ RelationshipType.NonIdentifying) ∧
    (∀ s1 s2 : List Char, contains s1 "\x7b".toList = contains s2 "\x7b".toList →
      contains s1 "\x7d".toList = contains s2 "\x7d".toList →
      parseRelationshipSymbol s1 = parseRelationshipSymbol s2) ∧
    parseRelationshipSymbol "||--||".toList = parseRelationshipSymbol "||..||".toList ∧
    parseRelationshipSymbol "||--||".toList =
      (RelationshipType.OneToOne, "1".toList, "1".toList) := by
  refine ⟨?_, ?_, by decide, by decide⟩
  · intro symbol
    unfold parseRelationshipSymbol
    cases contains symbol "\x7b".toList <;> cases contains symbol "\x7d".toList <;> decide
  · intro s1 s2 h1 h2
    unfold parseRelationshipSymbol
    rw [h1, h2]

/-! ## The entry point: detection and dispatch -/

theorem detectLines_cons (l : List Char) (ls : List (List Char)) :
    detectLines (l :: ls) =
      if hasPrefix (trimSpace l) "erDiagram".toList = true then .ERDiagramType
      else if hasPrefix (trimSpace l) "sequenceDiagram".toList = true then
        .SequenceDiagramType
      else detectLines ls := rfl

theorem detectLines_eq_er_iff (ls : List (List Char)) :
    detectLines ls = .ERDiagramType ↔
      ∃ pre l post, ls = pre ++ l :: post ∧
        hasPrefix (trimSpace l) "erDiagram".toList = true ∧
        ∀ m ∈ pre, hasPrefix (trimSpace m) "sequenceDiagram".toList = false := by
  induction ls with
  | nil =>
    constructor
    · intro h; exact absurd h (by decide)
    · rintro ⟨pre, l, post, h, _⟩
      exact absurd h (by simp)
  | cons l0 ls ih =>
    by_cases he : hasPrefix (trimSpace l0) "erDiagram".toList = true
    · constructor
      · intro _
        exact ⟨[], l0, ls, rfl, he, by simp⟩
      · intro _
        rw [detectLines_cons, if_pos he]
    · by_cases hs : hasPrefix (trimSpace l0) "sequenceDiagram".toList = true
      · constructor
        · intro h
          rw [detectLines_cons, if_neg he, if_pos hs] at h
          exact absurd h (by decide)
        · rintro ⟨pre, l, post, h, h1, h2⟩
          cases pre with
          | nil =>
            simp only [List.nil_append, List.cons.injEq] at h
            rw [← h.1] at h1
            exact absurd h1 he
          | cons p pre =>
            simp only [List.cons_append, List.cons.injEq] at h
            have := h2 p (by simp)
            rw [← h.1, hs] at this
            exact absurd this (by simp)
      · have e : detectLines (l0 :: ls) = detectLines ls := by
          rw [detectLines_cons, if_neg he, if_neg hs]
        rw [e, ih]
        constructor
        · rintro ⟨pre, l, post, h, h1, h2⟩
          refine ⟨l0 :: pre, l, post, by simp [h], h1, ?_⟩
          intro m hm
          simp only [List.mem_cons] at hm
          rcases hm with hm | hm
          · rw [hm]; simpa using hs
          · exact h2 m hm
        · rintro ⟨pre, l, post, h, h1, h2⟩
          cases pre with
          | nil =>
            simp only [List.nil_append, List.cons.injEq] at h
            rw [← h.1] at h1
            exact absurd h1 he
          | cons p pre =>
            simp only [List.cons_append, List.cons.injEq] at h
            exact ⟨pre, l, post, h.2, h1, fun m hm => h2 m (by simp [hm])⟩

/-- C14: for every input text, `DetectDiagramType` looks at the lines in order, each
with its surrounding white space trimmed, and returns `ERDiagramType` iff some line
begins with `erDiagram` and no earlier line begins with `sequenceDiagram`; in every
other case, also when no line begins with either keyword and for the empty input, it
returns `SequenceDiagramType`. -/
theorem DetectDiagramType_spec (input : List Char) :
    (DetectDiagramType input = .ERDiagramType ↔
      ∃ pre l post, splitOnChar '\n' input = pre ++ l :: post ∧
        hasPrefix (trimSpace l) "erDiagram".toList = true ∧
        ∀ m ∈ pre, hasPrefix (trimSpace m) "sequenceDiagram".toList = false) ∧
    (DetectDiagramType input ≠ .ERDiagramType →
      DetectDiagramType input = .SequenceDiagramType) ∧
    ((∀ l ∈ splitOnChar '\n' input, hasPrefix (trimSpace l) "erDiagram".toList = false) →
      DetectDiagramType input = .SequenceDiagramType) ∧
    DetectDiagramType [] = .SequenceDiagramType := by
  refine ⟨detectLines_eq_er_iff _, ?_, ?_, by decide⟩
  · intro h
    cases h2 : DetectDiagramType input with
    | SequenceDiagramType => rfl
    | ERDiagramType => exact absurd h2 h
  · intro h
    cases h2 : DetectDiagramType input with
    | SequenceDiagramType => rfl
    | ERDiagramType =>
      obtain ⟨pre, l, post, e, h3, _⟩ := (detectLines_eq_er_iff _).mp h2
      have := h l (by rw [e]; simp)
      rw [h3] at this
      exact absurd this (by simp)

/-- C15: for every input text, `ParseDiagram` returns the result of `ParseERDiagram`
when `DetectDiagramType` gives `ERDiagramType` and the result of
`ParseSequenceDiagram` otherwise, so `GetType` of the returned diagram equals
`DetectDiagramType` of the input; a text with an unknown first keyword gives a
sequence diagram. -/
theorem ParseDiagram_dispatch (input : List Char) :
    (DetectDiagramType input = .ERDiagramType →
      ParseDiagram input = (.ER (ParseERDiagram input).1, (ParseERDiagram input).2)) ∧
    (DetectDiagramType input ≠ .ERDiagramType →
      ParseDiagram input =
        (.Sequence (ParseSequenceDiagram input).1, (ParseSequenceDiagram input).2)) ∧
    (ParseDiagram input).1.GetType = DetectDiagramType input ∧
    (ParseDiagram "unknownDiagram\n    unknown content".toList).1.GetType =
      .SequenceDiagramType := by
  refine ⟨?_, ?_, ?_, by decide⟩
  · intro h
    simp [ParseDiagram, h]
  · intro h
    cases h2 : DetectDiagramType input with
    | SequenceDiagramType => simp [ParseDiagram, h2]
    | ERDiagramType => exact absurd h2 h
  · cases h2 : DetectDiagramType input with
    | SequenceDiagramType => simp [ParseDiagram, h2, Diagram.GetType]
    | ERDiagramType => simp [ParseDiagram, h2, Diagram.GetType]

/-! ## Relationship lines: the colon -/

theorem splitOnChar_head (sep : Char) (s : List Char) :
    ∃ tl, splitOnChar sep s = s.takeWhile (fun c => c != sep) :: tl := by
  induction s with
  | nil => exact ⟨[], rfl⟩
  | cons c s ih =>
    obtain ⟨tl, h⟩ := ih
    by_cases hc : c = sep
    · exact ⟨splitOnChar sep s, by simp [splitOnChar, hc]⟩
    · exact ⟨tl, by simp [splitOnChar, hc, h]⟩

theorem splitOnChar_two (sep : Char) (s : List Char) (h : sep ∈ s) :
    ∃ p1 tl, splitOnChar sep s = s.takeWhile (fun c => c != sep) :: p1 :: tl := by
  induction s with
  | nil => simp at h
  | cons c s ih =>
    by_cases hc : c = sep
    · obtain ⟨tl, h2⟩ := splitOnChar_head sep s
      exact ⟨s.takeWhile (fun c => c != sep), tl, by simp [splitOnChar, hc, h2]⟩
    · have hs : sep ∈ s := by
        simp only [List.mem_cons] at h
        rcases h with h | h
        · exact absurd h.symm hc
        · exact h
      obtain ⟨p1, tl, h2⟩ := ih hs
      exact ⟨p1, tl, by simp [splitOnChar, hc, h2]⟩

theorem contains_singleton_iff (s : List Char) (c : Char) :
    contains s [c] = true ↔ c ∈ s := by
  rw [contains_iff]
  constructor
  · rintro ⟨a, b, h⟩
    rw [h]
    simp
  · intro h
    obtain ⟨a, b, e⟩ := List.append_of_mem h
    exact ⟨a, b, by simp [e]⟩

theorem parseRelationship_none_of_no_dash (line : List Char)
    (h : contains line "--".toList = false) : parseRelationship line = none := by
  simp only [parseRelationship, h, Bool.not_false, Bool.true_or, if_true]

theorem parseRelationship_none_of_no_colon (line : List Char)
    (h : contains line ":".toList = false) : parseRelationship line = none := by
  simp only [parseRelationship, h, Bool.not_false, Bool.or_true, if_true]

/-- The result of `parseRelationship` on a line with `--` and a colon, from the two
first parts of the line cut at its colons. -/
theorem parseRelationship_of_split (line p0 p1 : List Char) (tl : List (List Char))
    (hd : contains line "--".toList = true) (hc : contains line ":".toList = true)
    (hs : splitOnChar ':' line = p0 :: p1 :: tl) :
    parseRelationship line =
      if (fields p0).length < 3 then none
      else
        some { From := (fields p0).headD [], To := (fields p0).getLastD [],
               Typ := (parseRelationshipSymbol
                 (join " ".toList ((fields p0).drop 1).dropLast)).1,
               FromCardinality := (parseRelationshipSymbol
                 (join " ".toList ((fields p0).drop 1).dropLast)).2.1,
               ToCardinality := (parseRelationshipSymbol
                 (join " ".toList ((fields p0).drop 1).dropLast)).2.2,
               Label := trimSpace p1 } := by
  simp only [parseRelationship, hd, hc, hs, fields_trimSpace, Bool.not_true,
    Bool.or_self, Bool.false_eq_true, if_false]

/-- C12: for every line, `parseRelationship` returns a relationship if and only if
the line contains `--`, contains a colon, and the text before the first colon has at
least 3 whitespace-separated tokens; in every other case it returns nothing, and then
the loop of `ParseERDiagram` leaves the relationships as they are. -/
theorem parseRelationship_accepts_iff (line : List Char) :
    ((parseRelationship line).isSome = true ↔
      contains line "--".toList = true ∧ contains line ":".toList = true ∧
        3 ≤ (fields (line.takeWhile (fun c => c != ':'))).length) ∧
    (∀ st : ERState, parseRelationship (trimSpace line) = none →
      (erStep st line).diagram.Relationships = st.diagram.Relationships) := by
  constructor
  · by_cases hd : contains line "--".toList = true
    · by_cases hc : contains line ":".toList = true
      · obtain ⟨p1, tl, hs⟩ := splitOnChar_two ':' line
          ((contains_singleton_iff line ':').mp hc)
        rw [parseRelationship_of_split line _ p1 tl hd hc hs]
        by_cases hw : (fields (line.takeWhile (fun c => c != ':'))).length < 3
        · rw [if_pos hw]
          constructor
          · intro h
            exact absurd h (by simp)
          · rintro ⟨_, _, h3⟩
            exact absurd hw (Nat.not_lt.mpr h3)
        · rw [if_neg hw]
          constructor
          · intro _
            exact ⟨hd, hc, Nat.not_lt.mp hw⟩
          · intro _
            rfl
      · have hc2 : contains line ":".toList = false := by simpa using hc
        rw [parseRelationship_none_of_no_colon line hc2]
        constructor
        · intro h
          exact absurd h (by simp)
        · rintro ⟨_, h2, _⟩
          exact absurd h2 hc
    · have hd2 : contains line "--".toList = false := by simpa using hd
      rw [parseRelationship_none_of_no_dash line hd2]
      constructor
      · intro h
        exact absurd h (by simp)
      · rintro ⟨h2, _⟩
        exact absurd h2 hd
  · intro st h
    unfold erStep
    simp only [h]
    repeat' split
    all_goals rfl

theorem parseRelationship_label_of_two_colons (left L1 R : List Char) (rel : Relationship)
    (hl : ':' ∉ left) (hL : ':' ∉ L1)
    (h : parseRelationship (left ++ ':' :: (L1 ++ ':' :: R)) = some rel) :
    rel.Label = trimSpace L1 := by
  by_cases hd : contains (left ++ ':' :: (L1 ++ ':' :: R)) "--".toList = true
  · by_cases hc : contains (left ++ ':' :: (L1 ++ ':' :: R)) ":".toList = true
    · have hs : splitOnChar ':' (left ++ ':' :: (L1 ++ ':' :: R)) =
          left :: L1 :: splitOnChar ':' R := by
        rw [splitOnChar_append_sep _ _ _ hl, splitOnChar_append_sep _ _ _ hL]
      rw [parseRelationship_of_split _ _ _ _ hd hc hs] at h
      by_cases hw : (fields left).length < 3
      · rw [if_pos hw] at h
        exact absurd h (by simp)
      · rw [if_neg hw] at h
        have := Option.some.inj h
        rw [← this]
    · have hc2 : contains (left ++ ':' :: (L1 ++ ':' :: R)) ":".toList = false := by
        simpa using hc
      rw [parseRelationship_none_of_no_colon _ hc2] at h
      exact absurd h (by simp)
  · have hd2 : contains (left ++ ':' :: (L1 ++ ':' :: R)) "--".toList = false := by
      simpa using hd
    rw [parseRelationship_none_of_no_dash _ hd2] at h
    exact absurd h (by simp)

/-- C11 fails on the code: the line is cut at every colon and the label is the second
part only.  `A ||--o{ B : has: many` gets the label `has`, not `has: many`; and for
every accepted line with two colons or more the label is the trimmed text between
the first and the second colon. -/
theorem parseRelationship_label_stops_at_second_colon :
    parseRelationship "A ||--o\x7b B : has: many".toList =
      some { From := "A".toList, To := "B".toList, Typ := .OneToMany,
             FromCardinality := "1".toList, ToCardinality := "M".toList,
             Label := "has".toList } ∧
    ∀ (left L1 R : List Char) (rel : Relationship), ':' ∉ left → ':' ∉ L1 →
      parseRelationship (left ++ ':' :: (L1 ++ ':' :: R)) = some rel →
      rel.Label = trimSpace L1 :=
  ⟨by decide, fun left L1 R rel hl hL h =>
    parseRelationship_label_of_two_colons left L1 R rel hl hL h⟩

/-! ## Participant declarations -/

theorem participantRegex_eq :
    participantRegex =
      .seq (.star (.cls isReSpace)) (.seq (Re.str "participant".toList)
        (.seq (Re.plus (.cls isReSpace)) (.seq (.grp 1 (Re.plus (.cls isWordChar)))
          (.opt participantAlias)))) := rfl

theorem Re.Starts.opt {a : Re} {s : List Char} {c : Caps} {x : List Char × Caps}
    (h : a.Starts s c x) : (Re.opt a).Starts s c x := by
  unfold Re.Starts at *
  rw [run_opt]
  cases h1 : a.run s c with
  | nil => simp [h1] at h
  | cons z zs =>
    simp [h1] at h
    simp [h]

theorem participantAlias_cap {s : List Char} {c : Caps} {x : List Char × Caps}
    (h : x ∈ participantAlias.run s c) : x.2 1 = c 1 := by
  simp only [participantAlias, run_seq, run_grp, List.mem_flatMap, List.mem_map] at h
  obtain ⟨y1, h1, y2, h2, y3, h3, z, hz, rfl⟩ := h
  have c1 := (mem_run_plus_cls h1).1
  have c2 := (mem_run_str _ _ h2).1
  have c3 := (mem_run_plus_cls h3).1
  have c4 := (mem_run_plus_cls hz).1
  simp only [Caps.set]
  rw [c4, c3, c2, c1]
  rfl

/-- The first match of the optional alias keeps the name captured before. -/
theorem participantAlias_opt_starts (s : List Char) (c : Caps) :
    ∃ y, (Re.opt participantAlias).Starts s c y ∧ y.2 1 = c 1 := by
  unfold Re.Starts
  rw [run_opt]
  cases h : participantAlias.run s c with
  | nil => exact ⟨(s, c), by simp, rfl⟩
  | cons z zs =>
    refine ⟨z, by simp, ?_⟩
    exact participantAlias_cap (by rw [h]; simp)

theorem participantRegex_starts (N rest : List Char) (y : List Char × Caps)
    (hN : IsName N) (hr : NoHead isWordChar rest)
    (hy : (Re.opt participantAlias).Starts rest (Caps.none.set 1 N) y) :
    participantRegex.Starts ("participant ".toList ++ (N ++ rest)) Caps.none y := by
  rw [participantRegex_eq]
  have e : "participant ".toList ++ (N ++ rest) =
      "participant".toList ++ ([' '] ++ (N ++ rest)) := rfl
  rw [e]
  refine Re.Starts.seq (starts_star_cls_nil _ _ _ (noHead_cons _ (by decide))) ?_
  refine Re.Starts.seq (starts_str _ _ _) ?_
  refine Re.Starts.seq (starts_plus_cls isReSpace [' '] (N ++ rest) _ (by simp) (by decide)
    (noHead_append _ hN.1 (fun ch h => isWordChar_not_reSpace (hN.2 ch h)))) ?_
  exact Re.Starts.seq (starts_grp_plus_cls 1 _ N _ _ hN.1 hN.2 hr) hy

/-- A line `participant <name>` followed by anything that does not continue the name
declares that name. -/
theorem parseParticipant_name (N rest : List Char) (hN : IsName N)
    (hr : NoHead isWordChar rest) :
    ∃ p, parseParticipant ("participant ".toList ++ (N ++ rest)) = some p ∧ p.Name = N := by
  obtain ⟨y, hy, hy1⟩ := participantAlias_opt_starts rest (Caps.none.set 1 N)
  have h := participantRegex_starts N rest y hN hr hy
  unfold Re.Starts at h
  refine ⟨_, by simp only [parseParticipant, findSubmatch, h]; rfl, ?_⟩
  simp only [hy1]
  rfl

theorem parseParticipant_plain (N : List Char) (hN : IsName N) :
    parseParticipant ("participant ".toList ++ N) = some { Name := N, Alias := N } := by
  have hy : (Re.opt participantAlias).Starts [] (Caps.none.set 1 N) ([], Caps.none.set 1 N) := by
    unfold Re.Starts
    simp [participantAlias, run_plus]
  have h := participantRegex_starts N [] _ hN (noHead_nil _) hy
  rw [List.append_nil] at h
  unfold Re.Starts at h
  simp only [parseParticipant, findSubmatch, h]
  rfl

theorem parseParticipant_alias (N T : List Char) (hN : IsName N) (hT : T ≠ [])
    (hn : '\n' ∉ T) (hs : NoHead isReSpace T) :
    parseParticipant ("participant ".toList ++ (N ++ (" as ".toList ++ T))) =
      some { Name := N, Alias := T } := by
  have hany : ∀ ch ∈ T, isAnyChar ch = true := by
    intro ch hch
    simp only [isAnyChar, Bool.not_eq_true', beq_eq_false_iff_ne]
    rintro rfl
    exact hn hch
  have hy : (Re.opt participantAlias).Starts (" as ".toList ++ T) (Caps.none.set 1 N)
      ([], (Caps.none.set 1 N).set 2 T) := by
    apply Re.Starts.opt
    unfold participantAlias
    have e : " as ".toList ++ T = [' '] ++ ("as".toList ++ ([' '] ++ (T ++ []))) := by simp
    rw [e]
    refine Re.Starts.seq (starts_plus_cls isReSpace [' '] _ _ (by simp) (by decide)
      (noHead_cons _ (by decide))) ?_
    refine Re.Starts.seq (starts_str _ _ _) ?_
    refine Re.Starts.seq (starts_plus_cls isReSpace [' '] _ _ (by simp) (by decide) (by
      rw [List.append_nil]; exact hs)) ?_
    exact starts_grp_plus_cls 2 _ T [] _ hT hany (noHead_nil _)
  have h := participantRegex_starts N (" as ".toList ++ T) _ hN (noHead_cons _ (by decide)) hy
  unfold Re.Starts at h
  simp only [parseParticipant, findSubmatch, h]
  simp [Caps.set, hT]

/-- C17 (amended): for every word-character name `N`, the line `participant N` parses
to the participant with `Name = N` and `Alias = N`, and for every non-empty alias
text `T` without a newline that does not begin with white space (it may contain
spaces), the line `participant N as T` parses to `Name = N`, `Alias = T`. -/
theorem participant_line_parsed (N T : List Char) (hN : IsName N) (hT : T ≠ [])
    (hn : '\n' ∉ T) (hs : ∀ c, T.head? = some c → isReSpace c = false) :
    parseParticipant ("participant ".toList ++ N) = some { Name := N, Alias := N } ∧
    parseParticipant ("participant ".toList ++ N ++ " as ".toList ++ T) =
      some { Name := N, Alias := T } := by
  refine ⟨parseParticipant_plain N hN, ?_⟩
  have h := parseParticipant_alias N T hN hT hn (by
    intro ch t e
    exact hs ch (by rw [e]; rfl))
  have e : "participant ".toList ++ N ++ " as ".toList ++ T =
      "participant ".toList ++ (N ++ (" as ".toList ++ T)) := by simp
  rw [e]
  exact h

/-- Witness of C17: the theorem `participant_line_parsed` at `participant A` and
`participant A as Alice Smith`. -/
theorem participant_line_parsed_witness :
    parseParticipant "participant A".toList =
      some { Name := "A".toList, Alias := "A".toList } ∧
    parseParticipant "participant A as Alice Smith".toList =
      some { Name := "A".toList, Alias := "Alice Smith".toList } :=
  participant_line_parsed "A".toList "Alice Smith".toList (by decide) (by decide)
    (by decide) (by decide)

/-- C17 as stated fails: with the non-empty alias text `T = " Bob"` the line
`participant A as  Bob` parses to the alias `Bob`, not `T`, because `\s+` takes the
white space before the alias; and through `ParseSequenceDiagram` the alias text
`"Bob "` comes out as `Bob`, the line being trimmed first. -/
theorem participant_line_parsed_counterexample :
    parseParticipant ("participant ".toList ++ "A".toList ++ " as ".toList ++ " Bob".toList) =
      some { Name := "A".toList, Alias := "Bob".toList } ∧
    (ParseSequenceDiagram
      ("participant ".toList ++ "A".toList ++ " as ".toList ++ "Bob ".toList)).1.Participants =
      [{ Name := "A".toList, Alias := "Bob".toList }] := by
  decide

/-! ## Participants: unique names in the order of first occurrence -/

theorem SeqState.names_of_known {st : SeqState} {names : List (List Char)} {n : List Char}
    (h : st.Names names) (hn : n ∈ st.participantMap) : st.Names (names ++ [n]) := by
  have hmem : n ∈ names := (h.2 n).mp hn
  refine ⟨?_, fun m => ?_⟩
  · have : n ∈ names.foldl addName [] := (mem_foldl_addName names n).mpr hmem
    rw [h.1]
    simp [addName, this]
  · rw [h.2 m]
    simp only [List.mem_append, List.mem_singleton]
    constructor
    · exact Or.inl
    · rintro (h1 | h1)
      · exact h1
      · rw [h1]; exact hmem

theorem SeqState.names_of_new {st : SeqState} {names : List (List Char)} (p : Participant)
    (h : st.Names names) (hn : p.Name ∉ st.participantMap) :
    SeqState.Names
      { diagram := { st.diagram with Participants := st.diagram.Participants ++ [p] },
        participantMap := p.Name :: st.participantMap } (names ++ [p.Name]) := by
  refine ⟨?_, fun m => ?_⟩
  · have : p.Name ∉ names.foldl addName [] := fun h1 =>
      hn ((h.2 p.Name).mpr ((mem_foldl_addName names p.Name).mp h1))
    simp [addName, this, h.1]
  · simp only [List.mem_cons, List.mem_append, List.mem_singleton, h.2 m,
      List.not_mem_nil, or_false]
    exact or_comm

theorem ensureParticipantsExist_names (ps : List (List Char)) :
    ∀ (st : SeqState) (names : List (List Char)), st.Names names →
      (ensureParticipantsExist st ps).Names (names ++ ps) := by
  induction ps with
  | nil => intro st names h; simpa [ensureParticipantsExist] using h
  | cons p ps ih =>
    intro st names h
    have e : names ++ p :: ps = (names ++ [p]) ++ ps := by simp
    rw [e]
    by_cases hp : p ∈ st.participantMap
    · simpa [ensureParticipantsExist, hp] using
        ih st (names ++ [p]) (SeqState.names_of_known h hp)
    · have hl := SeqState.names_of_new { Name := p, Alias := p } h hp
      simpa [ensureParticipantsExist, hp] using ih _ (names ++ [p]) hl

theorem seqStep_names (st : SeqState) (names : List (List Char)) (text : List Char)
    (h : st.Names names) : (seqStep st text).Names (names ++ lineNames text) := by
  unfold seqStep lineNames
  by_cases hs : shouldSkipSequenceLine (trimSpace text) = true
  · simpa [hs] using h
  · simp only [hs, if_false, Bool.false_eq_true]
    cases hp : parseParticipant (trimSpace text) with
    | some p =>
      simp only []
      by_cases hk : p.Name ∈ st.participantMap
      · simpa [hk] using SeqState.names_of_known h hk
      · simpa [hk] using SeqState.names_of_new p h hk
    | none =>
      simp only []
      cases hm : parseMessage (trimSpace text) with
      | some m =>
        have h1 := ensureParticipantsExist_names [m.From, m.To] st names h
        exact ⟨h1.1, h1.2⟩
      | none => simpa using h

theorem foldl_seqStep_names (ls : List (List Char)) :
    ∀ (st : SeqState) (names : List (List Char)), st.Names names →
      (ls.foldl seqStep st).Names (names ++ ls.flatMap lineNames) := by
  induction ls with
  | nil => intro st names h; simpa using h
  | cons l ls ih =>
    intro st names h
    have := ih _ _ (seqStep_names st names l h)
    simpa [List.flatMap_cons, List.append_assoc] using this

theorem SeqState.init_names : SeqState.init.Names [] := by
  simp [SeqState.Names, SeqState.init]

theorem lineNames_dropCR (l : List Char) : lineNames (dropCR l) = lineNames l := by
  simp only [lineNames, trimSpace_dropCR]

theorem flatMap_lineNames_dropCR (ls : List (List Char)) :
    (ls.map dropCR).flatMap lineNames = ls.flatMap lineNames := by
  induction ls with
  | nil => rfl
  | cons l ls ih => simp [List.flatMap_cons, lineNames_dropCR, ih]

/-- C16: for every input text, the participants returned by `ParseSequenceDiagram`
have pairwise different names, and they stand in the order of the first occurrence
of their name on the lines that the scanner delivers (as the name of a declaration
or as an endpoint of a message). -/
theorem participants_unique_in_first_occurrence_order (input : List Char) :
    ((ParseSequenceDiagram input).1.Participants.map Participant.Name).Nodup ∧
    (ParseSequenceDiagram input).1.Participants.map Participant.Name =
      ((((scanLines input).1.flatMap lineNames).reverse).dedup).reverse := by
  have h := (foldl_seqStep_names (scanLines input).1 SeqState.init [] SeqState.init_names).1
  rw [List.nil_append, foldl_addName_eq] at h
  have e : (ParseSequenceDiagram input).1.Participants.map Participant.Name =
      ((((scanLines input).1.flatMap lineNames).reverse).dedup).reverse := h
  refine ⟨?_, e⟩
  rw [e]
  exact List.nodup_reverse.mpr (List.nodup_dedup _)

theorem noHead_dropWhileEnd (p q : Char → Bool) (l : List Char) (h : NoHead q l) :
    NoHead q (dropWhileEnd p l) := by
  obtain ⟨sp, _, e⟩ := dropWhileEnd_decompose p l
  intro ch t ht
  rw [ht] at e
  exact h ch (t ++ sp) (by rw [e]; rfl)

theorem trimSpace_participant (N rest : List Char) (hN : IsName N) :
    trimSpace ("participant ".toList ++ (N ++ rest)) =
      "participant ".toList ++ (N ++ dropWhileEnd isSpace rest) := by
  rcases List.eq_nil_or_concat N with h | ⟨N1, n, h⟩
  · exact absurd h hN.1
  · subst h
    have hn : isSpace n = false := isWordChar_not_space (hN.2 n (by simp))
    have e1 : "participant ".toList ++ (N1.concat n ++ rest) =
        ("participant ".toList ++ N1) ++ n :: rest := by simp
    have e2 : List.dropWhile isSpace (("participant ".toList ++ N1) ++ n :: rest) =
        ("participant ".toList ++ N1) ++ n :: rest := by
      have : ("participant ".toList ++ N1) ++ n :: rest =
          'p' :: ("articipant ".toList ++ N1 ++ n :: rest) := rfl
      rw [this, List.dropWhile_cons_of_neg (by decide)]
    rw [trimSpace, e1, e2, dropWhileEnd_append_cons _ _ _ _ hn]
    simp

theorem seqStep_known_participant (st : SeqState) (N rest : List Char) (hN : IsName N)
    (hr : NoHead isWordChar rest) (hk : N ∈ st.participantMap) :
    seqStep st ("participant ".toList ++ (N ++ rest)) = st := by
  obtain ⟨p, hp, hpn⟩ := parseParticipant_name N (dropWhileEnd isSpace rest) hN
    (noHead_dropWhileEnd _ _ _ hr)
  have hs : shouldSkipSequenceLine
      ("participant ".toList ++ (N ++ dropWhileEnd isSpace rest)) = false := rfl
  have hc : st.participantMap.contains p.Name = true := by
    rw [hpn]
    simpa using hk
  simp only [seqStep, trimSpace_participant N rest hN, hs, hp, hc, if_true, if_false,
    Bool.false_eq_true]

/-- C18: a participant declaration (`participant N`, or `participant N as T` with any
alias text) whose name is already known is ignored, in every state of the loop in
which `participantMap` holds the name, and so in every state that the loop reaches
over lines on which the name was declared or used by a message: the state, with the
participants and the messages, stays as it is and the first alias is kept. -/
theorem known_participant_declaration_ignored (N T : List Char) (hN : IsName N) :
    (∀ st : SeqState, N ∈ st.participantMap →
      seqStep st ("participant ".toList ++ N) = st ∧
      seqStep st ("participant ".toList ++ N ++ " as ".toList ++ T) = st) ∧
    (∀ ls : List (List Char),
      N ∈ (ls.foldl seqStep SeqState.init).diagram.Participants.map Participant.Name →
      seqStep (ls.foldl seqStep SeqState.init) ("participant ".toList ++ N) =
        ls.foldl seqStep SeqState.init ∧
      seqStep (ls.foldl seqStep SeqState.init)
          ("participant ".toList ++ N ++ " as ".toList ++ T) =
        ls.foldl seqStep SeqState.init) := by
  have hst : ∀ st : SeqState, N ∈ st.participantMap →
      seqStep st ("participant ".toList ++ N) = st ∧
      seqStep st ("participant ".toList ++ N ++ " as ".toList ++ T) = st := by
    intro st hk
    have h1 := seqStep_known_participant st N [] hN (noHead_nil _) hk
    have h2 := seqStep_known_participant st N (" as ".toList ++ T) hN
      (noHead_cons _ (by decide)) hk
    rw [List.append_nil] at h1
    have e : "participant ".toList ++ N ++ " as ".toList ++ T =
        "participant ".toList ++ (N ++ (" as ".toList ++ T)) := by simp
    rw [e]
    exact ⟨h1, h2⟩
  refine ⟨hst, fun ls hmem => hst _ ?_⟩
  have h := foldl_seqStep_names ls SeqState.init [] SeqState.init_names
  rw [h.1, mem_foldl_addName] at hmem
  exact (h.2 N).mpr hmem

/-- Witness of C18: the theorem `known_participant_declaration_ignored` at the name `A`
after the lines `participant A as Alice` and `A->B: hi`; the declarations
`participant A as Bob` and `participant B` change nothing. -/
theorem known_participant_declaration_ignored_witness :
    (ParseSequenceDiagram
      "participant A as Alice\nA->B: hi\nparticipant A as Bob\nparticipant B as Bea".toList).1 =
      (ParseSequenceDiagram "participant A as Alice\nA->B: hi".toList).1 ∧
    seqStep (["participant A as Alice".toList, "A->B: hi".toList].foldl seqStep SeqState.init)
        ("participant ".toList ++ "A".toList ++ " as ".toList ++ "Bob".toList) =
      ["participant A as Alice".toList, "A->B: hi".toList].foldl seqStep SeqState.init :=
  ⟨by decide,
   ((known_participant_declaration_ignored "A".toList "Bob".toList (by decide)).2
      ["participant A as Alice".toList, "A->B: hi".toList] (by decide)).2⟩

/-! ## Lines without effect -/

/-- A short line on which the step does nothing can be taken out of the lines that
the scanner reads: the state after the loop and the error stay the same. -/
theorem scanTokens_foldl_insert {σ : Type} (f : σ → List Char → σ) (L : List Char)
    (hL : ∀ st, f st (dropCR L) = st) (hlen : utf8Len L < maxScanTokenSize)
    (post : List (List Char)) :
    ∀ (pre : List (List Char)) (st : σ),
      ((scanTokens (pre ++ L :: post)).1.foldl f st, (scanTokens (pre ++ L :: post)).2) =
        ((scanTokens (pre ++ post)).1.foldl f st, (scanTokens (pre ++ post)).2) := by
  intro pre
  induction pre with
  | nil =>
    intro st
    have h1 : ¬ maxScanTokenSize ≤ utf8Len L := Nat.not_le.mpr hlen
    simp [scanTokens, h1, hL]
  | cons p pre ih =>
    intro st
    by_cases hp : maxScanTokenSize ≤ utf8Len p
    · simp [scanTokens, hp]
    · have := ih (f st (dropCR p))
      simp only [List.cons_append, scanTokens, hp, if_false, List.foldl_cons]
      exact this

theorem rawLines_joinAll_concat_nil (ls : List (List Char)) (hn : ∀ l ∈ ls, '\n' ∉ l) :
    rawLines (joinAll (ls ++ [[]])) = ls := by
  induction ls with
  | nil => rfl
  | cons l ls ih =>
    have e : joinAll (l :: ls ++ [[]]) = l ++ '\n' :: joinAll (ls ++ [[]]) := by
      cases ls <;> simp [joinAll, joinLines]
    rw [e, rawLines_append_newline _ _ (hn l (by simp)), ih (fun k hk => hn k (by simp [hk]))]

/-- The scanner on a text given by its lines: the loop runs over these lines, cut
short at the first line that is too long. -/
theorem scanLines_joinAll_foldl {σ : Type} (f : σ → List Char → σ)
    (hnil : ∀ st, f st [] = st) (ls : List (List Char)) (hn : ∀ l ∈ ls, '\n' ∉ l) (st : σ) :
    ((scanLines (joinAll ls)).1.foldl f st, (scanLines (joinAll ls)).2) =
      ((scanTokens ls).1.foldl f st, (scanTokens ls).2) := by
  rcases List.eq_nil_or_concat ls with h | ⟨ls1, l, h⟩
  · subst h; rfl
  · subst h
    rw [List.concat_eq_append] at hn ⊢
    by_cases hl : l = []
    · subst hl
      have hraw := rawLines_joinAll_concat_nil ls1 (fun k hk => hn k (by simp [hk]))
      have h2 := scanTokens_foldl_insert f [] (by simpa [dropCR] using hnil) (by decide) []
        ls1 st
      rw [List.append_nil] at h2
      rw [h2, scanLines, hraw]
    · have hraw := rawLines_joinAll (ls1 ++ [l]) hn (by
        intro m hm
        rw [List.getLast?_append_of_ne_nil _ (by simp)] at hm
        have := Option.some.inj hm
        rw [← this]
        exact hl)
      rw [scanLines, hraw]

theorem seqStep_nil (st : SeqState) : seqStep st [] = st := rfl

theorem erStep_nil (st : ERState) : erStep st [] = st := rfl

theorem ParseSequenceDiagram_joinAll (ls : List (List Char)) (hn : ∀ l ∈ ls, '\n' ∉ l) :
    ParseSequenceDiagram (joinAll ls) =
      (((scanTokens ls).1.foldl seqStep SeqState.init).diagram, (scanTokens ls).2) := by
  have h := scanLines_joinAll_foldl seqStep seqStep_nil ls hn SeqState.init
  have h1 := congrArg Prod.fst h
  have h2 := congrArg Prod.snd h
  simp only at h1 h2
  simp only [ParseSequenceDiagram, h1, h2]

theorem ParseERDiagram_joinAll (ls : List (List Char)) (hn : ∀ l ∈ ls, '\n' ∉ l) :
    ParseERDiagram (joinAll ls) =
      (((scanTokens ls).1.foldl erStep ERState.init).finish, (scanTokens ls).2) := by
  have h := scanLines_joinAll_foldl erStep erStep_nil ls hn ERState.init
  have h1 := congrArg Prod.fst h
  have h2 := congrArg Prod.snd h
  simp only at h1 h2
  simp only [ParseERDiagram, h1, h2]

theorem ParseSequenceDiagram_insert (pre post : List (List Char)) (L : List Char)
    (hpre : ∀ l ∈ pre, '\n' ∉ l) (hpost : ∀ l ∈ post, '\n' ∉ l) (hLn : '\n' ∉ L)
    (hL : ∀ st, seqStep st L = st) (hlen : utf8Len L < maxScanTokenSize) :
    ParseSequenceDiagram (joinAll (pre ++ L :: post)) =
      ParseSequenceDiagram (joinAll (pre ++ post)) := by
  rw [ParseSequenceDiagram_joinAll, ParseSequenceDiagram_joinAll]
  · have h := scanTokens_foldl_insert seqStep L (fun st => by rw [seqStep_dropCR]; exact hL st)
      hlen post pre SeqState.init
    have h1 := congrArg Prod.fst h
    have h2 := congrArg Prod.snd h
    simp only at h1 h2
    rw [h1, h2]
  · intro l hl
    simp only [List.mem_append] at hl
    rcases hl with h | h
    · exact hpre l h
    · exact hpost l h
  · intro l hl
    simp only [List.mem_append, List.mem_cons] at hl
    rcases hl with h | h | h
    · exact hpre l h
    · rw [h]; exact hLn
    · exact hpost l h

theorem ParseERDiagram_insert (pre post : List (List Char)) (L : List Char)
    (hpre : ∀ l ∈ pre, '\n' ∉ l) (hpost : ∀ l ∈ post, '\n' ∉ l) (hLn : '\n' ∉ L)
    (hL : ∀ st, erStep st L = st) (hlen : utf8Len L < maxScanTokenSize) :
    ParseERDiagram (joinAll (pre ++ L :: post)) = ParseERDiagram (joinAll (pre ++ post)) := by
  rw [ParseERDiagram_joinAll, ParseERDiagram_joinAll]
  · have h := scanTokens_foldl_insert erStep L (fun st => by rw [erStep_dropCR]; exact hL st)
      hlen post pre ERState.init
    have h1 := congrArg Prod.fst h
    have h2 := congrArg Prod.snd h
    simp only at h1 h2
    rw [h1, h2]
  · intro l hl
    simp only [List.mem_append] at hl
    rcases hl with h | h
    · exact hpre l h
    · exact hpost l h
  · intro l hl
    simp only [List.mem_append, List.mem_cons] at hl
    rcases hl with h | h | h
    · exact hpre l h
    · rw [h]; exact hLn
    · exact hpost l h

/-- A text `<word><space...><word>...` is not of the shape
`<space...><word><space...>c...` for a character `c` that is neither a word
character nor white space. -/
theorem two_words_not_word_then (c0 : Char) (hc1 : isWordChar c0 = false)
    (hc2 : isReSpace c0 = false) (T : List Char) (sp : Char) (sps N rest : List Char)
    (hT : IsName T) (hsp : isReSpace sp = true) (hsps : ∀ d ∈ sps, isReSpace d = true)
    (hN : IsName N) (ws w ws2 r : List Char) (hws : ∀ d ∈ ws, isReSpace d = true)
    (hw : IsName w) (hws2 : ∀ d ∈ ws2, isReSpace d = true) :
    T ++ (sp :: sps ++ (N ++ rest)) ≠ ws ++ (w ++ (ws2 ++ c0 :: r)) := by
  intro e
  obtain ⟨n, N1, rfl⟩ := List.exists_cons_of_ne_nil hN.1
  have hn : isWordChar n = true := hN.2 n (by simp)
  cases ws with
  | cons d ws =>
    obtain ⟨t, T1, rfl⟩ := List.exists_cons_of_ne_nil hT.1
    simp only [List.cons_append, List.cons.injEq] at e
    have := isWordChar_not_reSpace (hT.2 t (by simp))
    rw [e.1, hws d (by simp)] at this
    exact absurd this (by simp)
  | nil =>
    simp only [List.nil_append] at e
    have hy2 : ∃ y0 t0, ws2 ++ c0 :: r = y0 :: t0 ∧ isWordChar y0 = false := by
      cases ws2 with
      | nil => exact ⟨c0, r, rfl, hc1⟩
      | cons a ws2 => exact ⟨a, _, rfl, isReSpace_of_isWordChar_false (hws2 a (by simp))⟩
    obtain ⟨y0, t0, e0, hy0⟩ := hy2
    rw [e0] at e
    have h1 := append_cons_inj_of_class isWordChar T w sp y0 (sps ++ (n :: N1 ++ rest)) t0
      hT.2 hw.2 (isReSpace_of_isWordChar_false hsp) hy0 (by simpa using e)
    have e1 : sp :: sps ++ (n :: N1 ++ rest) = ws2 ++ c0 :: r := by
      rw [e0, ← h1.2.1, ← h1.2.2]
      simp
    have h2 := append_cons_inj_of_class isReSpace (sp :: sps) ws2 n c0
      (N1 ++ rest) r (by
        intro d hd
        simp only [List.mem_cons] at hd
        rcases hd with hd | hd
        · rw [hd]; exact hsp
        · exact hsps d hd) hws2 (isWordChar_not_reSpace hn) hc2 (by simpa using e1)
    rw [h2.2.1, hc1] at hn
    exact absurd hn (by simp)

theorem messageArrows_sound {s : List Char} {c : Caps} {x : List Char × Caps}
    (h : x ∈ messageArrows.run s c) : ∃ r, s = '-' :: r := by
  simp only [messageArrows, run_alt, List.mem_append] at h
  rcases h with h | h | h | h <;>
    exact ⟨_, by rw [(mem_run_str _ _ h).2]; rfl⟩

theorem messageRegex_sound {s : List Char} {c : Caps} {x : List Char × Caps}
    (h : x ∈ messageRegex.run s c) :
    ∃ ws w ws2 r, s = ws ++ (w ++ (ws2 ++ '-' :: r)) ∧
      (∀ d ∈ ws, isReSpace d = true) ∧ IsName w ∧ (∀ d ∈ ws2, isReSpace d = true) := by
  simp only [messageRegex_eq, run_seq, run_grp, List.mem_flatMap, List.mem_map] at h
  obtain ⟨y1, h1, y2, ⟨z, hz, hzy⟩, y3, h3, y4, ⟨z2, hz2, hzy2⟩, _⟩ := h
  obtain ⟨_, ws, e1, hws⟩ := mem_run_star_cls h1
  obtain ⟨_, ch, w, e2, hch, hw⟩ := mem_run_plus_cls hz
  obtain ⟨_, ws2, e3, hws2⟩ := mem_run_star_cls h3
  obtain ⟨r, e4⟩ := messageArrows_sound hz2
  have e5 : y2.1 = z.1 := by rw [← hzy]
  refine ⟨ws, ch :: w, ws2, r, ?_, hws, ⟨by simp, ?_⟩, hws2⟩
  · rw [e1, e2, ← e5, e3, e4]
  · intro d hd
    simp only [List.mem_cons] at hd
    rcases hd with hd | hd
    · rw [hd]; exact hch
    · exact hw d hd

/-- A line `<word> <word>` is no message. -/
theorem parseMessage_two_words (T N : List Char) (hT : IsName T) (hN : IsName N) :
    parseMessage (T ++ (' ' :: N)) = none := by
  have h : messageRegex.run (T ++ (' ' :: N)) Caps.none = [] := by
    rw [List.eq_nil_iff_forall_not_mem]
    intro y hy
    obtain ⟨ws, w, ws2, r, e, hws, hw, hws2⟩ := messageRegex_sound hy
    have := two_words_not_word_then '-' (by decide) (by decide) T ' ' [] N [] hT (by decide)
      (by simp) hN ws w ws2 r hws hw hws2
    exact this (by simpa using e)
  simp [parseMessage, findSubmatch, h]

/-- A line that begins with a word other than `participant`, followed by a character
that is no word character, is no participant declaration. -/
theorem parseParticipant_other_word (F : List Char) (x : Char) (r : List Char)
    (hF : IsName F) (hx : isWordChar x = false) (hne : F ≠ "participant".toList) :
    parseParticipant (F ++ x :: r) = none := by
  apply parseParticipant_eq_none_of_run
  rw [List.eq_nil_iff_forall_not_mem]
  intro y hy
  obtain ⟨ws, ch, t, e, hws, hch⟩ := participantRegex_sound hy
  cases ws with
  | cons d ws =>
    obtain ⟨f, F1, rfl⟩ := List.exists_cons_of_ne_nil hF.1
    simp only [List.cons_append, List.cons.injEq] at e
    have := isWordChar_not_reSpace (hF.2 f (by simp))
    rw [e.1, hws d (by simp)] at this
    exact absurd this (by simp)
  | nil =>
    simp only [List.nil_append] at e
    have := append_cons_inj_of_class isWordChar F "participant".toList x ch r t hF.2
      (by decide) hx (isReSpace_of_isWordChar_false hch) e
    exact hne this.1

theorem seqStep_word_word (st : SeqState) (T N : List Char) (hT : IsName T) (hN : IsName N)
    (hne : T ≠ "participant".toList)
    (hs : shouldSkipSequenceLine (T ++ (' ' :: N)) = false) :
    seqStep st (T ++ (' ' :: N)) = st := by
  have ht : trimSpace (T ++ (' ' :: N)) = T ++ (' ' :: N) :=
    trimSpace_of_ends _ (fun c h => isWordChar_not_space (head?_name_append hT _ c h))
      (fun c h => by
        have e : T ++ (' ' :: N) = (T ++ [' ']) ++ N := by simp
        rw [e, List.getLast?_append_of_ne_nil _ hN.1] at h
        exact isWordChar_not_space (hN.2 c (List.mem_of_getLast?_eq_some h)))
  have hp := parseParticipant_other_word T ' ' N hT (by decide) hne
  have hm := parseMessage_two_words T N hT hN
  simp only [seqStep, ht, hs, hp, hm, if_false, Bool.false_eq_true]

theorem seqStep_activate (st : SeqState) (X : List Char) (hX : IsName X) :
    seqStep st ("activate ".toList ++ X) = st ∧ seqStep st ("deactivate ".toList ++ X) = st :=
  ⟨seqStep_word_word st "activate".toList X (by decide) hX (by decide) rfl,
   seqStep_word_word st "deactivate".toList X (by decide) hX (by decide) rfl⟩

theorem joinAll_cons_cons (l m : List Char) (ms : List (List Char)) :
    joinAll (l :: m :: ms) = l ++ '\n' :: joinAll (m :: ms) := by
  simp [joinAll, joinLines]

theorem joinAll_splitOnChar (s : List Char) : joinAll (splitOnChar '\n' s) = s := by
  induction s with
  | nil => rfl
  | cons c s ih =>
    cases h : splitOnChar '\n' s with
    | nil => exact absurd h (splitOnChar_ne_nil _ _)
    | cons p ps =>
      rw [h] at ih
      by_cases hc : c = '\n'
      · have e : splitOnChar '\n' (c :: s) = [] :: p :: ps := by simp [splitOnChar, hc, h]
        rw [e, joinAll_cons_cons, ih, hc]
        rfl
      · have e : splitOnChar '\n' (c :: s) = (c :: p) :: ps := by simp [splitOnChar, hc, h]
        rw [e]
        have e2 : joinAll ((c :: p) :: ps) = c :: joinAll (p :: ps) := by
          simp [joinAll, joinLines]
        rw [e2, ih]

theorem not_mem_of_mem_splitOnChar (sep : Char) (s : List Char) :
    ∀ l ∈ splitOnChar sep s, sep ∉ l := by
  induction s with
  | nil =>
    intro l hl
    simp only [splitOnChar, List.mem_singleton] at hl
    rw [hl]
    simp
  | cons c s ih =>
    intro l hl
    by_cases hc : c = sep
    · simp only [splitOnChar, hc, if_true, List.mem_cons] at hl
      rcases hl with h | h
      · rw [h]; simp
      · exact ih l h
    · cases h : splitOnChar sep s with
      | nil => exact absurd h (splitOnChar_ne_nil _ _)
      | cons p ps =>
        simp only [splitOnChar, hc, if_false, h, List.mem_cons] at hl
        rcases hl with h1 | h1
        · rw [h1]
          simp only [List.mem_cons, not_or]
          exact ⟨fun e => hc e.symm, ih p (by rw [h]; simp)⟩
        · exact ih l (by rw [h]; simp [h1])

theorem ParseSequenceDiagram_insertLine (text : List Char) (i : Nat) (L : List Char)
    (hLn : '\n' ∉ L) (hL : ∀ st, seqStep st L = st) (hlen : utf8Len L < maxScanTokenSize) :
    ParseSequenceDiagram (insertLine text i L) = ParseSequenceDiagram text := by
  have h := ParseSequenceDiagram_insert ((splitOnChar '\n' text).take i)
    ((splitOnChar '\n' text).drop i) L
    (fun l hl => not_mem_of_mem_splitOnChar _ _ l (List.mem_of_mem_take hl))
    (fun l hl => not_mem_of_mem_splitOnChar _ _ l (List.mem_of_mem_drop hl)) hLn hL hlen
  rw [List.take_append_drop, joinAll_splitOnChar] at h
  exact h

theorem ParseERDiagram_insertLine (text : List Char) (i : Nat) (L : List Char)
    (hLn : '\n' ∉ L) (hL : ∀ st, erStep st L = st) (hlen : utf8Len L < maxScanTokenSize) :
    ParseERDiagram (insertLine text i L) = ParseERDiagram text := by
  have h := ParseERDiagram_insert ((splitOnChar '\n' text).take i)
    ((splitOnChar '\n' text).drop i) L
    (fun l hl => not_mem_of_mem_splitOnChar _ _ l (List.mem_of_mem_take hl))
    (fun l hl => not_mem_of_mem_splitOnChar _ _ l (List.mem_of_mem_drop hl)) hLn hL hlen
  rw [List.take_append_drop, joinAll_splitOnChar] at h
  exact h

theorem utf8Len_cons (c : Char) (s : List Char) : utf8Len (c :: s) = c.utf8Size + utf8Len s := by
  simp [utf8Len]

/-- C19 (amended): activation lines produce no model change.  For every word-character
name `X` the lines `activate X` and `deactivate X` leave every state of the loop as it
is, and for every sequence text and every line position, inserting such a line that
is shorter than 64 KiB leaves the result of `ParseSequenceDiagram` (participants,
messages and error) unchanged. -/
theorem activation_line_no_effect (text : List Char) (i : Nat) (X : List Char)
    (hX : IsName X) (hlen : utf8Len X + 11 < maxScanTokenSize) :
    (∀ st : SeqState, seqStep st ("activate ".toList ++ X) = st ∧
      seqStep st ("deactivate ".toList ++ X) = st) ∧
    ParseSequenceDiagram (insertLine text i ("activate ".toList ++ X)) =
      ParseSequenceDiagram text ∧
    ParseSequenceDiagram (insertLine text i ("deactivate ".toList ++ X)) =
      ParseSequenceDiagram text := by
  have hn := isName_no_newline hX
  have h1 : utf8Len ("activate ".toList ++ X) < maxScanTokenSize := by
    rw [utf8Len_append]
    have : utf8Len "activate ".toList = 9 := by decide
    omega
  have h2 : utf8Len ("deactivate ".toList ++ X) < maxScanTokenSize := by
    rw [utf8Len_append]
    have : utf8Len "deactivate ".toList = 11 := by decide
    omega
  refine ⟨fun st => seqStep_activate st X hX, ?_, ?_⟩
  · apply ParseSequenceDiagram_insertLine _ _ _ _ (fun st => (seqStep_activate st X hX).1) h1
    simp only [List.mem_append, not_or]
    exact ⟨by decide, hn⟩
  · apply ParseSequenceDiagram_insertLine _ _ _ _ (fun st => (seqStep_activate st X hX).2) h2
    simp only [List.mem_append, not_or]
    exact ⟨by decide, hn⟩

/-- Witness of C19: the theorem `activation_line_no_effect` at the text of the test,
with `activate B` inserted after the first message. -/
theorem activation_line_no_effect_witness :
    ParseSequenceDiagram "sequenceDiagram\nA->B: Hello\nactivate B\nB->A: Hi".toList =
      ParseSequenceDiagram "sequenceDiagram\nA->B: Hello\nB->A: Hi".toList :=
  (activation_line_no_effect "sequenceDiagram\nA->B: Hello\nB->A: Hi".toList 2 "B".toList
    (by decide) (by decide)).2.1

theorem ParseSequenceDiagram_insert_long (L : List Char) (hn : '\n' ∉ L)
    (hl : maxScanTokenSize ≤ utf8Len L) :
    ParseSequenceDiagram (insertLine "sequenceDiagram\nA->B: hi".toList 1 L) =
      ({ Participants := [], Messages := [] }, some .ErrTooLong) := by
  have e : insertLine "sequenceDiagram\nA->B: hi".toList 1 L =
      joinAll (["sequenceDiagram".toList] ++ L :: ["A->B: hi".toList]) := rfl
  rw [e, ParseSequenceDiagram_joinAll _ (by
    intro l hl
    simp only [List.mem_append, List.mem_cons, List.not_mem_nil, or_false] at hl
    rcases hl with h | h | h
    · rw [h]; decide
    · rw [h]; exact hn
    · rw [h]; decide),
    scanTokens_tooLong _ _ _ (by decide) hl]
  decide

theorem ParseERDiagram_insert_long (L : List Char) (hn : '\n' ∉ L)
    (hl : maxScanTokenSize ≤ utf8Len L) :
    ParseERDiagram (insertLine "erDiagram\nUSER \x7b\x7d".toList 1 L) =
      ({ Entities := [], Relationships := [] }, some .ErrTooLong) := by
  have e : insertLine "erDiagram\nUSER \x7b\x7d".toList 1 L =
      joinAll (["erDiagram".toList] ++ L :: ["USER \x7b\x7d".toList]) := rfl
  rw [e, ParseERDiagram_joinAll _ (by
    intro l hl
    simp only [List.mem_append, List.mem_cons, List.not_mem_nil, or_false] at hl
    rcases hl with h | h | h
    · rw [h]; decide
    · rw [h]; exact hn
    · rw [h]; decide),
    scanTokens_tooLong _ _ _ (by decide) hl]
  decide

theorem isName_replicate_x : IsName (List.replicate 65536 'x') := by
  refine ⟨?_, ?_⟩
  · intro h
    have := congrArg List.length h
    rw [List.length_replicate, List.length_nil] at this
    exact absurd this (by decide)
  · intro ch hch
    rw [List.eq_of_mem_replicate hch]
    decide

/-- C19 as stated fails: with the word-character name `X` of 65536 letters, the line
`activate X` inserted after the keyword line of `sequenceDiagram`, `A->B: hi` stops the
scanner with `ErrTooLong`, and the diagram loses its participants and its message. -/
theorem activation_line_no_effect_counterexample :
    IsName (List.replicate 65536 'x') ∧
    ParseSequenceDiagram (insertLine "sequenceDiagram\nA->B: hi".toList 1
        ("activate ".toList ++ List.replicate 65536 'x')) =
      ({ Participants := [], Messages := [] }, some .ErrTooLong) ∧
    ParseSequenceDiagram "sequenceDiagram\nA->B: hi".toList =
      ({ Participants := [{ Name := "A".toList, Alias := "A".toList },
                          { Name := "B".toList, Alias := "B".toList }],
         Messages := [{ From := "A".toList, To := "B".toList, Text := "hi".toList,
                        Typ := .SolidArrow }] }, none) := by
  refine ⟨isName_replicate_x, ?_, by decide⟩
  apply ParseSequenceDiagram_insert_long
  · have := isName_no_newline isName_replicate_x
    simp only [List.mem_append, not_or]
    exact ⟨by decide, this⟩
  · rw [utf8Len_append, utf8Len_replicate]
    exact Nat.le_trans (by decide) (Nat.le_add_left _ _)

theorem seqStep_of_skip (st : SeqState) (L : List Char)
    (h : shouldSkipSequenceLine (trimSpace L) = true) : seqStep st L = st := by
  simp only [seqStep, h, if_true]

theorem erStep_of_skip (st : ERState) (L : List Char)
    (h : shouldSkipLine (trimSpace L) = true) : erStep st L = st := by
  simp only [erStep, h, if_true]

theorem shouldSkipSequenceLine_iff (line : List Char) :
    shouldSkipSequenceLine line = true ↔
      line = [] ∨ hasPrefix line "%%".toList = true ∨
        hasPrefix line "sequenceDiagram".toList = true := by
  simp only [shouldSkipSequenceLine, Bool.or_eq_true, beq_iff_eq, or_assoc]

theorem shouldSkipLine_iff (line : List Char) :
    shouldSkipLine line = true ↔
      line = [] ∨ hasPrefix line "%%".toList = true ∨
        hasPrefix line "erDiagram".toList = true := by
  simp only [shouldSkipLine, Bool.or_eq_true, beq_iff_eq, or_assoc]

/-- C20 (amended): skipped lines have no effect in any parser state.  A line that
after trimming is empty, begins with `%%` or begins with the dialect keyword
(`sequenceDiagram` for `ParseSequenceDiagram`, `erDiagram` for `ParseERDiagram`)
leaves every state of the loop as it is, also inside an entity block; and for every
input and every line position, inserting such a line that is shorter than 64 KiB
leaves the result of the parser unchanged. -/
theorem skipped_line_no_effect (text : List Char) (i : Nat) (L : List Char)
    (hLn : '\n' ∉ L) (hlen : utf8Len L < maxScanTokenSize) :
    ((trimSpace L = [] ∨ hasPrefix (trimSpace L) "%%".toList = true ∨
        hasPrefix (trimSpace L) "sequenceDiagram".toList = true) →
      (∀ st : SeqState, seqStep st L = st) ∧
      ParseSequenceDiagram (insertLine text i L) = ParseSequenceDiagram text) ∧
    ((trimSpace L = [] ∨ hasPrefix (trimSpace L) "%%".toList = true ∨
        hasPrefix (trimSpace L) "erDiagram".toList = true) →
      (∀ st : ERState, erStep st L = st) ∧
      ParseERDiagram (insertLine text i L) = ParseERDiagram text) := by
  constructor
  · intro h
    have hs := (shouldSkipSequenceLine_iff _).mpr h
    exact ⟨fun st => seqStep_of_skip st L hs,
      ParseSequenceDiagram_insertLine text i L hLn (fun st => seqStep_of_skip st L hs) hlen⟩
  · intro h
    have hs := (shouldSkipLine_iff _).mpr h
    exact ⟨fun st => erStep_of_skip st L hs,
      ParseERDiagram_insertLine text i L hLn (fun st => erStep_of_skip st L hs) hlen⟩

/-- Witness of C20: the theorem `skipped_line_no_effect` at a comment line inserted
inside an entity block, and the keyword line inserted inside the block. -/
theorem skipped_line_no_effect_witness :
    ParseERDiagram "erDiagram\nUSER \x7b\n  %% the key\nint id PK\n\x7d".toList =
      ParseERDiagram "erDiagram\nUSER \x7b\nint id PK\n\x7d".toList ∧
    erStep { diagram := { Entities := [], Relationships := [] },
             currentEntity := some ⟨"USER".toList, []⟩, inEntity := true }
        "erDiagramKind kind".toList =
      { diagram := { Entities := [], Relationships := [] },
        currentEntity := some ⟨"USER".toList, []⟩, inEntity := true } :=
  ⟨((skipped_line_no_effect "erDiagram\nUSER \x7b\nint id PK\n\x7d".toList 2
      "  %% the key".toList (by decide) (by decide)).2 (by decide)).2,
   ((skipped_line_no_effect [] 0 "erDiagramKind kind".toList (by decide) (by decide)).2
      (by decide)).1 _⟩

/-- C20 as stated fails: a comment line `%%...` of 64 KiB, inserted after the keyword
line, stops the scanner with `ErrTooLong`; the sequence diagram loses its participants
and its message, the ER diagram its entity. -/
theorem skipped_line_no_effect_counterexample :
    hasPrefix (trimSpace ("%%".toList ++ List.replicate 65536 'x')) "%%".toList = true ∧
    ParseSequenceDiagram (insertLine "sequenceDiagram\nA->B: hi".toList 1
        ("%%".toList ++ List.replicate 65536 'x')) =
      ({ Participants := [], Messages := [] }, some .ErrTooLong) ∧
    (ParseSequenceDiagram "sequenceDiagram\nA->B: hi".toList).1.Messages =
      [{ From := "A".toList, To := "B".toList, Text := "hi".toList, Typ := .SolidArrow }] ∧
    ParseERDiagram (insertLine "erDiagram\nUSER \x7b\x7d".toList 1
        ("%%".toList ++ List.replicate 65536 'x')) =
      ({ Entities := [], Relationships := [] }, some .ErrTooLong) ∧
    (ParseERDiagram "erDiagram\nUSER \x7b\x7d".toList).1.Entities =
      [{ Name := "USER".toList, Attributes := [] }] := by
  have hn : '\n' ∉ "%%".toList ++ List.replicate 65536 'x' := by
    have := isName_no_newline isName_replicate_x
    simp only [List.mem_append, not_or]
    exact ⟨by decide, this⟩
  have hl : maxScanTokenSize ≤ utf8Len ("%%".toList ++ List.replicate 65536 'x') := by
    rw [utf8Len_append, utf8Len_replicate]
    exact Nat.le_trans (by decide) (Nat.le_add_left _ _)
  have ht : trimSpace ("%%".toList ++ List.replicate 65536 'x') =
      "%%".toList ++ List.replicate 65536 'x' := by
    apply trimSpace_of_ends
    · intro c h
      have : c = '%' := by
        have e : ("%%".toList ++ List.replicate 65536 'x').head? = some '%' := rfl
        rw [e] at h
        exact (Option.some.inj h).symm
      rw [this]
      decide
    · intro c h
      rw [List.getLast?_append_of_ne_nil _ isName_replicate_x.1] at h
      exact isWordChar_not_space (isName_replicate_x.2 c (List.mem_of_getLast?_eq_some h))
  refine ⟨?_, ParseSequenceDiagram_insert_long _ hn hl, by decide,
    ParseERDiagram_insert_long _ hn hl, by decide⟩
  rw [ht]
  rfl

/-! ## The error value of the parsers -/

theorem ParseDiagram_of_short_lines (input : List Char)
    (h : ∀ l ∈ rawLines input, utf8Len l < maxScanTokenSize) :
    (ParseDiagram input).2 = none := by
  have h1 := ParseSequenceDiagram_of_rawLines input _ rfl h
  have h2 := ParseERDiagram_of_rawLines input _ rfl h
  unfold ParseDiagram
  cases DetectDiagramType input
  · simp only [h1]
  · simp only [h2]

theorem DetectDiagramType_sequence_first (rest : List Char) :
    DetectDiagramType ("sequenceDiagram".toList ++ '\n' :: rest) = .SequenceDiagramType := by
  unfold DetectDiagramType
  rw [splitOnChar_append_sep _ _ _ (by decide), detectLines_cons, if_neg (by decide),
    if_pos (by decide)]

theorem ParseDiagram_long_line (l : List Char) (hne : l ≠ []) (hn : '\n' ∉ l)
    (hl : maxScanTokenSize ≤ utf8Len l) :
    ParseDiagram (joinLines "sequenceDiagram".toList [l]) =
      (.Sequence { Participants := [], Messages := [] }, some .ErrTooLong) := by
  have e : joinLines "sequenceDiagram".toList [l] = "sequenceDiagram".toList ++ '\n' :: l := by
    simp [joinLines]
  have hd := DetectDiagramType_sequence_first l
  rw [← e] at hd
  unfold ParseDiagram
  rw [hd]
  simp only [ParseSequenceDiagram_long_line l hne hn hl]

theorem ParseDiagram_of_rawLines (input : List Char)
    (h : ∀ l ∈ rawLines input, utf8Len l < maxScanTokenSize) :
    ParseDiagram input =
      match DetectDiagramType input with
      | .SequenceDiagramType =>
        (.Sequence ((rawLines input).foldl seqStep SeqState.init).diagram, none)
      | .ERDiagramType => (.ER ((rawLines input).foldl erStep ERState.init).finish, none) := by
  have h1 := ParseSequenceDiagram_of_rawLines input _ rfl h
  have h2 := ParseERDiagram_of_rawLines input _ rfl h
  unfold ParseDiagram
  cases DetectDiagramType input
  · simp only [h1]
  · simp only [h2]

theorem ParseDiagram_tooLong (input : List Char) (ls1 : List (List Char))
    (l : List Char) (ls2 : List (List Char)) (h : rawLines input = ls1 ++ l :: ls2)
    (hs : ∀ m ∈ ls1, utf8Len m < maxScanTokenSize) (hl : maxScanTokenSize ≤ utf8Len l) :
    ParseDiagram input =
      match DetectDiagramType input with
      | .SequenceDiagramType =>
        (.Sequence (ls1.foldl seqStep SeqState.init).diagram, some .ErrTooLong)
      | .ERDiagramType => (.ER (ls1.foldl erStep ERState.init).finish, some .ErrTooLong) := by
  have h1 := ParseSequenceDiagram_tooLong input ls1 l ls2 h hs hl
  have h2 := ParseERDiagram_tooLong input ls1 l ls2 h hs hl
  unfold ParseDiagram
  cases DetectDiagramType input
  · simp only [h1]
  · simp only [h2]

theorem exists_first_long (ls : List (List Char))
    (h : ∃ l ∈ ls, maxScanTokenSize ≤ utf8Len l) :
    ∃ ls1 l ls2, ls = ls1 ++ l :: ls2 ∧ (∀ m ∈ ls1, utf8Len m < maxScanTokenSize) ∧
      maxScanTokenSize ≤ utf8Len l := by
  induction ls with
  | nil =>
    obtain ⟨l, hl, _⟩ := h
    simp at hl
  | cons a ls ih =>
    by_cases ha : maxScanTokenSize ≤ utf8Len a
    · exact ⟨[], a, ls, rfl, by simp, ha⟩
    · obtain ⟨l, hl, hlong⟩ := h
      have hl2 : l ∈ ls := by
        rcases List.mem_cons.mp hl with e | e
        · rw [e] at hlong; exact absurd hlong ha
        · exact e
      obtain ⟨ls1, m, ls2, e, hs, hm⟩ := ih ⟨l, hl2, hlong⟩
      refine ⟨a :: ls1, m, ls2, by rw [e]; rfl, ?_, hm⟩
      intro k hk
      rcases List.mem_cons.mp hk with e2 | e2
      · rw [e2]; exact Nat.not_le.mp ha
      · exact hs k e2

theorem ParseDiagram_error_cases (input : List Char) (d1 : SequenceDiagram) (d2 : ERDiagram)
    (e : Option ScanError) :
    (match DetectDiagramType input with
      | .SequenceDiagramType => ((Diagram.Sequence d1, e) : Diagram × Option ScanError)
      | .ERDiagramType => (.ER d2, e)).2 = e := by
  cases DetectDiagramType input <;> rfl

/-- C21, amended: for every input text whose lines (as the scanner cuts them, the
carriage return included) are all shorter than 64 KiB, whatever the lines contain,
`ParseSequenceDiagram`, `ParseERDiagram` and `ParseDiagram` return no error and the
diagram that the loop of the parser builds over all the lines; for every input with
a line of 64 KiB or more, each of them returns the error `ErrTooLong` of the scanner
together with the diagram that the loop builds over the lines before the first such
line; so each of the three returns an error if and only if the input has a line of
64 KiB or more. -/
theorem parsers_error_iff_long_line (input : List Char) :
    ((∀ l ∈ rawLines input, utf8Len l < maxScanTokenSize) →
      ParseSequenceDiagram input =
        (((rawLines input).foldl seqStep SeqState.init).diagram, none) ∧
      ParseERDiagram input = (((rawLines input).foldl erStep ERState.init).finish, none) ∧
      ParseDiagram input =
        match DetectDiagramType input with
        | .SequenceDiagramType =>
          (.Sequence ((rawLines input).foldl seqStep SeqState.init).diagram, none)
        | .ERDiagramType =>
          (.ER ((rawLines input).foldl erStep ERState.init).finish, none)) ∧
    (∀ (ls1 : List (List Char)) (l : List Char) (ls2 : List (List Char)),
      rawLines input = ls1 ++ l :: ls2 → (∀ m ∈ ls1, utf8Len m < maxScanTokenSize) →
      maxScanTokenSize ≤ utf8Len l →
      ParseSequenceDiagram input =
        ((ls1.foldl seqStep SeqState.init).diagram, some .ErrTooLong) ∧
      ParseERDiagram input = ((ls1.foldl erStep ERState.init).finish, some .ErrTooLong) ∧
      ParseDiagram input =
        match DetectDiagramType input with
        | .SequenceDiagramType =>
          (.Sequence (ls1.foldl seqStep SeqState.init).diagram, some .ErrTooLong)
        | .ERDiagramType =>
          (.ER (ls1.foldl erStep ERState.init).finish, some .ErrTooLong)) ∧
    (((ParseSequenceDiagram input).2 = some .ErrTooLong ↔
        ∃ l ∈ rawLines input, maxScanTokenSize ≤ utf8Len l) ∧
      ((ParseERDiagram input).2 = some .ErrTooLong ↔
        ∃ l ∈ rawLines input, maxScanTokenSize ≤ utf8Len l) ∧
      ((ParseDiagram input).2 = some .ErrTooLong ↔
        ∃ l ∈ rawLines input, maxScanTokenSize ≤ utf8Len l)) := by
  have hA : (∀ l ∈ rawLines input, utf8Len l < maxScanTokenSize) →
      (ParseSequenceDiagram input).2 = none ∧ (ParseERDiagram input).2 = none ∧
        (ParseDiagram input).2 = none := by
    intro h
    refine ⟨?_, ?_, ?_⟩
    · rw [ParseSequenceDiagram_of_rawLines input _ rfl h]
    · rw [ParseERDiagram_of_rawLines input _ rfl h]
    · rw [ParseDiagram_of_rawLines input h, ParseDiagram_error_cases]
  have hB : (∃ l ∈ rawLines input, maxScanTokenSize ≤ utf8Len l) →
      (ParseSequenceDiagram input).2 = some .ErrTooLong ∧
        (ParseERDiagram input).2 = some .ErrTooLong ∧
        (ParseDiagram input).2 = some .ErrTooLong := by
    intro h
    obtain ⟨ls1, l, ls2, e, hs, hl⟩ := exists_first_long _ h
    refine ⟨?_, ?_, ?_⟩
    · rw [ParseSequenceDiagram_tooLong input ls1 l ls2 e hs hl]
    · rw [ParseERDiagram_tooLong input ls1 l ls2 e hs hl]
    · rw [ParseDiagram_tooLong input ls1 l ls2 e hs hl, ParseDiagram_error_cases]
  have hC : ¬ (∃ l ∈ rawLines input, maxScanTokenSize ≤ utf8Len l) →
      ∀ l ∈ rawLines input, utf8Len l < maxScanTokenSize := by
    intro h l hl
    exact Nat.not_le.mp (fun hh => h ⟨l, hl, hh⟩)
  refine ⟨?_, ?_, ⟨?_, fun h => (hB h).1⟩, ⟨?_, fun h => (hB h).2.1⟩,
    ⟨?_, fun h => (hB h).2.2⟩⟩
  · intro h
    exact ⟨ParseSequenceDiagram_of_rawLines input _ rfl h,
      ParseERDiagram_of_rawLines input _ rfl h, ParseDiagram_of_rawLines input h⟩
  · intro ls1 l ls2 e hs hl
    exact ⟨ParseSequenceDiagram_tooLong input ls1 l ls2 e hs hl,
      ParseERDiagram_tooLong input ls1 l ls2 e hs hl,
      ParseDiagram_tooLong input ls1 l ls2 e hs hl⟩
  · intro he
    by_contra hn
    have := (hA (hC hn)).1
    rw [he] at this
    exact Option.noConfusion this
  · intro he
    by_contra hn
    have := (hA (hC hn)).2.1
    rw [he] at this
    exact Option.noConfusion this
  · intro he
    by_contra hn
    have := (hA (hC hn)).2.2
    rw [he] at this
    exact Option.noConfusion this

theorem rawLines_message_then_long (big : List Char) (hne : big ≠ []) (hn : '\n' ∉ big) :
    rawLines (joinLines "sequenceDiagram".toList ["A->B: hi".toList, big]) =
      ["sequenceDiagram".toList, "A->B: hi".toList] ++ big :: [] := by
  apply rawLines_joinLines _ _ (by decide) (by decide)
  intro m hm
  simp only [List.mem_cons, List.not_mem_nil, or_false] at hm
  rcases hm with h | h
  · rw [h]; decide
  · rw [h]; exact ⟨hne, hn⟩

theorem rawLines_entity_then_long (big : List Char) (hne : big ≠ []) (hn : '\n' ∉ big) :
    rawLines (joinLines "erDiagram".toList ["USER \x7b\x7d".toList, big]) =
      ["erDiagram".toList, "USER \x7b\x7d".toList] ++ big :: [] := by
  apply rawLines_joinLines _ _ (by decide) (by decide)
  intro m hm
  simp only [List.mem_cons, List.not_mem_nil, or_false] at hm
  rcases hm with h | h
  · rw [h]; decide
  · rw [h]; exact ⟨hne, hn⟩

theorem joinLines_two (first a b : List Char) :
    joinLines first [a, b] = first ++ '\n' :: (a ++ '\n' :: b) := by
  simp [joinLines]

theorem utf8Len_replicate_x : maxScanTokenSize ≤ utf8Len (List.replicate 65536 'x') := by
  rw [utf8Len_replicate]
  decide

/-- Witness of C21: the theorem `parsers_error_iff_long_line` at a text with an
unrecognised line and a malformed message line, which gives no error, and at a text
whose third line has 64 KiB, which gives the error and the diagram of the two lines
before it. -/
theorem parsers_error_iff_long_line_witness :
    (∀ l ∈ rawLines "sequenceDiagram\n?? what\nA->: x\nA->B: hi".toList,
      utf8Len l < maxScanTokenSize) ∧
    (ParseSequenceDiagram "sequenceDiagram\n?? what\nA->: x\nA->B: hi".toList).2 = none ∧
    (ParseERDiagram "sequenceDiagram\n?? what\nA->: x\nA->B: hi".toList).2 = none ∧
    (ParseDiagram "sequenceDiagram\n?? what\nA->: x\nA->B: hi".toList).2 = none ∧
    ParseSequenceDiagram
        (joinLines "sequenceDiagram".toList ["A->B: hi".toList, List.replicate 65536 'x']) =
      ((["sequenceDiagram".toList, "A->B: hi".toList].foldl seqStep SeqState.init).diagram,
        some .ErrTooLong) :=
  ⟨by decide,
    congrArg Prod.snd
      ((parsers_error_iff_long_line "sequenceDiagram\n?? what\nA->: x\nA->B: hi".toList).1
        (by decide)).1,
    congrArg Prod.snd
      ((parsers_error_iff_long_line "sequenceDiagram\n?? what\nA->: x\nA->B: hi".toList).1
        (by decide)).2.1,
    (by
      rw [((parsers_error_iff_long_line
        "sequenceDiagram\n?? what\nA->: x\nA->B: hi".toList).1 (by decide)).2.2,
        ParseDiagram_error_cases]),
    ((parsers_error_iff_long_line
        (joinLines "sequenceDiagram".toList ["A->B: hi".toList, List.replicate 65536 'x'])).2.1
      _ _ _
      (rawLines_message_then_long _ isName_replicate_x.1 (isName_no_newline isName_replicate_x))
      (by decide) utf8Len_replicate_x).1⟩

/-- C21 as stated fails: a text whose third line has 64 KiB makes
`ParseSequenceDiagram`, `ParseERDiagram` and `ParseDiagram` return the error
`ErrTooLong` of the scanner, with the diagram of the two lines before it. -/
theorem parsers_no_error_counterexample :
    ParseSequenceDiagram
        (joinLines "sequenceDiagram".toList ["A->B: hi".toList, List.replicate 65536 'x']) =
      ({ Participants := [{ Name := "A".toList, Alias := "A".toList },
                          { Name := "B".toList, Alias := "B".toList }],
         Messages := [{ From := "A".toList, To := "B".toList, Text := "hi".toList,
                        Typ := .SolidArrow }] }, some .ErrTooLong) ∧
    ParseERDiagram
        (joinLines "erDiagram".toList ["USER \x7b\x7d".toList, List.replicate 65536 'x']) =
      ({ Entities := [{ Name := "USER".toList, Attributes := [] }], Relationships := [] },
        some .ErrTooLong) ∧
    ParseDiagram
        (joinLines "sequenceDiagram".toList ["A->B: hi".toList, List.replicate 65536 'x']) =
      (.Sequence
        { Participants := [{ Name := "A".toList, Alias := "A".toList },
                           { Name := "B".toList, Alias := "B".toList }],
          Messages := [{ From := "A".toList, To := "B".toList, Text := "hi".toList,
                         Typ := .SolidArrow }] }, some .ErrTooLong) := by
  have hn : '\n' ∉ List.replicate 65536 'x' := isName_no_newline isName_replicate_x
  have h1 := rawLines_message_then_long _ isName_replicate_x.1 hn
  have h2 := rawLines_entity_then_long _ isName_replicate_x.1 hn
  have hd : DetectDiagramType
      (joinLines "sequenceDiagram".toList ["A->B: hi".toList, List.replicate 65536 'x']) =
      .SequenceDiagramType := by
    rw [joinLines_two]
    exact DetectDiagramType_sequence_first _
  refine ⟨?_, ?_, ?_⟩
  · rw [ParseSequenceDiagram_tooLong _ _ _ _ h1 (by decide) utf8Len_replicate_x]
    exact congrArg (fun d => (d, some ScanError.ErrTooLong)) (by decide)
  · rw [ParseERDiagram_tooLong _ _ _ _ h2 (by decide) utf8Len_replicate_x]
    exact congrArg (fun d => (d, some ScanError.ErrTooLong)) (by decide)
  · rw [ParseDiagram_tooLong _ _ _ _ h1 (by decide) utf8Len_replicate_x, hd]
    exact congrArg (fun d => (Diagram.Sequence d, some ScanError.ErrTooLong)) (by decide)

/-! ## The type of a message -/

theorem getMessageType_ne_note (arrow : List Char) : getMessageType arrow ≠ .Note := by
  unfold getMessageType
  repeat' split
  all_goals decide

/-- C22: `getMessageType` maps every arrow token other than `->`, `-->`, `->>` and
`-->>` to `SolidArrow`; it returns a type for every token, and never `Note`. -/
theorem getMessageType_other_arrow (arrow : List Char)
    (h : arrow ∉ ["->".toList, "-->".toList, "->>".toList, "-->>".toList]) :
    getMessageType arrow = .SolidArrow ∧ ∀ a : List Char, getMessageType a ≠ .Note := by
  refine ⟨?_, getMessageType_ne_note⟩
  simp only [List.mem_cons, List.not_mem_nil, or_false, not_or] at h
  unfold getMessageType
  rw [if_neg h.1, if_neg h.2.1, if_neg h.2.2.1, if_neg h.2.2.2]

/-- Witness of C22: the theorem `getMessageType_other_arrow` at the token `=>`. -/
theorem getMessageType_other_arrow_witness :
    "=>".toList ∉ ["->".toList, "-->".toList, "->>".toList, "-->>".toList] ∧
    getMessageType "=>".toList = .SolidArrow :=
  ⟨by decide, (getMessageType_other_arrow "=>".toList (by decide)).1⟩

/-! ## The generator: the entity cells -/

theorem attrLoop_eq (hid : List Char) (y : Nat) :
    ∀ (attrs : List Attribute) (i : Nat) (cells : List MxCell) (cellID : Nat),
      attrLoop hid y i attrs (cells, cellID) =
        (cells ++ attrCells hid y i cellID attrs, cellID + attrs.length) := by
  intro attrs
  induction attrs with
  | nil => intro i cells cellID; simp [attrLoop, attrCells]
  | cons a rest ih =>
    intro i cells cellID
    rw [attrLoop, ih]
    have e : attrCells hid y i cellID (a :: rest) =
        attrCellAt hid y i cellID a :: attrCells hid y (i + 1) (cellID + 1) rest := rfl
    have e2 : y + EntityHeight + i * AttributeHeight = y + 30 + 20 * i := by
      simp only [EntityHeight, AttributeHeight]; omega
    rw [e, e2]
    simp only [attrCellAt, EntityWidth, AttributeHeight, List.append_assoc, List.singleton_append,
      List.length_cons, Prod.mk.injEq, true_and]
    omega

theorem attrCells_length (hid : List Char) (y : Nat) :
    ∀ (attrs : List Attribute) (i cellID : Nat),
      (attrCells hid y i cellID attrs).length = attrs.length := by
  intro attrs
  induction attrs with
  | nil => intro i cellID; rfl
  | cons a rest ih => intro i cellID; simp [attrCells, ih]

theorem attrCells_getElem? (hid : List Char) (y : Nat) :
    ∀ (attrs : List Attribute) (i cellID j : Nat),
      (attrCells hid y i cellID attrs)[j]? =
        attrs[j]?.map (attrCellAt hid y (i + j) (cellID + j)) := by
  intro attrs
  induction attrs with
  | nil => intro i cellID j; simp [attrCells]
  | cons a rest ih =>
    intro i cellID j
    cases j with
    | zero => simp [attrCells]
    | succ j =>
      simp only [attrCells, List.getElem?_cons_succ, ih]
      have e1 : i + 1 + j = i + (j + 1) := by omega
      have e2 : cellID + 1 + j = cellID + (j + 1) := by omega
      rw [e1, e2]

theorem blockSize_cons (e : Entity) (es : List Entity) :
    blockSize (e :: es) = 1 + e.Attributes.length + blockSize es := by
  simp only [blockSize, List.length_cons, List.map_cons, List.sum_cons]
  omega

theorem blockSize_append (es fs : List Entity) :
    blockSize (es ++ fs) = blockSize es + blockSize fs := by
  simp only [blockSize, List.length_append, List.map_append, List.sum_append]
  omega

theorem entityBlocks_cons (k cellID : Nat) (e : Entity) (es : List Entity) :
    entityBlocks k cellID (e :: es) =
      headerCellAt k cellID e ::
        (attrCells (headerID cellID) (50 + (k / 3) * 300) 0 (cellID + 1) e.Attributes ++
          entityBlocks (k + 1) (cellID + 1 + e.Attributes.length) es) := rfl

theorem entityBindings_cons (cellID : Nat) (e : Entity) (es : List Entity) :
    entityBindings cellID (e :: es) =
      entityBindings (cellID + 1 + e.Attributes.length) es ++ [(e.Name, headerID cellID)] :=
  rfl

theorem entityBlocks_length :
    ∀ (es : List Entity) (k cellID : Nat), (entityBlocks k cellID es).length = blockSize es := by
  intro es
  induction es with
  | nil => intro k cellID; rfl
  | cons e es ih =>
    intro k cellID
    rw [blockSize_cons]
    simp only [entityBlocks, List.length_cons, List.length_append, attrCells_length, ih]
    omega

theorem entityBlocks_append :
    ∀ (es fs : List Entity) (k cellID : Nat),
      entityBlocks k cellID (es ++ fs) =
        entityBlocks k cellID es ++
          entityBlocks (k + es.length) (cellID + blockSize es) fs := by
  intro es
  induction es with
  | nil => intro fs k cellID; simp [entityBlocks, blockSize]
  | cons e es ih =>
    intro fs k cellID
    have e1 : k + 1 + es.length = k + (e :: es).length := by
      simp only [List.length_cons]; omega
    have e2 : cellID + 1 + e.Attributes.length + blockSize es =
        cellID + blockSize (e :: es) := by
      rw [blockSize_cons]; omega
    rw [List.cons_append, entityBlocks_cons, entityBlocks_cons, ih, e1, e2]
    simp only [List.cons_append, List.append_assoc]

theorem entityBindings_append :
    ∀ (es fs : List Entity) (cellID : Nat),
      entityBindings cellID (es ++ fs) =
        entityBindings (cellID + blockSize es) fs ++ entityBindings cellID es := by
  intro es
  induction es with
  | nil => intro fs cellID; simp [entityBindings, blockSize]
  | cons e es ih =>
    intro fs cellID
    have e2 : cellID + 1 + e.Attributes.length + blockSize es =
        cellID + blockSize (e :: es) := by
      rw [blockSize_cons]; omega
    rw [List.cons_append, entityBindings_cons, entityBindings_cons, ih, e2, List.append_assoc]

theorem entityStep_eq (st : ERGen) (e : Entity) (k : Nat) (hc : st.currentCol = k % 3)
    (hr : st.currentRow = k / 3) :
    entityStep st e =
      { cells := st.cells ++ entityBlocks k st.cellID [e]
        cellID := st.cellID + blockSize [e]
        entityCells := (e.Name, headerID st.cellID) :: st.entityCells
        currentRow := (k + 1) / 3
        currentCol := (k + 1) % 3 } := by
  have e3 : 30 + e.Attributes.length * 20 = 30 + 20 * e.Attributes.length := by omega
  have e4 : blockSize [e] = 1 + e.Attributes.length := by
    simp [blockSize]
  have e5 : entityBlocks k st.cellID [e] =
      headerCellAt k st.cellID e ::
        attrCells (headerID st.cellID) (50 + (k / 3) * 300) 0 (st.cellID + 1) e.Attributes := by
    simp [entityBlocks]
  rw [e5, e4]
  unfold entityStep
  simp only [attrLoop_eq, StartX, StartY, EntitySpacing, EntityHeight, AttributeHeight,
    EntityWidth, EntitiesPerRow, hc, hr, mapSet, e3]
  split
  · simp only [headerCellAt, headerID, List.append_assoc, List.singleton_append,
      ERGen.mk.injEq, true_and]
    omega
  · simp only [headerCellAt, headerID, List.append_assoc, List.singleton_append,
      ERGen.mk.injEq, true_and]
    omega

theorem foldl_entityStep :
    ∀ (es : List Entity) (st : ERGen) (k : Nat), st.currentCol = k % 3 →
      st.currentRow = k / 3 →
      es.foldl entityStep st =
        { cells := st.cells ++ entityBlocks k st.cellID es
          cellID := st.cellID + blockSize es
          entityCells := entityBindings st.cellID es ++ st.entityCells
          currentRow := (k + es.length) / 3
          currentCol := (k + es.length) % 3 } := by
  intro es
  induction es with
  | nil =>
    intro st k hc hr
    simp [entityBlocks, blockSize, entityBindings, ← hc, ← hr]
  | cons e es ih =>
    intro st k hc hr
    rw [List.foldl_cons, entityStep_eq st e k hc hr, ih _ (k + 1) rfl rfl]
    have a1 := entityBlocks_append [e] es k st.cellID
    have a2 := entityBindings_append [e] es st.cellID
    have a3 := blockSize_append [e] es
    simp only [List.singleton_append, List.length_singleton] at a1 a2 a3
    have a4 : entityBindings st.cellID [e] = [(e.Name, headerID st.cellID)] := by
      simp [entityBindings]
    simp only [a1, a2, a3, a4, List.append_assoc, List.length_cons, List.singleton_append,
      ERGen.mk.injEq, true_and]
    refine ⟨by omega, ?_, ?_⟩ <;> congr 1 <;> omega

theorem entityBlocks_header (pre : List Entity) (e : Entity) (post : List Entity)
    (k cellID : Nat) :
    (entityBlocks k cellID (pre ++ e :: post))[blockSize pre]? =
      some (headerCellAt (k + pre.length) (cellID + blockSize pre) e) := by
  rw [entityBlocks_append, List.getElem?_append_right (by rw [entityBlocks_length]),
    entityBlocks_length, Nat.sub_self, entityBlocks_cons, List.getElem?_cons_zero]

theorem entityBlocks_attr (pre : List Entity) (e : Entity) (post : List Entity)
    (k cellID j : Nat) (a : Attribute) (h : e.Attributes[j]? = some a) :
    (entityBlocks k cellID (pre ++ e :: post))[blockSize pre + 1 + j]? =
      some (attrCellAt (headerID (cellID + blockSize pre)) (50 + ((k + pre.length) / 3) * 300) j
        (cellID + blockSize pre + 1 + j) a) := by
  have hj : j < e.Attributes.length := by
    rcases List.getElem?_eq_some.mp h with ⟨hlt, _⟩
    exact hlt
  have e1 : blockSize pre + 1 + j - blockSize pre = j + 1 := by omega
  rw [entityBlocks_append, List.getElem?_append_right (by rw [entityBlocks_length]; omega),
    entityBlocks_length, e1, entityBlocks_cons, List.getElem?_cons_succ,
    List.getElem?_append_left (by rw [attrCells_length]; exact hj), attrCells_getElem?, h]
  simp only [Option.map_some', Nat.zero_add]

theorem split_at_getElem? {α : Type} (l : List α) (i : Nat) (x : α) (h : l[i]? = some x) :
    l = l.take i ++ x :: l.drop (i + 1) ∧ (l.take i).length = i := by
  rcases List.getElem?_eq_some.mp h with ⟨hlt, hx⟩
  refine ⟨?_, ?_⟩
  · rw [← hx, ← List.drop_eq_getElem_cons hlt, List.take_append_drop]
  · rw [List.length_take]
    omega

theorem foldl_relationshipStep :
    ∀ (rs : List Relationship) (st : ERGen),
      (rs.foldl relationshipStep st).cells =
        st.cells ++ relationshipCells st.entityCells st.cellID rs := by
  intro rs
  induction rs with
  | nil => intro st; simp [relationshipCells]
  | cons r rs ih =>
    intro st
    rw [List.foldl_cons, ih]
    unfold relationshipStep
    by_cases hb : mapGet st.entityCells r.From = [] ∨ mapGet st.entityCells r.To = []
    · have hb2 : bound st.entityCells r.From r.To = false := by simp [bound, hb]
      simp only [hb, if_true, relationshipCells, hb2, Bool.false_eq_true, if_false]
    · have hb2 : bound st.entityCells r.From r.To = true := by simp [bound, hb]
      simp only [hb, if_false, relationshipCells, hb2, if_true, relationshipCellAt,
        List.append_assoc, List.singleton_append]

theorem erCells_eq (d : ERDiagram) :
    erCells d =
      createDefaultCells ++ entityBlocks 0 2 d.Entities ++
        relationshipCells (entityBindings 2 d.Entities) (2 + blockSize d.Entities)
          d.Relationships := by
  unfold erCells
  rw [foldl_relationshipStep, foldl_entityStep d.Entities ERGen.init 0 rfl rfl]
  simp [ERGen.init]

theorem erCells_block (d : ERDiagram) (n : Nat) (h : n < blockSize d.Entities) :
    (erCells d)[2 + n]? = (entityBlocks 0 2 d.Entities)[n]? := by
  have hl : createDefaultCells.length = 2 := rfl
  rw [erCells_eq, List.getElem?_append_left (by
      rw [List.length_append, entityBlocks_length, hl]; omega),
    List.getElem?_append_right (by rw [hl]; omega), hl, Nat.add_sub_cancel_left]

theorem blockSize_take_lt (es : List Entity) (i : Nat) (e : Entity) (h : es[i]? = some e) :
    blockSize (es.take i) + 1 + e.Attributes.length ≤ blockSize es ∧
    blockSize (es.take i) = i + ((es.take i).map (fun x => x.Attributes.length)).sum := by
  obtain ⟨hs, hl⟩ := split_at_getElem? es i e h
  refine ⟨?_, ?_⟩
  · have := congrArg blockSize hs
    rw [blockSize_append, blockSize_cons] at this
    omega
  · simp only [blockSize, hl]

theorem erCells_header (d : ERDiagram) (i : Nat) (e : Entity) (h : d.Entities[i]? = some e) :
    (erCells d)[2 + blockSize (d.Entities.take i)]? =
      some (headerCellAt i (2 + blockSize (d.Entities.take i)) e) := by
  obtain ⟨hs, hl⟩ := split_at_getElem? d.Entities i e h
  have h1 := entityBlocks_header (d.Entities.take i) e (d.Entities.drop (i + 1)) 0 2
  rw [← hs, hl, Nat.zero_add] at h1
  rw [erCells_block d _ (by have := (blockSize_take_lt _ i e h).1; omega), h1]

theorem erCells_attr (d : ERDiagram) (i : Nat) (e : Entity) (h : d.Entities[i]? = some e)
    (j : Nat) (a : Attribute) (ha : e.Attributes[j]? = some a) :
    (erCells d)[2 + blockSize (d.Entities.take i) + 1 + j]? =
      some (attrCellAt (headerID (2 + blockSize (d.Entities.take i))) (50 + (i / 3) * 300) j
        (2 + blockSize (d.Entities.take i) + 1 + j) a) := by
  obtain ⟨hs, hl⟩ := split_at_getElem? d.Entities i e h
  have hj : j < e.Attributes.length := by
    rcases List.getElem?_eq_some.mp ha with ⟨hlt, _⟩
    exact hlt
  have h1 := entityBlocks_attr (d.Entities.take i) e (d.Entities.drop (i + 1)) 0 2 j a ha
  rw [← hs, hl, Nat.zero_add] at h1
  have e1 : 2 + blockSize (d.Entities.take i) + 1 + j =
      2 + (blockSize (d.Entities.take i) + 1 + j) := by omega
  rw [e1, erCells_block d _ (by have := (blockSize_take_lt _ i e h).1; omega), h1, e1]

/-- C23: `GenerateERDrawIOXML` places the entities on a grid of 3 columns, in the
order of declaration, row by row.  For every ER diagram and every index `i`, the
header cell of the entity number `i` (the cell after the two structural cells, the
`i` headers and the attribute cells of the entities before it) has the name of the
entity as its label, `x = 50 + (i mod 3) * 300`, `y = 50 + (i div 3) * 300`, the
width 200 and the height `30 + 20 * (number of attributes of the entity)`. -/
theorem entity_header_on_grid (d : ERDiagram) (i : Nat) (e : Entity)
    (h : d.Entities[i]? = some e) :
    (erCells d)[2 + i + ((d.Entities.take i).map (fun x => x.Attributes.length)).sum]? =
      some
        { ID := "entity_header_".toList ++
            itoa (2 + i + ((d.Entities.take i).map (fun x => x.Attributes.length)).sum)
          Value := e.Name
          Style := entityStyle
          Vertex := "1".toList
          Parent := "1".toList
          Geometry := some
            { X := some (50 + (i % 3) * 300)
              Y := some (50 + (i / 3) * 300)
              Width := some 200
              Height := some (30 + 20 * e.Attributes.length)
              As := "geometry".toList } } := by
  have h1 := erCells_header d i e h
  rw [(blockSize_take_lt _ i e h).2, ← Nat.add_assoc] at h1
  rw [h1]
  rfl

/-- Witness of C23: the theorem `entity_header_on_grid` at the fourth of four
entities, which opens the second row of the grid. -/
theorem entity_header_on_grid_witness :
    (erCells
      { Entities :=
          [{ Name := "A".toList,
             Attributes := [{ Name := "id".toList, Typ := "int".toList, IsPK := true }] },
           { Name := "B".toList, Attributes := [] },
           { Name := "C".toList, Attributes := [] },
           { Name := "D".toList,
             Attributes := [{ Name := "x".toList, Typ := "int".toList },
                            { Name := "y".toList, Typ := "int".toList }] }]
        Relationships := [] })[6]? =
      some
        { ID := "entity_header_6".toList
          Value := "D".toList
          Style := entityStyle
          Vertex := "1".toList
          Parent := "1".toList
          Geometry := some
            { X := some 50
              Y := some 350
              Width := some 200
              Height := some 70
              As := "geometry".toList } } :=
  entity_header_on_grid
    { Entities :=
        [{ Name := "A".toList,
           Attributes := [{ Name := "id".toList, Typ := "int".toList, IsPK := true }] },
         { Name := "B".toList, Attributes := [] },
         { Name := "C".toList, Attributes := [] },
         { Name := "D".toList,
           Attributes := [{ Name := "x".toList, Typ := "int".toList },
                          { Name := "y".toList, Typ := "int".toList }] }]
      Relationships := [] }
    3
    { Name := "D".toList,
      Attributes := [{ Name := "x".toList, Typ := "int".toList },
                     { Name := "y".toList, Typ := "int".toList }] }
    rfl

/-! ## The generator: the attribute cells -/

theorem relationshipCells_parent (m : List (List Char × List Char)) :
    ∀ (rs : List Relationship) (cellID : Nat) (c : MxCell),
      c ∈ relationshipCells m cellID rs → c.Parent = "1".toList := by
  intro rs
  induction rs with
  | nil => intro cellID c hc; simp [relationshipCells] at hc
  | cons r rs ih =>
    intro cellID c hc
    rw [relationshipCells] at hc
    split at hc
    · rcases List.mem_cons.mp hc with h | h
      · rw [h]; rfl
      · exact ih _ c h
    · exact ih _ c hc

theorem erCells_after_block (d : ERDiagram) (i : Nat) (e : Entity)
    (h : d.Entities[i]? = some e) (c : MxCell)
    (hc : (erCells d)[2 + blockSize (d.Entities.take i) + 1 + e.Attributes.length]? = some c) :
    c.Parent = "1".toList := by
  obtain ⟨hs, hl⟩ := split_at_getElem? d.Entities i e h
  have e1 : 2 + blockSize (d.Entities.take i) + 1 + e.Attributes.length =
      2 + (blockSize (d.Entities.take i) + 1 + e.Attributes.length) := by omega
  rw [e1] at hc
  cases hp : d.Entities.drop (i + 1) with
  | nil =>
    rw [hp] at hs
    have hb : blockSize d.Entities =
        blockSize (d.Entities.take i) + 1 + e.Attributes.length := by
      have := congrArg blockSize hs
      rw [blockSize_append, blockSize_cons] at this
      simp only [blockSize, List.length_nil, List.map_nil, List.sum_nil] at this
      simp only [blockSize]
      omega
    have hl2 : createDefaultCells.length = 2 := rfl
    rw [← hb, erCells_eq, List.getElem?_append_right (by
      rw [List.length_append, entityBlocks_length, hl2]), List.length_append,
      entityBlocks_length, hl2, Nat.sub_self] at hc
    exact relationshipCells_parent _ _ _ c (List.getElem?_mem hc)
  | cons e2 post =>
    rw [hp] at hs
    have hs2 : d.Entities = (d.Entities.take i ++ [e]) ++ e2 :: post := by
      rw [List.append_assoc]
      exact hs
    have h1 := entityBlocks_header (d.Entities.take i ++ [e]) e2 post 0 2
    rw [← hs2] at h1
    have hb : blockSize (d.Entities.take i ++ [e]) =
        blockSize (d.Entities.take i) + 1 + e.Attributes.length := by
      rw [blockSize_append, blockSize_cons]
      simp only [blockSize, List.length_nil, List.map_nil, List.sum_nil]
      omega
    have hb2 : blockSize d.Entities =
        blockSize (d.Entities.take i ++ [e]) + (1 + e2.Attributes.length + blockSize post) := by
      have := congrArg blockSize hs2
      rw [blockSize_append, blockSize_cons] at this
      exact this
    rw [erCells_block d _ (by omega), ← hb, h1] at hc
    rw [← Option.some.inj hc]
    rfl

/-- C26: for every entity, `GenerateERDrawIOXML` puts one child cell for each
attribute right after the header cell of the entity, in the order of declaration: the
cell `1 + j` places after the header is the cell of the attribute number `j`, a
vertex whose parent is the identifier of the header cell, with
`y = (y of the header) + 30 + 20 * j`, the width 200, the height 20 and no `x`; the
cell after the last attribute cell, when there is one, is not a child of the header
(its parent is the layer `1`). -/
theorem attribute_cells_stacked (d : ERDiagram) (i : Nat) (e : Entity)
    (h : d.Entities[i]? = some e) :
    (∀ (j : Nat) (a : Attribute), e.Attributes[j]? = some a →
      (erCells d)[2 + i + ((d.Entities.take i).map (fun x => x.Attributes.length)).sum
          + 1 + j]? =
        some
          { ID := "attr_".toList ++
              itoa (2 + i + ((d.Entities.take i).map (fun x => x.Attributes.length)).sum
                + 1 + j)
            Value := attrText a
            Style := attributeStyle
            Vertex := "1".toList
            Parent := "entity_header_".toList ++
              itoa (2 + i + ((d.Entities.take i).map (fun x => x.Attributes.length)).sum)
            Geometry := some
              { X := none
                Y := some (50 + (i / 3) * 300 + 30 + 20 * j)
                Width := some 200
                Height := some 20
                As := "geometry".toList } }) ∧
    (∀ c : MxCell,
      (erCells d)[2 + i + ((d.Entities.take i).map (fun x => x.Attributes.length)).sum
          + 1 + e.Attributes.length]? = some c →
      c.Parent = "1".toList) := by
  have hb := (blockSize_take_lt _ i e h).2
  refine ⟨?_, ?_⟩
  · intro j a ha
    have h1 := erCells_attr d i e h j a ha
    rw [hb, ← Nat.add_assoc] at h1
    rw [h1]
    rfl
  · intro c hc
    have h1 := erCells_after_block d i e h c
    rw [hb, ← Nat.add_assoc] at h1
    exact h1 hc

/-- Witness of C26: the theorem `attribute_cells_stacked` at the fourth of four
entities and its second attribute. -/
theorem attribute_cells_stacked_witness :
    (erCells
      { Entities :=
          [{ Name := "A".toList,
             Attributes := [{ Name := "id".toList, Typ := "int".toList, IsPK := true }] },
           { Name := "B".toList, Attributes := [] },
           { Name := "C".toList, Attributes := [] },
           { Name := "D".toList,
             Attributes := [{ Name := "x".toList, Typ := "int".toList },
                            { Name := "y".toList, Typ := "int".toList }] }]
        Relationships := [] })[8]? =
      some
        { ID := "attr_8".toList
          Value := "y: int".toList
          Style := attributeStyle
          Vertex := "1".toList
          Parent := "entity_header_6".toList
          Geometry := some
            { X := none
              Y := some 400
              Width := some 200
              Height := some 20
              As := "geometry".toList } } :=
  (attribute_cells_stacked
    { Entities :=
        [{ Name := "A".toList,
           Attributes := [{ Name := "id".toList, Typ := "int".toList, IsPK := true }] },
         { Name := "B".toList, Attributes := [] },
         { Name := "C".toList, Attributes := [] },
         { Name := "D".toList,
           Attributes := [{ Name := "x".toList, Typ := "int".toList },
                          { Name := "y".toList, Typ := "int".toList }] }]
      Relationships := [] }
    3
    { Name := "D".toList,
      Attributes := [{ Name := "x".toList, Typ := "int".toList },
                     { Name := "y".toList, Typ := "int".toList }] }
    rfl).1 1 { Name := "y".toList, Typ := "int".toList } rfl

/-! ## The generator: the label of an attribute -/

theorem attrText_eq (a : Attribute) :
    attrText a =
      (if a.IsFK then linkPrefix else []) ++ (if a.IsPK then keyPrefix else []) ++
        (a.Name ++ ": ".toList ++ a.Typ) ++
        (if a.IsUnique then " (UK)".toList else []) ++
        (if a.IsNotNull then " (NN)".toList else []) := by
  rcases a with ⟨n, t, pk, fk, uk, nn⟩
  cases pk <;> cases fk <;> cases uk <;> cases nn <;>
    simp only [attrText, if_true, if_false, Bool.false_eq_true, List.nil_append,
      List.append_nil, List.append_assoc]

/-- C24: for every attribute of every entity, the label of its cell has the form
`P ++ <name>: <type> ++ S`.  The suffix `S` is ` (UK)` when `IsUnique`, followed by
` (NN)` when `IsNotNull`, each on its own and in this order, whatever the prefixes.
The prefix `P` is empty when neither `IsPK` nor `IsFK` is set, the key prefix when
only `IsPK` is, the link prefix when only `IsFK` is, and the link prefix followed by
the key prefix when both are (`keyPrefix` and `linkPrefix` are the two string
literals of the source). -/
theorem attribute_label_form (d : ERDiagram) (i : Nat) (e : Entity)
    (h : d.Entities[i]? = some e) (j : Nat) (a : Attribute) (ha : e.Attributes[j]? = some a) :
    ∃ c : MxCell,
      (erCells d)[2 + i + ((d.Entities.take i).map (fun x => x.Attributes.length)).sum
          + 1 + j]? = some c ∧
      c.Value =
        (if a.IsFK then linkPrefix else []) ++ (if a.IsPK then keyPrefix else []) ++
          (a.Name ++ ": ".toList ++ a.Typ) ++
          (if a.IsUnique then " (UK)".toList else []) ++
          (if a.IsNotNull then " (NN)".toList else []) := by
  have hb := (blockSize_take_lt _ i e h).2
  have h1 := erCells_attr d i e h j a ha
  rw [hb, ← Nat.add_assoc] at h1
  exact ⟨_, h1, attrText_eq a⟩

/-- Witness of C24: the theorem `attribute_label_form` at an attribute with the four
flags set. -/
theorem attribute_label_form_witness :
    ∃ c : MxCell,
      (erCells
        { Entities :=
            [{ Name := "A".toList,
               Attributes :=
                 [{ Name := "id".toList, Typ := "int".toList, IsPK := true, IsFK := true,
                    IsUnique := true, IsNotNull := true }] }]
          Relationships := [] })[3]? = some c ∧
      c.Value = linkPrefix ++ keyPrefix ++ "id: int (UK) (NN)".toList :=
  attribute_label_form
    { Entities :=
        [{ Name := "A".toList,
           Attributes :=
             [{ Name := "id".toList, Typ := "int".toList, IsPK := true, IsFK := true,
                IsUnique := true, IsNotNull := true }] }]
      Relationships := [] }
    0
    { Name := "A".toList,
      Attributes :=
        [{ Name := "id".toList, Typ := "int".toList, IsPK := true, IsFK := true,
           IsUnique := true, IsNotNull := true }] }
    rfl 0
    { Name := "id".toList, Typ := "int".toList, IsPK := true, IsFK := true,
      IsUnique := true, IsNotNull := true }
    rfl

theorem not_mem_ite_of (g : Char) (b : Bool) (l : List Char) (h : g ∉ l) :
    g ∉ (if b then l else []) := by
  cases b
  · simp
  · simpa using h

theorem glyph_not_mem_attrText (g : Char) (a : Attribute) (hw : isWordChar g = false)
    (hk : g ∉ keyPrefix) (hl : g ∉ linkPrefix) (h1 : g ∉ ": ".toList)
    (h2 : g ∉ " (UK)".toList) (h3 : g ∉ " (NN)".toList)
    (hn : ∀ c ∈ a.Name, isWordChar c = true) (ht : ∀ c ∈ a.Typ, isWordChar c = true) :
    g ∉ attrText a := by
  have wn : g ∉ a.Name := fun hm => by
    have := hn g hm
    rw [hw] at this
    exact Bool.noConfusion this
  have wt : g ∉ a.Typ := fun hm => by
    have := ht g hm
    rw [hw] at this
    exact Bool.noConfusion this
  rw [attrText_eq]
  simp only [List.mem_append, not_or]
  exact ⟨⟨⟨⟨not_mem_ite_of g _ _ hl, not_mem_ite_of g _ _ hk⟩, ⟨wn, h1⟩, wt⟩,
    not_mem_ite_of g _ _ h2⟩, not_mem_ite_of g _ _ h3⟩

/-- C25 fails on the code: the two prefixes of the source are not the glyphs.  The
label of the PK-only attribute `id: int` is the characters U+00F0, U+0178, U+201D,
U+2018 followed by ` id: int`, not `🔑 id: int`; the label of the FK-only attribute
`user_id: int` is U+00F0, U+0178, U+201D, U+2014 followed by ` user_id: int`, not
`🔗 user_id: int`; and for every attribute whose name and type consist of word
characters, whatever its flags, the label contains neither the key glyph U+1F511 nor
the link glyph U+1F517. -/
theorem attribute_label_has_no_glyph :
    attrText { Name := "id".toList, Typ := "int".toList, IsPK := true } =
      "ðŸ”‘ id: int".toList ∧
    attrText { Name := "id".toList, Typ := "int".toList, IsPK := true } ≠
      "🔑 id: int".toList ∧
    attrText { Name := "user_id".toList, Typ := "int".toList, IsFK := true } =
      "ðŸ”— user_id: int".toList ∧
    attrText { Name := "user_id".toList, Typ := "int".toList, IsFK := true } ≠
      "🔗 user_id: int".toList ∧
    ∀ a : Attribute, (∀ c ∈ a.Name, isWordChar c = true) →
      (∀ c ∈ a.Typ, isWordChar c = true) →
      Char.ofNat 0x1F511 ∉ attrText a ∧ Char.ofNat 0x1F517 ∉ attrText a := by
  refine ⟨by decide, by decide, by decide, by decide, ?_⟩
  intro a hn ht
  exact ⟨glyph_not_mem_attrText _ a (by decide) (by decide) (by decide) (by decide)
      (by decide) (by decide) hn ht,
    glyph_not_mem_attrText _ a (by decide) (by decide) (by decide) (by decide)
      (by decide) (by decide) hn ht⟩

/-! ## The generator: the map of the header cells -/

theorem mapGet_cons (k v : List Char) (m : List (List Char × List Char)) (key : List Char) :
    mapGet ((k, v) :: m) key = if key = k then v else mapGet m key := rfl

theorem mapGet_append (m1 m2 : List (List Char × List Char)) (key : List Char)
    (hv : ∀ q ∈ m1, q.2 ≠ []) :
    mapGet (m1 ++ m2) key = if mapGet m1 key = [] then mapGet m2 key else mapGet m1 key := by
  induction m1 with
  | nil => simp [mapGet]
  | cons q m1 ih =>
    rcases q with ⟨k, v⟩
    have hv1 : v ≠ [] := hv (k, v) (by simp)
    have ih2 := ih (fun q hq => hv q (by simp [hq]))
    rw [List.cons_append, mapGet_cons, mapGet_cons]
    by_cases hk : key = k
    · simp only [hk, if_true, hv1, if_false]
    · simp only [hk, if_false, ih2]

theorem headerID_ne_nil (n : Nat) : headerID n ≠ [] := by
  simp [headerID]

theorem entityBindings_values :
    ∀ (es : List Entity) (cellID : Nat), ∀ q ∈ entityBindings cellID es, q.2 ≠ [] := by
  intro es
  induction es with
  | nil => intro cellID q hq; simp [entityBindings] at hq
  | cons e es ih =>
    intro cellID q hq
    rw [entityBindings_cons, List.mem_append] at hq
    rcases hq with hq | hq
    · exact ih _ q hq
    · simp only [List.mem_singleton] at hq
      rw [hq]
      exact headerID_ne_nil _

theorem mapGet_entityBindings_eq_nil :
    ∀ (es : List Entity) (cellID : Nat) (key : List Char),
      mapGet (entityBindings cellID es) key = [] ↔ key ∉ es.map (fun e => e.Name) := by
  intro es
  induction es with
  | nil => intro cellID key; simp [entityBindings, mapGet]
  | cons e es ih =>
    intro cellID key
    rw [entityBindings_cons, mapGet_append _ _ _ (entityBindings_values es _)]
    have hh := headerID_ne_nil cellID
    by_cases h1 : mapGet (entityBindings (cellID + 1 + e.Attributes.length) es) key = []
    · have h2 := (ih _ key).mp h1
      by_cases hk : key = e.Name
      · subst hk
        simp [h1, mapGet, hh]
      · simp only [h1, if_true, mapGet, hk, if_false, List.map_cons, List.mem_cons, h2,
          or_self, not_false_eq_true]
    · have h2 : ¬ key ∉ es.map (fun e => e.Name) := fun hn => h1 ((ih _ key).mpr hn)
      simp only [h1, if_false, List.map_cons, List.mem_cons, false_iff, not_not]
      exact Or.inr (not_not.mp h2)

theorem mapGet_entityBindings_of_nodup (pre : List Entity) (e : Entity) (post : List Entity)
    (cellID : Nat) (hnd : ((pre ++ e :: post).map (fun x => x.Name)).Nodup) :
    mapGet (entityBindings cellID (pre ++ e :: post)) e.Name =
      headerID (cellID + blockSize pre) := by
  have hpost : e.Name ∉ post.map (fun x => x.Name) := by
    rw [List.map_append, List.map_cons] at hnd
    have h2 := (List.nodup_append.mp hnd).2.1
    exact (List.nodup_cons.mp h2).1
  have h1 := (mapGet_entityBindings_eq_nil post
    (cellID + blockSize pre + 1 + e.Attributes.length) e.Name).mpr hpost
  rw [entityBindings_append, entityBindings_cons, List.append_assoc,
    mapGet_append _ _ _ (entityBindings_values post _), h1, if_pos rfl]
  simp [mapGet]

theorem bound_entityBindings (es : List Entity) (cellID : Nat) (src dst : List Char) :
    bound (entityBindings cellID es) src dst =
      decide (src ∈ es.map (fun e => e.Name) ∧ dst ∈ es.map (fun e => e.Name)) := by
  have h1 := mapGet_entityBindings_eq_nil es cellID src
  have h2 := mapGet_entityBindings_eq_nil es cellID dst
  unfold bound
  by_cases a : src ∈ es.map (fun e => e.Name) <;> by_cases b : dst ∈ es.map (fun e => e.Name)
  · have a2 : ¬ mapGet (entityBindings cellID es) src = [] := fun h => (h1.mp h) a
    have b2 : ¬ mapGet (entityBindings cellID es) dst = [] := fun h => (h2.mp h) b
    simp [a, b, a2, b2]
  · simp [a, b, h2.mpr b]
  · simp [a, b, h1.mpr a]
  · simp [a, b, h1.mpr a]

/-! ## The generator: the relationship cells -/

theorem relationshipCells_length (m : List (List Char × List Char)) :
    ∀ (rs : List Relationship) (cellID : Nat),
      (relationshipCells m cellID rs).length =
        (rs.filter (fun r => bound m r.From r.To)).length := by
  intro rs
  induction rs with
  | nil => intro cellID; rfl
  | cons r rs ih =>
    intro cellID
    by_cases hb : bound m r.From r.To = true
    · simp [relationshipCells, hb, ih]
    · simp [relationshipCells, hb, ih]

theorem relationshipCells_append (m : List (List Char × List Char)) :
    ∀ (rs ss : List Relationship) (cellID : Nat),
      relationshipCells m cellID (rs ++ ss) =
        relationshipCells m cellID rs ++
          relationshipCells m (cellID + (rs.filter (fun r => bound m r.From r.To)).length)
            ss := by
  intro rs
  induction rs with
  | nil => intro ss cellID; simp [relationshipCells]
  | cons r rs ih =>
    intro ss cellID
    by_cases hb : bound m r.From r.To = true
    · have e : cellID + 1 + (rs.filter (fun r => bound m r.From r.To)).length =
          cellID + ((rs.filter (fun r => bound m r.From r.To)).length + 1) := by omega
      simp [relationshipCells, hb, ih, e]
    · simp [relationshipCells, hb, ih]

theorem relationshipCells_filter (m : List (List Char × List Char)) :
    ∀ (rs : List Relationship) (cellID : Nat),
      relationshipCells m cellID (rs.filter (fun r => bound m r.From r.To)) =
        relationshipCells m cellID rs := by
  intro rs
  induction rs with
  | nil => intro cellID; rfl
  | cons r rs ih =>
    intro cellID
    by_cases hb : bound m r.From r.To = true
    · simp [relationshipCells, hb, ih]
    · simp [relationshipCells, hb, ih]

theorem erCells_relationship (d : ERDiagram) (k : Nat) (r : Relationship)
    (hr : d.Relationships[k]? = some r)
    (hb : bound (entityBindings 2 d.Entities) r.From r.To = true) :
    (erCells d)[2 + blockSize d.Entities +
        ((d.Relationships.take k).filter
          (fun r => bound (entityBindings 2 d.Entities) r.From r.To)).length]? =
      some (relationshipCellAt (entityBindings 2 d.Entities)
        (2 + blockSize d.Entities +
          ((d.Relationships.take k).filter
            (fun r => bound (entityBindings 2 d.Entities) r.From r.To)).length) r) := by
  obtain ⟨hs, _⟩ := split_at_getElem? d.Relationships k r hr
  have hl2 : createDefaultCells.length = 2 := rfl
  have h1 := relationshipCells_append (entityBindings 2 d.Entities) (d.Relationships.take k)
    (r :: d.Relationships.drop (k + 1)) (2 + blockSize d.Entities)
  rw [← hs] at h1
  rw [erCells_eq, List.getElem?_append_right (by
      rw [List.length_append, entityBlocks_length, hl2]; omega),
    List.length_append, entityBlocks_length, hl2, Nat.add_sub_cancel_left, h1,
    List.getElem?_append_right (by rw [relationshipCells_length]),
    relationshipCells_length, Nat.sub_self, relationshipCells, if_pos hb,
    List.getElem?_cons_zero]

theorem filter_bound_entityBindings (es : List Entity) (cellID : Nat)
    (rs : List Relationship) :
    rs.filter (fun r => bound (entityBindings cellID es) r.From r.To) =
      rs.filter (fun r => decide (r.From ∈ es.map (fun e => e.Name) ∧
        r.To ∈ es.map (fun e => e.Name))) := by
  apply List.filter_congr
  intro r _
  exact bound_entityBindings es cellID r.From r.To

theorem mapGet_entityBindings_at (es : List Entity) (i : Nat) (e : Entity)
    (h : es[i]? = some e) (hnd : (es.map (fun x => x.Name)).Nodup) :
    mapGet (entityBindings 2 es) e.Name =
      "entity_header_".toList ++
        itoa (2 + i + ((es.take i).map (fun x => x.Attributes.length)).sum) := by
  obtain ⟨hs, hl⟩ := split_at_getElem? es i e h
  have h1 := mapGet_entityBindings_of_nodup (es.take i) e (es.drop (i + 1)) 2 (by
    rw [← hs]; exact hnd)
  rw [← hs, (blockSize_take_lt es i e h).2, ← Nat.add_assoc] at h1
  exact h1

/-- C27: for every ER diagram whose entity names are pairwise distinct and every
relationship whose `From` and `To` both name declared entities, `GenerateERDrawIOXML`
emits one edge cell (after the cells of the entities, in the order of the
relationships that are kept) with the label of the relationship, the parent `1`, the
header cell of the `From` entity as source, the header cell of the `To` entity as
target, and as style the fixed base style followed by
`startArrow=ERone;endArrow=ERone;` for `OneToOne`, `startArrow=ERone;endArrow=ERmany;`
for `OneToMany`, `startArrow=ERmany;endArrow=ERone;` for `ManyToOne`,
`startArrow=ERmany;endArrow=ERmany;` for `ManyToMany`, and by nothing for
`Identifying` and `NonIdentifying`. -/
theorem relationship_edge (d : ERDiagram)
    (hnd : (d.Entities.map (fun x => x.Name)).Nodup)
    (k : Nat) (r : Relationship) (hr : d.Relationships[k]? = some r)
    (i1 : Nat) (e1 : Entity) (h1 : d.Entities[i1]? = some e1) (hf : e1.Name = r.From)
    (i2 : Nat) (e2 : Entity) (h2 : d.Entities[i2]? = some e2) (ht : e2.Name = r.To) :
    (erCells d)[2 + d.Entities.length + (d.Entities.map (fun x => x.Attributes.length)).sum +
        ((d.Relationships.take k).filter
          (fun r => decide (r.From ∈ d.Entities.map (fun e => e.Name) ∧
            r.To ∈ d.Entities.map (fun e => e.Name)))).length]? =
      some
        { ID := "relationship_".toList ++
            itoa (2 + d.Entities.length + (d.Entities.map (fun x => x.Attributes.length)).sum +
              ((d.Relationships.take k).filter
                (fun r => decide (r.From ∈ d.Entities.map (fun e => e.Name) ∧
                  r.To ∈ d.Entities.map (fun e => e.Name)))).length)
          Value := r.Label
          Style := relationshipBaseStyle ++
            (match r.Typ with
              | .OneToOne => "startArrow=ERone;endArrow=ERone;".toList
              | .OneToMany => "startArrow=ERone;endArrow=ERmany;".toList
              | .ManyToOne => "startArrow=ERmany;endArrow=ERone;".toList
              | .ManyToMany => "startArrow=ERmany;endArrow=ERmany;".toList
              | .Identifying => []
              | .NonIdentifying => [])
          Edge := "1".toList
          Parent := "1".toList
          Source := "entity_header_".toList ++
            itoa (2 + i1 + ((d.Entities.take i1).map (fun x => x.Attributes.length)).sum)
          Target := "entity_header_".toList ++
            itoa (2 + i2 + ((d.Entities.take i2).map (fun x => x.Attributes.length)).sum)
          Geometry := some { As := "geometry".toList } } := by
  have m1 : r.From ∈ d.Entities.map (fun e => e.Name) := by
    rw [← hf]
    exact List.mem_map_of_mem _ (List.getElem?_mem h1)
  have m2 : r.To ∈ d.Entities.map (fun e => e.Name) := by
    rw [← ht]
    exact List.mem_map_of_mem _ (List.getElem?_mem h2)
  have hb : bound (entityBindings 2 d.Entities) r.From r.To = true := by
    rw [bound_entityBindings]
    exact decide_eq_true ⟨m1, m2⟩
  have h3 := erCells_relationship d k r hr hb
  rw [filter_bound_entityBindings] at h3
  have e0 : 2 + blockSize d.Entities =
      2 + d.Entities.length + (d.Entities.map (fun x => x.Attributes.length)).sum := by
    simp only [blockSize]; omega
  rw [e0] at h3
  rw [h3]
  have s1 := mapGet_entityBindings_at d.Entities i1 e1 h1 hnd
  have s2 := mapGet_entityBindings_at d.Entities i2 e2 h2 hnd
  rw [hf] at s1
  rw [ht] at s2
  simp only [relationshipCellAt, s1, s2]
  cases r.Typ <;> rfl

/-- Witness of C27: the theorem `relationship_edge` at the second relationship of a
diagram whose first relationship has an undeclared end. -/
theorem relationship_edge_witness :
    (erCells
      { Entities :=
          [{ Name := "USER".toList,
             Attributes := [{ Name := "id".toList, Typ := "int".toList, IsPK := true }] },
           { Name := "ORDER".toList, Attributes := [] }]
        Relationships :=
          [{ From := "USER".toList, To := "ITEM".toList, Typ := .OneToOne,
             FromCardinality := "||".toList, ToCardinality := "||".toList,
             Label := "has".toList },
           { From := "USER".toList, To := "ORDER".toList, Typ := .OneToMany,
             FromCardinality := "||".toList, ToCardinality := "o\x7b".toList,
             Label := "places".toList }] })[5]? =
      some
        { ID := "relationship_5".toList
          Value := "places".toList
          Style := relationshipBaseStyle ++ "startArrow=ERone;endArrow=ERmany;".toList
          Edge := "1".toList
          Parent := "1".toList
          Source := "entity_header_2".toList
          Target := "entity_header_4".toList
          Geometry := some { As := "geometry".toList } } :=
  relationship_edge
    { Entities :=
        [{ Name := "USER".toList,
           Attributes := [{ Name := "id".toList, Typ := "int".toList, IsPK := true }] },
         { Name := "ORDER".toList, Attributes := [] }]
      Relationships :=
        [{ From := "USER".toList, To := "ITEM".toList, Typ := .OneToOne,
           FromCardinality := "||".toList, ToCardinality := "||".toList,
           Label := "has".toList },
         { From := "USER".toList, To := "ORDER".toList, Typ := .OneToMany,
           FromCardinality := "||".toList, ToCardinality := "o\x7b".toList,
           Label := "places".toList }] }
    (by decide) 1
    { From := "USER".toList, To := "ORDER".toList, Typ := .OneToMany,
      FromCardinality := "||".toList, ToCardinality := "o\x7b".toList,
      Label := "places".toList }
    rfl 0
    { Name := "USER".toList,
      Attributes := [{ Name := "id".toList, Typ := "int".toList, IsPK := true }] }
    rfl rfl 1 { Name := "ORDER".toList, Attributes := [] } rfl rfl

/-! ## The generator: the participant cells -/

theorem participantBlocks_cons (i cellID : Nat) (p : Participant) (ps : List Participant) :
    participantBlocks i cellID (p :: ps) =
      participantCellAt i cellID p :: lifelineCellAt (cellID + 1) ::
        participantBlocks (i + 1) (cellID + 2) ps := rfl

theorem participantBindings_cons (cellID : Nat) (p : Participant) (ps : List Participant) :
    participantBindings cellID (p :: ps) =
      participantBindings (cellID + 2) ps ++ [(p.Name, participantID cellID)] := rfl

theorem participantLoop_eq :
    ∀ (ps : List Participant) (i : Nat) (st : SeqGen),
      participantLoop i ps st =
        { cells := st.cells ++ participantBlocks i st.cellID ps
          cellID := st.cellID + 2 * ps.length
          participantCells := participantBindings st.cellID ps ++ st.participantCells } := by
  intro ps
  induction ps with
  | nil => intro i st; simp [participantLoop, participantBlocks, participantBindings]
  | cons p ps ih =>
    intro i st
    rw [participantLoop, ih, participantBlocks_cons, participantBindings_cons]
    have e1 : 50 + i * 200 = 50 + 200 * i := by omega
    simp only [StartX, ParticipantSpacing, e1, ParticipantY, ParticipantWidth,
      ParticipantHeight, mapSet, participantCellAt,
      lifelineCellAt, participantID, List.append_assoc, List.singleton_append,
      List.length_cons, List.cons_append, List.nil_append, SeqGen.mk.injEq, true_and,
      and_true]
    omega

theorem participantBlocks_length :
    ∀ (ps : List Participant) (i cellID : Nat),
      (participantBlocks i cellID ps).length = 2 * ps.length := by
  intro ps
  induction ps with
  | nil => intro i cellID; rfl
  | cons p ps ih =>
    intro i cellID
    simp only [participantBlocks_cons, List.length_cons, ih]
    omega

theorem participantBlocks_append :
    ∀ (ps qs : List Participant) (i cellID : Nat),
      participantBlocks i cellID (ps ++ qs) =
        participantBlocks i cellID ps ++
          participantBlocks (i + ps.length) (cellID + 2 * ps.length) qs := by
  intro ps
  induction ps with
  | nil => intro qs i cellID; simp [participantBlocks]
  | cons p ps ih =>
    intro qs i cellID
    have e1 : i + 1 + ps.length = i + (p :: ps).length := by
      simp only [List.length_cons]; omega
    have e2 : cellID + 2 + 2 * ps.length = cellID + 2 * (p :: ps).length := by
      simp only [List.length_cons]; omega
    rw [List.cons_append, participantBlocks_cons, participantBlocks_cons, ih, e1, e2]
    simp only [List.cons_append]

theorem participantBindings_append :
    ∀ (ps qs : List Participant) (cellID : Nat),
      participantBindings cellID (ps ++ qs) =
        participantBindings (cellID + 2 * ps.length) qs ++ participantBindings cellID ps := by
  intro ps
  induction ps with
  | nil => intro qs cellID; simp [participantBindings]
  | cons p ps ih =>
    intro qs cellID
    have e2 : cellID + 2 + 2 * ps.length = cellID + 2 * (p :: ps).length := by
      simp only [List.length_cons]; omega
    rw [List.cons_append, participantBindings_cons, participantBindings_cons, ih, e2,
      List.append_assoc]

theorem foldl_messageStep :
    ∀ (ms : List Message) (st : SeqGen),
      (ms.foldl messageStep st).cells =
        st.cells ++ messageCells st.participantCells st.cellID ms := by
  intro ms
  induction ms with
  | nil => intro st; simp [messageCells]
  | cons msg ms ih =>
    intro st
    rw [List.foldl_cons, ih]
    unfold messageStep
    by_cases hb : mapGet st.participantCells msg.From = [] ∨
        mapGet st.participantCells msg.To = []
    · have hb2 : bound st.participantCells msg.From msg.To = false := by simp [bound, hb]
      simp only [hb, if_true, messageCells, hb2, Bool.false_eq_true, if_false]
    · have hb2 : bound st.participantCells msg.From msg.To = true := by simp [bound, hb]
      simp only [hb, if_false, messageCells, hb2, if_true, messageCellAt,
        List.append_assoc, List.singleton_append]

theorem sequenceCells_eq (d : SequenceDiagram) :
    sequenceCells d =
      createDefaultCells ++ participantBlocks 0 2 d.Participants ++
        messageCells (participantBindings 2 d.Participants) (2 + 2 * d.Participants.length)
          d.Messages := by
  unfold sequenceCells
  rw [foldl_messageStep, participantLoop_eq]
  simp [SeqGen.init]

theorem participantBlocks_at (pre : List Participant) (p : Participant)
    (post : List Participant) (i cellID : Nat) :
    (participantBlocks i cellID (pre ++ p :: post))[2 * pre.length]? =
      some (participantCellAt (i + pre.length) (cellID + 2 * pre.length) p) ∧
    (participantBlocks i cellID (pre ++ p :: post))[2 * pre.length + 1]? =
      some (lifelineCellAt (cellID + 2 * pre.length + 1)) := by
  have e1 : 2 * pre.length + 1 - 2 * pre.length = 1 := by omega
  refine ⟨?_, ?_⟩
  · rw [participantBlocks_append,
      List.getElem?_append_right (by rw [participantBlocks_length]),
      participantBlocks_length, Nat.sub_self, participantBlocks_cons, List.getElem?_cons_zero]
  · rw [participantBlocks_append,
      List.getElem?_append_right (by rw [participantBlocks_length]; omega),
      participantBlocks_length, e1, participantBlocks_cons, List.getElem?_cons_succ,
      List.getElem?_cons_zero]

theorem sequenceCells_block (d : SequenceDiagram) (n : Nat)
    (h : n < 2 * d.Participants.length) :
    (sequenceCells d)[2 + n]? = (participantBlocks 0 2 d.Participants)[n]? := by
  have hl : createDefaultCells.length = 2 := rfl
  rw [sequenceCells_eq, List.getElem?_append_left (by
      rw [List.length_append, participantBlocks_length, hl]; omega),
    List.getElem?_append_right (by rw [hl]; omega), hl, Nat.add_sub_cancel_left]

/-- C29: for every sequence diagram and every index `i`, `GenerateSequenceDrawIOXML`
emits for the participant number `i` a vertex cell labelled with the `Alias` of the
participant (not its `Name`) at `x = 50 + 200 * i`, `y = 50`, with the width 100 and
the height 50, and right after it one lifeline edge cell with the dashed style
`endArrow=none;dashed=1;html=1;`, without source and without target; the cells of the
participants follow the two structural cells in the order of declaration. -/
theorem participant_cells (d : SequenceDiagram) (i : Nat) (p : Participant)
    (h : d.Participants[i]? = some p) :
    (sequenceCells d)[2 + 2 * i]? =
      some
        { ID := "participant_".toList ++ itoa (2 + 2 * i)
          Value := p.Alias
          Style := "rounded=0;whiteSpace=wrap;html=1;".toList
          Vertex := "1".toList
          Parent := "1".toList
          Geometry := some
            { X := some (50 + 200 * i)
              Y := some 50
              Width := some 100
              Height := some 50
              As := "geometry".toList } } ∧
    (sequenceCells d)[2 + 2 * i + 1]? =
      some
        { ID := "lifeline_".toList ++ itoa (2 + 2 * i + 1)
          Value := []
          Style := "endArrow=none;dashed=1;html=1;".toList
          Vertex := []
          Edge := "1".toList
          Parent := "1".toList
          Source := []
          Target := []
          Geometry := some { As := "geometry".toList } } := by
  obtain ⟨hs, hl⟩ := split_at_getElem? d.Participants i p h
  have hlt : i < d.Participants.length := (List.getElem?_eq_some.mp h).1
  have h1 := participantBlocks_at (d.Participants.take i) p (d.Participants.drop (i + 1)) 0 2
  rw [← hs, hl, Nat.zero_add] at h1
  refine ⟨?_, ?_⟩
  · rw [sequenceCells_block d _ (by omega), h1.1]
    rfl
  · rw [Nat.add_assoc, sequenceCells_block d _ (by omega), h1.2]
    rfl

/-- Witness of C29: the theorem `participant_cells` at the second of two participants. -/
theorem participant_cells_witness :
    (sequenceCells
      { Participants :=
          [{ Name := "A".toList, Alias := "Alice".toList },
           { Name := "B".toList, Alias := "Bob".toList }]
        Messages := [] })[4]? =
      some
        { ID := "participant_4".toList
          Value := "Bob".toList
          Style := "rounded=0;whiteSpace=wrap;html=1;".toList
          Vertex := "1".toList
          Parent := "1".toList
          Geometry := some
            { X := some 250
              Y := some 50
              Width := some 100
              Height := some 50
              As := "geometry".toList } } :=
  (participant_cells
    { Participants :=
        [{ Name := "A".toList, Alias := "Alice".toList },
         { Name := "B".toList, Alias := "Bob".toList }]
      Messages := [] }
    1 { Name := "B".toList, Alias := "Bob".toList } rfl).1

/-! ## The generator: the message cells -/

theorem participantID_ne_nil (n : Nat) : participantID n ≠ [] := by
  simp [participantID]

theorem participantBindings_values :
    ∀ (ps : List Participant) (cellID : Nat), ∀ q ∈ participantBindings cellID ps, q.2 ≠ [] := by
  intro ps
  induction ps with
  | nil => intro cellID q hq; simp [participantBindings] at hq
  | cons p ps ih =>
    intro cellID q hq
    rw [participantBindings_cons, List.mem_append] at hq
    rcases hq with hq | hq
    · exact ih _ q hq
    · simp only [List.mem_singleton] at hq
      rw [hq]
      exact participantID_ne_nil _

theorem mapGet_participantBindings_eq_nil :
    ∀ (ps : List Participant) (cellID : Nat) (key : List Char),
      mapGet (participantBindings cellID ps) key = [] ↔ key ∉ ps.map (fun p => p.Name) := by
  intro ps
  induction ps with
  | nil => intro cellID key; simp [participantBindings, mapGet]
  | cons p ps ih =>
    intro cellID key
    rw [participantBindings_cons, mapGet_append _ _ _ (participantBindings_values ps _)]
    have hh := participantID_ne_nil cellID
    by_cases h1 : mapGet (participantBindings (cellID + 2) ps) key = []
    · have h2 := (ih _ key).mp h1
      by_cases hk : key = p.Name
      · subst hk
        simp [h1, mapGet, hh]
      · simp only [h1, if_true, mapGet, hk, if_false, List.map_cons, List.mem_cons, h2,
          or_self, not_false_eq_true]
    · have h2 : ¬ key ∉ ps.map (fun p => p.Name) := fun hn => h1 ((ih _ key).mpr hn)
      simp only [h1, if_false, List.map_cons, List.mem_cons, false_iff, not_not]
      exact Or.inr (not_not.mp h2)

theorem mapGet_participantBindings_last (pre : List Participant) (p : Participant)
    (post : List Participant) (cellID : Nat) (hpost : p.Name ∉ post.map (fun x => x.Name)) :
    mapGet (participantBindings cellID (pre ++ p :: post)) p.Name =
      participantID (cellID + 2 * pre.length) := by
  have h1 := (mapGet_participantBindings_eq_nil post (cellID + 2 * pre.length + 2)
    p.Name).mpr hpost
  rw [participantBindings_append, participantBindings_cons, List.append_assoc,
    mapGet_append _ _ _ (participantBindings_values post _), h1, if_pos rfl]
  simp [mapGet]

theorem bound_participantBindings (ps : List Participant) (cellID : Nat)
    (src dst : List Char) :
    bound (participantBindings cellID ps) src dst =
      decide (src ∈ ps.map (fun p => p.Name) ∧ dst ∈ ps.map (fun p => p.Name)) := by
  have h1 := mapGet_participantBindings_eq_nil ps cellID src
  have h2 := mapGet_participantBindings_eq_nil ps cellID dst
  unfold bound
  by_cases a : src ∈ ps.map (fun p => p.Name) <;> by_cases b : dst ∈ ps.map (fun p => p.Name)
  · have a2 : ¬ mapGet (participantBindings cellID ps) src = [] := fun h => (h1.mp h) a
    have b2 : ¬ mapGet (participantBindings cellID ps) dst = [] := fun h => (h2.mp h) b
    simp [a, b, a2, b2]
  · simp [a, b, h2.mpr b]
  · simp [a, b, h1.mpr a]
  · simp [a, b, h1.mpr a]

theorem messageCells_length (m : List (List Char × List Char)) :
    ∀ (ms : List Message) (cellID : Nat),
      (messageCells m cellID ms).length =
        (ms.filter (fun r => bound m r.From r.To)).length := by
  intro ms
  induction ms with
  | nil => intro cellID; rfl
  | cons r ms ih =>
    intro cellID
    by_cases hb : bound m r.From r.To = true
    · simp [messageCells, hb, ih]
    · simp [messageCells, hb, ih]

theorem messageCells_append (m : List (List Char × List Char)) :
    ∀ (ms ns : List Message) (cellID : Nat),
      messageCells m cellID (ms ++ ns) =
        messageCells m cellID ms ++
          messageCells m (cellID + (ms.filter (fun r => bound m r.From r.To)).length) ns := by
  intro ms
  induction ms with
  | nil => intro ns cellID; simp [messageCells]
  | cons r ms ih =>
    intro ns cellID
    by_cases hb : bound m r.From r.To = true
    · have e : cellID + 1 + (ms.filter (fun r => bound m r.From r.To)).length =
          cellID + ((ms.filter (fun r => bound m r.From r.To)).length + 1) := by omega
      simp [messageCells, hb, ih, e]
    · simp [messageCells, hb, ih]

theorem messageCells_filter (m : List (List Char × List Char)) :
    ∀ (ms : List Message) (cellID : Nat),
      messageCells m cellID (ms.filter (fun r => bound m r.From r.To)) =
        messageCells m cellID ms := by
  intro ms
  induction ms with
  | nil => intro cellID; rfl
  | cons r ms ih =>
    intro cellID
    by_cases hb : bound m r.From r.To = true
    · simp [messageCells, hb, ih]
    · simp [messageCells, hb, ih]

theorem sequenceCells_message (d : SequenceDiagram) (k : Nat) (msg : Message)
    (hm : d.Messages[k]? = some msg)
    (hb : bound (participantBindings 2 d.Participants) msg.From msg.To = true) :
    (sequenceCells d)[2 + 2 * d.Participants.length +
        ((d.Messages.take k).filter
          (fun r => bound (participantBindings 2 d.Participants) r.From r.To)).length]? =
      some (messageCellAt (participantBindings 2 d.Participants)
        (2 + 2 * d.Participants.length +
          ((d.Messages.take k).filter
            (fun r => bound (participantBindings 2 d.Participants) r.From r.To)).length)
        msg) := by
  obtain ⟨hs, _⟩ := split_at_getElem? d.Messages k msg hm
  have hl2 : createDefaultCells.length = 2 := rfl
  have h1 := messageCells_append (participantBindings 2 d.Participants) (d.Messages.take k)
    (msg :: d.Messages.drop (k + 1)) (2 + 2 * d.Participants.length)
  rw [← hs] at h1
  rw [sequenceCells_eq, List.getElem?_append_right (by
      rw [List.length_append, participantBlocks_length, hl2]; omega),
    List.length_append, participantBlocks_length, hl2, Nat.add_sub_cancel_left, h1,
    List.getElem?_append_right (by rw [messageCells_length]),
    messageCells_length, Nat.sub_self, messageCells, if_pos hb,
    List.getElem?_cons_zero]

theorem filter_bound_participantBindings (ps : List Participant) (cellID : Nat)
    (ms : List Message) :
    ms.filter (fun r => bound (participantBindings cellID ps) r.From r.To) =
      ms.filter (fun r => decide (r.From ∈ ps.map (fun p => p.Name) ∧
        r.To ∈ ps.map (fun p => p.Name))) := by
  apply List.filter_congr
  intro r _
  exact bound_participantBindings ps cellID r.From r.To

theorem mapGet_participantBindings_at (ps : List Participant) (i : Nat) (p : Participant)
    (h : ps[i]? = some p) (hlast : p.Name ∉ (ps.drop (i + 1)).map (fun x => x.Name)) :
    mapGet (participantBindings 2 ps) p.Name = "participant_".toList ++ itoa (2 + 2 * i) := by
  obtain ⟨hs, hl⟩ := split_at_getElem? ps i p h
  have h1 := mapGet_participantBindings_last (ps.take i) p (ps.drop (i + 1)) 2 hlast
  rw [← hs, hl] at h1
  exact h1

theorem messageStyle_default (t : Int) (h1 : t ≠ 1) (h2 : t ≠ 2) (h3 : t ≠ 3) :
    messageStyle t = "endArrow=classic;html=1;".toList := by
  unfold messageStyle
  simp only [MessageType.toInt]
  rw [if_neg h1, if_neg h2, if_neg h3]
  split <;> rfl

/-- C30: for every message whose two ends are participants, the edge cell that
`GenerateSequenceDrawIOXML` emits (after the cells of the participants, in the order
of the messages that are kept) has the text of the message as label, the cells of the
`From` and `To` participants as source and target (of the last participant declared
with the name, when a name is declared more than once), and a style selected by the
type: `endArrow=classic;html=1;` for `SolidArrow`, `endArrow=classic;html=1;dashed=1;`
for `DashedArrow`, `endArrow=block;endFill=1;html=1;` for `SolidArrowWithX`,
`endArrow=block;endFill=1;html=1;dashed=1;` for `DashedArrowWithX`, four pairwise
distinct texts, and the style of `SolidArrow` for every other value of the type: for
`Note` and for every integer outside the enumeration. -/
theorem message_edge (d : SequenceDiagram) (k : Nat) (msg : Message)
    (hm : d.Messages[k]? = some msg)
    (i1 : Nat) (p1 : Participant) (h1 : d.Participants[i1]? = some p1)
    (hf : p1.Name = msg.From)
    (hl1 : msg.From ∉ (d.Participants.drop (i1 + 1)).map (fun x => x.Name))
    (i2 : Nat) (p2 : Participant) (h2 : d.Participants[i2]? = some p2)
    (ht : p2.Name = msg.To)
    (hl2 : msg.To ∉ (d.Participants.drop (i2 + 1)).map (fun x => x.Name)) :
    (sequenceCells d)[2 + 2 * d.Participants.length +
        ((d.Messages.take k).filter
          (fun r => decide (r.From ∈ d.Participants.map (fun p => p.Name) ∧
            r.To ∈ d.Participants.map (fun p => p.Name)))).length]? =
      some
        { ID := "message_".toList ++
            itoa (2 + 2 * d.Participants.length +
              ((d.Messages.take k).filter
                (fun r => decide (r.From ∈ d.Participants.map (fun p => p.Name) ∧
                  r.To ∈ d.Participants.map (fun p => p.Name)))).length)
          Value := msg.Text
          Style :=
            (match msg.Typ with
              | .SolidArrow => "endArrow=classic;html=1;".toList
              | .DashedArrow => "endArrow=classic;html=1;dashed=1;".toList
              | .SolidArrowWithX => "endArrow=block;endFill=1;html=1;".toList
              | .DashedArrowWithX => "endArrow=block;endFill=1;html=1;dashed=1;".toList
              | .Note => "endArrow=classic;html=1;".toList)
          Edge := "1".toList
          Parent := "1".toList
          Source := "participant_".toList ++ itoa (2 + 2 * i1)
          Target := "participant_".toList ++ itoa (2 + 2 * i2)
          Geometry := some { As := "geometry".toList } } ∧
    (∀ t : Int, t ≠ MessageType.DashedArrow.toInt → t ≠ MessageType.SolidArrowWithX.toInt →
      t ≠ MessageType.DashedArrowWithX.toInt →
      messageStyle t = "endArrow=classic;html=1;".toList) ∧
    ["endArrow=classic;html=1;".toList, "endArrow=classic;html=1;dashed=1;".toList,
      "endArrow=block;endFill=1;html=1;".toList,
      "endArrow=block;endFill=1;html=1;dashed=1;".toList].Nodup := by
  refine ⟨?_, fun t a b c => messageStyle_default t a b c, by decide⟩
  have m1 : msg.From ∈ d.Participants.map (fun p => p.Name) := by
    rw [← hf]
    exact List.mem_map_of_mem _ (List.getElem?_mem h1)
  have m2 : msg.To ∈ d.Participants.map (fun p => p.Name) := by
    rw [← ht]
    exact List.mem_map_of_mem _ (List.getElem?_mem h2)
  have hb : bound (participantBindings 2 d.Participants) msg.From msg.To = true := by
    rw [bound_participantBindings]
    exact decide_eq_true ⟨m1, m2⟩
  have h3 := sequenceCells_message d k msg hm hb
  rw [filter_bound_participantBindings] at h3
  rw [h3]
  rw [← hf] at hl1
  rw [← ht] at hl2
  have s1 := mapGet_participantBindings_at d.Participants i1 p1 h1 hl1
  have s2 := mapGet_participantBindings_at d.Participants i2 p2 h2 hl2
  rw [hf] at s1
  rw [ht] at s2
  simp only [messageCellAt, s1, s2]
  cases msg.Typ <;> rfl

/-- Witness of C30: the theorem `message_edge` at a dashed message between two
participants, after a message that is dropped. -/
theorem message_edge_witness :
    (sequenceCells
      { Participants :=
          [{ Name := "A".toList, Alias := "Alice".toList },
           { Name := "B".toList, Alias := "Bob".toList }]
        Messages :=
          [{ From := "A".toList, To := "X".toList, Text := "lost".toList, Typ := .SolidArrow },
           { From := "B".toList, To := "A".toList, Text := "Hi".toList,
             Typ := .DashedArrow }] })[6]? =
      some
        { ID := "message_6".toList
          Value := "Hi".toList
          Style := "endArrow=classic;html=1;dashed=1;".toList
          Edge := "1".toList
          Parent := "1".toList
          Source := "participant_4".toList
          Target := "participant_2".toList
          Geometry := some { As := "geometry".toList } } :=
  (message_edge
    { Participants :=
        [{ Name := "A".toList, Alias := "Alice".toList },
         { Name := "B".toList, Alias := "Bob".toList }]
      Messages :=
        [{ From := "A".toList, To := "X".toList, Text := "lost".toList, Typ := .SolidArrow },
         { From := "B".toList, To := "A".toList, Text := "Hi".toList, Typ := .DashedArrow }] }
    1 { From := "B".toList, To := "A".toList, Text := "Hi".toList, Typ := .DashedArrow } rfl
    1 { Name := "B".toList, Alias := "Bob".toList } rfl rfl (by decide)
    0 { Name := "A".toList, Alias := "Alice".toList } rfl rfl (by decide)).1

/-! ## The generator: dangling references -/

/-- C28: dangling references are dropped and no other cell changes.  For every ER
diagram, the cell list of `GenerateERDrawIOXML` is the cell list for the same diagram
without the relationships whose `From` or `To` names no declared entity, and so is
the text returned; for every sequence diagram, the cell list of
`GenerateSequenceDrawIOXML` is the cell list for the diagram without the messages
whose `From` or `To` names no participant, and so is the text returned; neither
function returns an error. -/
theorem dangling_references_dropped (d : ERDiagram) (sd : SequenceDiagram) :
    erCells d =
      erCells { d with Relationships := d.Relationships.filter (fun r =>
        decide (r.From ∈ d.Entities.map (fun e => e.Name) ∧
          r.To ∈ d.Entities.map (fun e => e.Name))) } ∧
    GenerateERDrawIOXML d =
      GenerateERDrawIOXML { d with Relationships := d.Relationships.filter (fun r =>
        decide (r.From ∈ d.Entities.map (fun e => e.Name) ∧
          r.To ∈ d.Entities.map (fun e => e.Name))) } ∧
    (∃ out, GenerateERDrawIOXML d = .ok out) ∧
    sequenceCells sd =
      sequenceCells { sd with Messages := sd.Messages.filter (fun r =>
        decide (r.From ∈ sd.Participants.map (fun p => p.Name) ∧
          r.To ∈ sd.Participants.map (fun p => p.Name))) } ∧
    GenerateSequenceDrawIOXML sd =
      GenerateSequenceDrawIOXML { sd with Messages := sd.Messages.filter (fun r =>
        decide (r.From ∈ sd.Participants.map (fun p => p.Name) ∧
          r.To ∈ sd.Participants.map (fun p => p.Name))) } ∧
    (∃ out, GenerateSequenceDrawIOXML sd = .ok out) := by
  have h1 : erCells d =
      erCells { d with Relationships := d.Relationships.filter (fun r =>
        decide (r.From ∈ d.Entities.map (fun e => e.Name) ∧
          r.To ∈ d.Entities.map (fun e => e.Name))) } := by
    rw [erCells_eq, erCells_eq]
    simp only
    rw [← filter_bound_entityBindings d.Entities 2, relationshipCells_filter]
  have h2 : sequenceCells sd =
      sequenceCells { sd with Messages := sd.Messages.filter (fun r =>
        decide (r.From ∈ sd.Participants.map (fun p => p.Name) ∧
          r.To ∈ sd.Participants.map (fun p => p.Name))) } := by
    rw [sequenceCells_eq, sequenceCells_eq]
    simp only
    rw [← filter_bound_participantBindings sd.Participants 2, messageCells_filter]
  refine ⟨h1, ?_, ⟨_, rfl⟩, h2, ?_, ⟨_, rfl⟩⟩
  · unfold GenerateERDrawIOXML
    rw [← h1]
  · unfold GenerateSequenceDrawIOXML
    rw [← h2]

/-! ## The generator: the structural cells -/

theorem attrCells_vertex (hid : List Char) (y : Nat) :
    ∀ (attrs : List Attribute) (i cellID : Nat) (c : MxCell),
      c ∈ attrCells hid y i cellID attrs → c.Vertex = "1".toList ∧ c.Geometry ≠ none := by
  intro attrs
  induction attrs with
  | nil => intro i cellID c hc; simp [attrCells] at hc
  | cons a rest ih =>
    intro i cellID c hc
    simp only [attrCells, List.mem_cons] at hc
    rcases hc with h | h
    · rw [h]
      exact ⟨rfl, by simp [attrCellAt]⟩
    · exact ih _ _ c h

theorem entityBlocks_vertex :
    ∀ (es : List Entity) (k cellID : Nat) (c : MxCell),
      c ∈ entityBlocks k cellID es → c.Vertex = "1".toList ∧ c.Geometry ≠ none := by
  intro es
  induction es with
  | nil => intro k cellID c hc; simp [entityBlocks] at hc
  | cons e es ih =>
    intro k cellID c hc
    rw [entityBlocks_cons, List.mem_cons, List.mem_append] at hc
    rcases hc with h | h | h
    · rw [h]
      exact ⟨rfl, by simp [headerCellAt]⟩
    · exact attrCells_vertex _ _ _ _ _ c h
    · exact ih _ _ c h

theorem relationshipCells_edge (m : List (List Char × List Char)) :
    ∀ (rs : List Relationship) (cellID : Nat) (c : MxCell),
      c ∈ relationshipCells m cellID rs → c.Edge = "1".toList ∧ c.Geometry ≠ none := by
  intro rs
  induction rs with
  | nil => intro cellID c hc; simp [relationshipCells] at hc
  | cons r rs ih =>
    intro cellID c hc
    rw [relationshipCells] at hc
    split at hc
    · rcases List.mem_cons.mp hc with h | h
      · rw [h]
        exact ⟨rfl, by simp [relationshipCellAt]⟩
      · exact ih _ c h
    · exact ih _ c hc

theorem participantBlocks_flag :
    ∀ (ps : List Participant) (i cellID : Nat) (c : MxCell),
      c ∈ participantBlocks i cellID ps →
        (c.Vertex = "1".toList ∨ c.Edge = "1".toList) ∧ c.Geometry ≠ none := by
  intro ps
  induction ps with
  | nil => intro i cellID c hc; simp [participantBlocks] at hc
  | cons p ps ih =>
    intro i cellID c hc
    rw [participantBlocks_cons, List.mem_cons, List.mem_cons] at hc
    rcases hc with h | h | h
    · rw [h]
      exact ⟨Or.inl rfl, by simp [participantCellAt]⟩
    · rw [h]
      exact ⟨Or.inr rfl, by simp [lifelineCellAt]⟩
    · exact ih _ _ c h

theorem messageCells_edge (m : List (List Char × List Char)) :
    ∀ (ms : List Message) (cellID : Nat) (c : MxCell),
      c ∈ messageCells m cellID ms → c.Edge = "1".toList ∧ c.Geometry ≠ none := by
  intro ms
  induction ms with
  | nil => intro cellID c hc; simp [messageCells] at hc
  | cons r ms ih =>
    intro cellID c hc
    rw [messageCells] at hc
    split at hc
    · rcases List.mem_cons.mp hc with h | h
      · rw [h]
        exact ⟨rfl, by simp [messageCellAt]⟩
      · exact ih _ c h
    · exact ih _ c hc

theorem relationshipCells_nil_map :
    ∀ (rs : List Relationship) (cellID : Nat), relationshipCells [] cellID rs = [] := by
  intro rs
  induction rs with
  | nil => intro cellID; rfl
  | cons r rs ih =>
    intro cellID
    have hb : bound [] r.From r.To = false := by simp [bound, mapGet]
    simp [relationshipCells, hb, ih]

theorem messageCells_nil_map :
    ∀ (ms : List Message) (cellID : Nat), messageCells [] cellID ms = [] := by
  intro ms
  induction ms with
  | nil => intro cellID; rfl
  | cons r ms ih =>
    intro cellID
    have hb : bound [] r.From r.To = false := by simp [bound, mapGet]
    simp [messageCells, hb, ih]

theorem erCells_split (d : ERDiagram) :
    erCells d = [rootCell, layerCell] ++ (erCells d).drop 2 ∧
    ∀ c ∈ (erCells d).drop 2, (c.Vertex = "1".toList ∨ c.Edge = "1".toList) ∧
      c.Geometry ≠ none := by
  have e : erCells d = [rootCell, layerCell] ++ (entityBlocks 0 2 d.Entities ++
      relationshipCells (entityBindings 2 d.Entities) (2 + blockSize d.Entities)
        d.Relationships) := by
    rw [erCells_eq, List.append_assoc]
    rfl
  have e2 : (erCells d).drop 2 = entityBlocks 0 2 d.Entities ++
      relationshipCells (entityBindings 2 d.Entities) (2 + blockSize d.Entities)
        d.Relationships := by
    rw [e]
    rfl
  refine ⟨by rw [e2]; exact e, ?_⟩
  intro c hc
  rw [e2, List.mem_append] at hc
  rcases hc with h | h
  · exact ⟨Or.inl (entityBlocks_vertex _ _ _ c h).1, (entityBlocks_vertex _ _ _ c h).2⟩
  · exact ⟨Or.inr (relationshipCells_edge _ _ _ c h).1, (relationshipCells_edge _ _ _ c h).2⟩

theorem sequenceCells_split (d : SequenceDiagram) :
    sequenceCells d = [rootCell, layerCell] ++ (sequenceCells d).drop 2 ∧
    ∀ c ∈ (sequenceCells d).drop 2, (c.Vertex = "1".toList ∨ c.Edge = "1".toList) ∧
      c.Geometry ≠ none := by
  have e : sequenceCells d = [rootCell, layerCell] ++ (participantBlocks 0 2 d.Participants ++
      messageCells (participantBindings 2 d.Participants) (2 + 2 * d.Participants.length)
        d.Messages) := by
    rw [sequenceCells_eq, List.append_assoc]
    rfl
  have e2 : (sequenceCells d).drop 2 = participantBlocks 0 2 d.Participants ++
      messageCells (participantBindings 2 d.Participants) (2 + 2 * d.Participants.length)
        d.Messages := by
    rw [e]
    rfl
  refine ⟨by rw [e2]; exact e, ?_⟩
  intro c hc
  rw [e2, List.mem_append] at hc
  rcases hc with h | h
  · exact participantBlocks_flag _ _ _ c h
  · exact ⟨Or.inr (messageCells_edge _ _ _ c h).1, (messageCells_edge _ _ _ c h).2⟩

set_option maxRecDepth 100000 in
theorem empty_document_text :
    GenerateDrawIOXML (ParseDiagram []).1.toValue =
      .ok ("<?xml version=\x221.0\x22 encoding=\x22UTF-8\x22?>\n".toList ++
        ("<mxGraphModel dx=\x221234\x22 dy=\x22732\x22 grid=\x221\x22 gridSize=\x2210\x22 " ++
          "guides=\x221\x22 tooltips=\x221\x22 connect=\x221\x22 arrows=\x221\x22 " ++
          "fold=\x221\x22 page=\x221\x22 pageScale=\x221\x22 pageWidth=\x22827\x22 " ++
          "pageHeight=\x221169\x22 math=\x220\x22 shadow=\x220\x22>\n").toList ++
        "  <root>\n".toList ++
        "    <mxCell id=\x220\x22></mxCell>\n".toList ++
        "    <mxCell id=\x221\x22 parent=\x220\x22></mxCell>\n".toList ++
        "  </root>\n".toList ++
        "</mxGraphModel>".toList) := by
  have e : GenerateDrawIOXML (ParseDiagram []).1.toValue =
      .ok (xmlHeader ++ marshalIndent
        { createBaseModel with Root := { MxCells := sequenceCells ⟨[], []⟩ } }) := rfl
  rw [e]
  exact congrArg Except.ok (by decide)

/-- C31: for every diagram, the cell list of the generated document begins with
exactly the two structural cells, the cell `0` without parent and the cell `1` with
the parent `0` (neither a vertex nor an edge, without geometry), and the cells of the
generator follow (each a vertex or an edge, with a geometry).  For a diagram without
entities, or without participants, the cell list is exactly these two cells; the
empty input parses to the sequence diagram without participants and messages, whose
document is the model element with the two structural cells. -/
theorem structural_cells_first (d : ERDiagram) (sd : SequenceDiagram) :
    (erCells d = [{ ID := "0".toList }, { ID := "1".toList, Parent := "0".toList }] ++
        (erCells d).drop 2 ∧
      ∀ c ∈ (erCells d).drop 2, (c.Vertex = "1".toList ∨ c.Edge = "1".toList) ∧
        c.Geometry ≠ none) ∧
    (sequenceCells sd =
        [{ ID := "0".toList }, { ID := "1".toList, Parent := "0".toList }] ++
          (sequenceCells sd).drop 2 ∧
      ∀ c ∈ (sequenceCells sd).drop 2, (c.Vertex = "1".toList ∨ c.Edge = "1".toList) ∧
        c.Geometry ≠ none) ∧
    erCells { Entities := [], Relationships := d.Relationships } =
      [{ ID := "0".toList }, { ID := "1".toList, Parent := "0".toList }] ∧
    sequenceCells { Participants := [], Messages := sd.Messages } =
      [{ ID := "0".toList }, { ID := "1".toList, Parent := "0".toList }] ∧
    ParseDiagram [] = (.Sequence { Participants := [], Messages := [] }, none) ∧
    GenerateDrawIOXML (ParseDiagram []).1.toValue =
      .ok ("<?xml version=\x221.0\x22 encoding=\x22UTF-8\x22?>\n".toList ++
        ("<mxGraphModel dx=\x221234\x22 dy=\x22732\x22 grid=\x221\x22 gridSize=\x2210\x22 " ++
          "guides=\x221\x22 tooltips=\x221\x22 connect=\x221\x22 arrows=\x221\x22 " ++
          "fold=\x221\x22 page=\x221\x22 pageScale=\x221\x22 pageWidth=\x22827\x22 " ++
          "pageHeight=\x221169\x22 math=\x220\x22 shadow=\x220\x22>\n").toList ++
        "  <root>\n".toList ++
        "    <mxCell id=\x220\x22></mxCell>\n".toList ++
        "    <mxCell id=\x221\x22 parent=\x220\x22></mxCell>\n".toList ++
        "  </root>\n".toList ++
        "</mxGraphModel>".toList) := by
  refine ⟨erCells_split d, sequenceCells_split sd, ?_, ?_, by decide, ?_⟩
  · rw [erCells_eq]
    simp only [entityBlocks, entityBindings, relationshipCells_nil_map, List.append_nil]
    rfl
  · rw [sequenceCells_eq]
    simp only [participantBlocks, participantBindings, messageCells_nil_map, List.append_nil]
    rfl
  · exact empty_document_text

/-! ## The generator: the entry point -/

/-- C32: `GenerateDrawIOXML` returns the error `unsupported diagram type` if and only
if the diagram is neither a `SequenceDiagram` nor an `ERDiagram`; for a
`SequenceDiagram` it returns the result of `GenerateSequenceDrawIOXML`, for an
`ERDiagram` the result of `GenerateERDrawIOXML`; and there is no other error at
generation time: the two generators return a text for every diagram, so every error
of `GenerateDrawIOXML` is this one, and a diagram that a parser returned never
produces it. -/
theorem GenerateDrawIOXML_dispatch (v : DiagramValue) :
    (GenerateDrawIOXML v = .error "unsupported diagram type".toList ↔
      (∀ d, v ≠ .Sequence d) ∧ (∀ d, v ≠ .ER d)) ∧
    (∀ d, GenerateDrawIOXML (.Sequence d) = GenerateSequenceDrawIOXML d) ∧
    (∀ d, GenerateDrawIOXML (.ER d) = GenerateERDrawIOXML d) ∧
    (∀ e, GenerateDrawIOXML v = .error e → e = "unsupported diagram type".toList) ∧
    (∀ d, ∃ out, GenerateSequenceDrawIOXML d = .ok out) ∧
    (∀ d, ∃ out, GenerateERDrawIOXML d = .ok out) ∧
    (∀ input, ∃ out, GenerateDrawIOXML (ParseDiagram input).1.toValue = .ok out) := by
  refine ⟨?_, fun _ => rfl, fun _ => rfl, ?_, fun _ => ⟨_, rfl⟩, fun _ => ⟨_, rfl⟩, ?_⟩
  · cases v with
    | Sequence d =>
      constructor
      · intro h
        exact Except.noConfusion h
      · intro h
        exact absurd rfl (h.1 d)
    | ER d =>
      constructor
      · intro h
        exact Except.noConfusion h
      · intro h
        exact absurd rfl (h.2 d)
    | Other =>
      constructor
      · intro _
        exact ⟨fun d h => DiagramValue.noConfusion h, fun d h => DiagramValue.noConfusion h⟩
      · intro _
        rfl
  · intro e h
    cases v with
    | Sequence d => exact Except.noConfusion h
    | ER d => exact Except.noConfusion h
    | Other => exact (Except.error.inj h).symm
  · intro input
    cases (ParseDiagram input).1 with
    | Sequence d => exact ⟨_, rfl⟩
    | ER d => exact ⟨_, rfl⟩

/-! ## The generator: the identifiers of the cells -/

theorem digitChar_digit (k : Nat) (h : k < 10) :
    (Nat.digitChar k).isDigit = true ∧ (Nat.digitChar k).toNat - 48 = k := by
  interval_cases k <;> exact ⟨by decide, by decide⟩

theorem toDigitsCore_digits :
    ∀ (fuel n : Nat) (ds : List Char), (∀ c ∈ ds, c.isDigit = true) →
      ∀ c ∈ Nat.toDigitsCore 10 fuel n ds, c.isDigit = true := by
  intro fuel
  induction fuel with
  | zero => intro n ds h c hc; exact h c (by simpa [Nat.toDigitsCore] using hc)
  | succ fuel ih =>
    intro n ds h c hc
    have hd := (digitChar_digit (n % 10) (Nat.mod_lt _ (by decide))).1
    have h2 : ∀ c ∈ Nat.digitChar (n % 10) :: ds, c.isDigit = true := by
      intro c hc
      rcases List.mem_cons.mp hc with e | e
      · rw [e]; exact hd
      · exact h c e
    simp only [Nat.toDigitsCore] at hc
    split at hc
    · exact h2 c hc
    · exact ih _ _ h2 c hc

theorem digitsValue_cons (acc : Nat) (c : Char) (cs : List Char) :
    digitsValue acc (c :: cs) = digitsValue (10 * acc + (c.toNat - 48)) cs := rfl

theorem digitsValue_toDigitsCore :
    ∀ (fuel n : Nat) (ds : List Char), n < fuel →
      digitsValue 0 (Nat.toDigitsCore 10 fuel n ds) = digitsValue n ds := by
  intro fuel
  induction fuel with
  | zero => intro n ds h; omega
  | succ fuel ih =>
    intro n ds h
    have hd := (digitChar_digit (n % 10) (Nat.mod_lt _ (by decide))).2
    simp only [Nat.toDigitsCore]
    split
    · rename_i h0
      have e : 10 * 0 + n % 10 = n := by omega
      rw [digitsValue_cons, hd, e]
    · rename_i h0
      have e : 10 * (n / 10) + n % 10 = n := by omega
      rw [ih (n / 10) _ (by omega), digitsValue_cons, hd, e]

theorem digitsValue_itoa (n : Nat) : digitsValue 0 (itoa n) = n := by
  have h := digitsValue_toDigitsCore (n + 1) n [] (by omega)
  unfold itoa Nat.toDigits
  rw [h]
  rfl

theorem itoa_digits (n : Nat) : ∀ c ∈ itoa n, c.isDigit = true :=
  toDigitsCore_digits (n + 1) n [] (by simp)

theorem dropWhile_append_all (p : Char → Bool) (l s : List Char) (h : ∀ c ∈ l, p c = true) :
    (l ++ s).dropWhile p = s.dropWhile p := by
  induction l with
  | nil => rfl
  | cons c l ih =>
    have hc := h c (by simp)
    rw [List.cons_append, List.dropWhile_cons, if_pos hc]
    exact ih (fun d hd => h d (by simp [hd]))

theorem dropWhile_none (p : Char → Bool) (s : List Char) (h : ∀ c ∈ s, p c = false) :
    s.dropWhile p = s := by
  cases s with
  | nil => rfl
  | cons c s =>
    have hc := h c (by simp)
    rw [List.dropWhile_cons, if_neg (by rw [hc]; exact Bool.false_ne_true)]

theorem idNumber_prefix (pre : List Char) (h : ∀ c ∈ pre, c.isDigit = false) (n : Nat) :
    idNumber (pre ++ itoa n) = n := by
  unfold idNumber
  rw [dropWhile_append_all _ _ _ (fun c hc => by simp [h c hc]),
    dropWhile_none _ _ (fun c hc => by simp [itoa_digits n c hc]), digitsValue_itoa]

theorem attrCells_id (hid : List Char) (y : Nat) (attrs : List Attribute) (i cellID j : Nat)
    (c : MxCell) (h : (attrCells hid y i cellID attrs)[j]? = some c) :
    c.ID = "attr_".toList ++ itoa (cellID + j) := by
  rw [attrCells_getElem?] at h
  cases ha : attrs[j]? with
  | none => rw [ha] at h; exact Option.noConfusion h
  | some a =>
    rw [ha] at h
    rw [← Option.some.inj h]
    rfl

theorem entityBlocks_id :
    ∀ (es : List Entity) (k cellID j : Nat) (c : MxCell),
      (entityBlocks k cellID es)[j]? = some c →
        c.ID = "entity_header_".toList ++ itoa (cellID + j) ∨
          c.ID = "attr_".toList ++ itoa (cellID + j) := by
  intro es
  induction es with
  | nil => intro k cellID j c h; simp [entityBlocks] at h
  | cons e es ih =>
    intro k cellID j c h
    rw [entityBlocks_cons] at h
    cases j with
    | zero =>
      rw [List.getElem?_cons_zero] at h
      rw [← Option.some.inj h]
      exact Or.inl rfl
    | succ j =>
      rw [List.getElem?_cons_succ, List.getElem?_append, attrCells_length] at h
      split at h
      · have h2 := attrCells_id _ _ _ _ _ _ c h
        have e1 : cellID + 1 + j = cellID + (j + 1) := by omega
        rw [e1] at h2
        exact Or.inr h2
      · rename_i hlt
        have h2 := ih _ _ _ c h
        have e1 : cellID + 1 + e.Attributes.length + (j - e.Attributes.length) =
            cellID + (j + 1) := by omega
        rw [e1] at h2
        exact h2

theorem relationshipCells_id (m : List (List Char × List Char)) :
    ∀ (rs : List Relationship) (cellID j : Nat) (c : MxCell),
      (relationshipCells m cellID rs)[j]? = some c →
        c.ID = "relationship_".toList ++ itoa (cellID + j) := by
  intro rs
  induction rs with
  | nil => intro cellID j c h; simp [relationshipCells] at h
  | cons r rs ih =>
    intro cellID j c h
    rw [relationshipCells] at h
    split at h
    · cases j with
      | zero =>
        rw [List.getElem?_cons_zero] at h
        rw [← Option.some.inj h]
        rfl
      | succ j =>
        rw [List.getElem?_cons_succ] at h
        have h2 := ih _ _ c h
        have e1 : cellID + 1 + j = cellID + (j + 1) := by omega
        rw [e1] at h2
        exact h2
    · exact ih _ _ c h

theorem participantBlocks_id :
    ∀ (ps : List Participant) (i cellID j : Nat) (c : MxCell),
      (participantBlocks i cellID ps)[j]? = some c →
        c.ID = "participant_".toList ++ itoa (cellID + j) ∨
          c.ID = "lifeline_".toList ++ itoa (cellID + j) := by
  intro ps
  induction ps with
  | nil => intro i cellID j c h; simp [participantBlocks] at h
  | cons p ps ih =>
    intro i cellID j c h
    rw [participantBlocks_cons] at h
    cases j with
    | zero =>
      rw [List.getElem?_cons_zero] at h
      rw [← Option.some.inj h]
      exact Or.inl rfl
    | succ j =>
      rw [List.getElem?_cons_succ] at h
      cases j with
      | zero =>
        rw [List.getElem?_cons_zero] at h
        rw [← Option.some.inj h]
        exact Or.inr rfl
      | succ j =>
        rw [List.getElem?_cons_succ] at h
        have h2 := ih _ _ _ c h
        have e1 : cellID + 2 + j = cellID + (j + 1 + 1) := by omega
        rw [e1] at h2
        exact h2

theorem messageCells_id (m : List (List Char × List Char)) :
    ∀ (ms : List Message) (cellID j : Nat) (c : MxCell),
      (messageCells m cellID ms)[j]? = some c →
        c.ID = "message_".toList ++ itoa (cellID + j) := by
  intro ms
  induction ms with
  | nil => intro cellID j c h; simp [messageCells] at h
  | cons r ms ih =>
    intro cellID j c h
    rw [messageCells] at h
    split at h
    · cases j with
      | zero =>
        rw [List.getElem?_cons_zero] at h
        rw [← Option.some.inj h]
        rfl
      | succ j =>
        rw [List.getElem?_cons_succ] at h
        have h2 := ih _ _ c h
        have e1 : cellID + 1 + j = cellID + (j + 1) := by omega
        rw [e1] at h2
        exact h2
    · exact ih _ _ c h

theorem erCells_id (d : ERDiagram) (k : Nat) (c : MxCell) (h : (erCells d)[k]? = some c) :
    (k = 0 ∧ c.ID = "0".toList) ∨ (k = 1 ∧ c.ID = "1".toList) ∨
      (2 ≤ k ∧ (c.ID = "entity_header_".toList ++ itoa k ∨ c.ID = "attr_".toList ++ itoa k ∨
        c.ID = "relationship_".toList ++ itoa k)) := by
  have hl : createDefaultCells.length = 2 := rfl
  rw [erCells_eq, List.append_assoc, List.getElem?_append, hl] at h
  split at h
  · rename_i hk
    have hk2 : k = 0 ∨ k = 1 := by omega
    rcases hk2 with e | e
    · subst e
      exact Or.inl ⟨rfl, by rw [← Option.some.inj h]; rfl⟩
    · subst e
      exact Or.inr (Or.inl ⟨rfl, by rw [← Option.some.inj h]; rfl⟩)
  · rename_i hk
    have e0 : 2 + (k - 2) = k := by omega
    refine Or.inr (Or.inr ⟨by omega, ?_⟩)
    rw [List.getElem?_append, entityBlocks_length] at h
    split at h
    · have h2 := entityBlocks_id _ _ _ _ c h
      rw [e0] at h2
      rcases h2 with h2 | h2
      · exact Or.inl h2
      · exact Or.inr (Or.inl h2)
    · have h2 := relationshipCells_id _ _ _ _ c h
      have e1 : 2 + blockSize d.Entities + (k - 2 - blockSize d.Entities) = k := by omega
      rw [e1] at h2
      exact Or.inr (Or.inr h2)

theorem sequenceCells_id (d : SequenceDiagram) (k : Nat) (c : MxCell)
    (h : (sequenceCells d)[k]? = some c) :
    (k = 0 ∧ c.ID = "0".toList) ∨ (k = 1 ∧ c.ID = "1".toList) ∨
      (2 ≤ k ∧ (c.ID = "participant_".toList ++ itoa k ∨ c.ID = "lifeline_".toList ++ itoa k ∨
        c.ID = "message_".toList ++ itoa k)) := by
  have hl : createDefaultCells.length = 2 := rfl
  rw [sequenceCells_eq, List.append_assoc, List.getElem?_append, hl] at h
  split at h
  · rename_i hk
    have hk2 : k = 0 ∨ k = 1 := by omega
    rcases hk2 with e | e
    · subst e
      exact Or.inl ⟨rfl, by rw [← Option.some.inj h]; rfl⟩
    · subst e
      exact Or.inr (Or.inl ⟨rfl, by rw [← Option.some.inj h]; rfl⟩)
  · rename_i hk
    have e0 : 2 + (k - 2) = k := by omega
    refine Or.inr (Or.inr ⟨by omega, ?_⟩)
    rw [List.getElem?_append, participantBlocks_length] at h
    split at h
    · have h2 := participantBlocks_id _ _ _ _ c h
      rw [e0] at h2
      rcases h2 with h2 | h2
      · exact Or.inl h2
      · exact Or.inr (Or.inl h2)
    · have h2 := messageCells_id _ _ _ _ c h
      have e1 : 2 + 2 * d.Participants.length + (k - 2 - 2 * d.Participants.length) = k := by
        omega
      rw [e1] at h2
      exact Or.inr (Or.inr h2)

theorem nodup_of_idNumber (l : List MxCell)
    (h : ∀ (k : Nat) (c : MxCell), l[k]? = some c → idNumber c.ID = k) :
    (l.map (fun c => c.ID)).Nodup := by
  have e : (l.map (fun c => c.ID)).map idNumber = List.range l.length := by
    apply List.ext_getElem?
    intro k
    rw [List.map_map, List.getElem?_map]
    cases hk : l[k]? with
    | none =>
      have hle : l.length ≤ k := List.getElem?_eq_none_iff.mp hk
      have e2 : (List.range l.length)[k]? = none :=
        List.getElem?_eq_none_iff.mpr (by rw [List.length_range]; exact hle)
      rw [e2]
      rfl
    | some c =>
      have hlt : k < l.length := (List.getElem?_eq_some.mp hk).1
      rw [List.getElem?_range hlt]
      simp only [Option.map_some', Function.comp_apply, h k c hk]
  exact List.Nodup.of_map idNumber (by rw [e]; exact List.nodup_range _)

/-- C33: for every ER diagram and every sequence diagram, also with entity or
participant names that occur more than once, the cells of the generated cell list
have pairwise distinct identifiers: the cell at position 0 has the identifier `0`, the
cell at position 1 the identifier `1`, and the cell at every position `k` from 2 on a
prefix (`entity_header_`, `attr_` or `relationship_`; `participant_`, `lifeline_` or
`message_`) followed by `k` in decimal digits, the value of a counter that starts at
2 and grows by one with each cell emitted. -/
theorem cell_ids_distinct (d : ERDiagram) (sd : SequenceDiagram) :
    ((erCells d).map (fun c => c.ID)).Nodup ∧
    (∀ (k : Nat) (c : MxCell), (erCells d)[k]? = some c →
      (k = 0 ∧ c.ID = "0".toList) ∨ (k = 1 ∧ c.ID = "1".toList) ∨
        (2 ≤ k ∧ (c.ID = "entity_header_".toList ++ itoa k ∨
          c.ID = "attr_".toList ++ itoa k ∨ c.ID = "relationship_".toList ++ itoa k))) ∧
    ((sequenceCells sd).map (fun c => c.ID)).Nodup ∧
    (∀ (k : Nat) (c : MxCell), (sequenceCells sd)[k]? = some c →
      (k = 0 ∧ c.ID = "0".toList) ∨ (k = 1 ∧ c.ID = "1".toList) ∨
        (2 ≤ k ∧ (c.ID = "participant_".toList ++ itoa k ∨
          c.ID = "lifeline_".toList ++ itoa k ∨ c.ID = "message_".toList ++ itoa k))) := by
  refine ⟨?_, erCells_id d, ?_, sequenceCells_id sd⟩
  · apply nodup_of_idNumber
    intro k c h
    rcases erCells_id d k c h with ⟨e, h2⟩ | ⟨e, h2⟩ | ⟨_, h2 | h2 | h2⟩
    · rw [h2, e]; rfl
    · rw [h2, e]; rfl
    · rw [h2]; exact idNumber_prefix _ (by decide) k
    · rw [h2]; exact idNumber_prefix _ (by decide) k
    · rw [h2]; exact idNumber_prefix _ (by decide) k
  · apply nodup_of_idNumber
    intro k c h
    rcases sequenceCells_id sd k c h with ⟨e, h2⟩ | ⟨e, h2⟩ | ⟨_, h2 | h2 | h2⟩
    · rw [h2, e]; rfl
    · rw [h2, e]; rfl
    · rw [h2]; exact idNumber_prefix _ (by decide) k
    · rw [h2]; exact idNumber_prefix _ (by decide) k
    · rw [h2]; exact idNumber_prefix _ (by decide) k

/-! ## The ends of the parsed messages -/

theorem SeqState.closed_add (st : SeqState) (p : Participant) (h : st.Closed) :
    SeqState.Closed
      { diagram := { st.diagram with Participants := st.diagram.Participants ++ [p] },
        participantMap := p.Name :: st.participantMap } := by
  refine ⟨?_, ?_⟩
  · intro n hn
    simp only [List.map_append, List.map_cons, List.map_nil, List.mem_append,
      List.mem_singleton]
    rcases List.mem_cons.mp hn with e | e
    · exact Or.inr e
    · exact Or.inl (h.1 n e)
  · intro m hm
    simp only [List.map_append, List.map_cons, List.map_nil, List.mem_append,
      List.mem_singleton]
    exact ⟨Or.inl (h.2 m hm).1, Or.inl (h.2 m hm).2⟩

theorem ensureParticipantsExist_closed (ps : List (List Char)) :
    ∀ st : SeqState, st.Closed →
      (ensureParticipantsExist st ps).Closed ∧
      (∀ p ∈ ps, p ∈ (ensureParticipantsExist st ps).participantMap) ∧
      (ensureParticipantsExist st ps).diagram.Messages = st.diagram.Messages ∧
      (∀ n ∈ st.participantMap, n ∈ (ensureParticipantsExist st ps).participantMap) := by
  induction ps with
  | nil => intro st h; exact ⟨h, by simp, rfl, fun n hn => hn⟩
  | cons p ps ih =>
    intro st h
    by_cases hp : p ∈ st.participantMap
    · have e : ensureParticipantsExist st (p :: ps) = ensureParticipantsExist st ps := by
        simp [ensureParticipantsExist, hp]
      rw [e]
      obtain ⟨h1, h2, h3, h4⟩ := ih st h
      refine ⟨h1, ?_, h3, h4⟩
      intro q hq
      rcases List.mem_cons.mp hq with e2 | e2
      · rw [e2]; exact h4 p hp
      · exact h2 q e2
    · have e : ensureParticipantsExist st (p :: ps) =
          ensureParticipantsExist
            { diagram := { st.diagram with
                Participants := st.diagram.Participants ++ [{ Name := p, Alias := p }] },
              participantMap := p :: st.participantMap } ps := by
        simp [ensureParticipantsExist, hp]
      rw [e]
      obtain ⟨h1, h2, h3, h4⟩ := ih _ (SeqState.closed_add st { Name := p, Alias := p } h)
      refine ⟨h1, ?_, h3, ?_⟩
      · intro q hq
        rcases List.mem_cons.mp hq with e2 | e2
        · rw [e2]; exact h4 p (by simp)
        · exact h2 q e2
      · intro n hn
        exact h4 n (by simp [hn])

theorem seqStep_closed (st : SeqState) (text : List Char) (h : st.Closed) :
    (seqStep st text).Closed := by
  unfold seqStep
  by_cases hs : shouldSkipSequenceLine (trimSpace text) = true
  · simpa [hs] using h
  · simp only [hs, if_false, Bool.false_eq_true]
    cases hp : parseParticipant (trimSpace text) with
    | some p =>
      simp only []
      by_cases hk : p.Name ∈ st.participantMap
      · simpa [hk] using h
      · simpa [hk] using SeqState.closed_add st p h
    | none =>
      simp only []
      cases hm : parseMessage (trimSpace text) with
      | some m =>
        obtain ⟨h1, h2, _, _⟩ := ensureParticipantsExist_closed [m.From, m.To] st h
        refine ⟨h1.1, ?_⟩
        intro m2 hm2
        simp only [List.mem_append, List.mem_singleton] at hm2
        rcases hm2 with e | e
        · exact h1.2 m2 e
        · rw [e]
          exact ⟨h1.1 _ (h2 m.From (by simp)), h1.1 _ (h2 m.To (by simp))⟩
      | none => simpa using h

theorem foldl_seqStep_closed (ls : List (List Char)) :
    ∀ st : SeqState, st.Closed → (ls.foldl seqStep st).Closed := by
  induction ls with
  | nil => intro st h; exact h
  | cons l ls ih => intro st h; exact ih _ (seqStep_closed st l h)

theorem ParseSequenceDiagram_closed (input : List Char) :
    ∀ m ∈ (ParseSequenceDiagram input).1.Messages,
      m.From ∈ (ParseSequenceDiagram input).1.Participants.map (fun p => p.Name) ∧
        m.To ∈ (ParseSequenceDiagram input).1.Participants.map (fun p => p.Name) :=
  (foldl_seqStep_closed (scanLines input).1 SeqState.init
    ⟨by simp [SeqState.init], by simp [SeqState.init]⟩).2

theorem sequenceCells_length (d : SequenceDiagram) :
    (sequenceCells d).length =
      2 + 2 * d.Participants.length +
        (d.Messages.filter (fun r => decide (r.From ∈ d.Participants.map (fun p => p.Name) ∧
          r.To ∈ d.Participants.map (fun p => p.Name)))).length := by
  have hl : createDefaultCells.length = 2 := rfl
  rw [sequenceCells_eq, List.length_append, List.length_append, participantBlocks_length,
    messageCells_length, filter_bound_participantBindings, hl]

/-- C34: for every input text, every message in the result of `ParseSequenceDiagram`
has its `From` and its `To` among the names of the participants returned; hence the
generator drops no message of a parsed sequence diagram: the message number `k` is the
edge cell at position `2 + 2 * (number of participants) + k`, with the text of the
message as label, and the cell list has exactly
`2 + 2 * (number of participants) + (number of messages)` cells. -/
theorem parsed_messages_have_participants (input : List Char) :
    (∀ m ∈ (ParseSequenceDiagram input).1.Messages,
      m.From ∈ (ParseSequenceDiagram input).1.Participants.map (fun p => p.Name) ∧
        m.To ∈ (ParseSequenceDiagram input).1.Participants.map (fun p => p.Name)) ∧
    (∀ (k : Nat) (m : Message), (ParseSequenceDiagram input).1.Messages[k]? = some m →
      ∃ c : MxCell,
        (sequenceCells (ParseSequenceDiagram input).1)[2 +
          2 * (ParseSequenceDiagram input).1.Participants.length + k]? = some c ∧
        c.ID = "message_".toList ++
          itoa (2 + 2 * (ParseSequenceDiagram input).1.Participants.length + k) ∧
        c.Value = m.Text ∧ c.Edge = "1".toList) ∧
    (sequenceCells (ParseSequenceDiagram input).1).length =
      2 + 2 * (ParseSequenceDiagram input).1.Participants.length +
        (ParseSequenceDiagram input).1.Messages.length := by
  have hc := ParseSequenceDiagram_closed input
  generalize (ParseSequenceDiagram input).1 = d at hc
  have hall : ∀ l : List Message, (∀ m ∈ l, m ∈ d.Messages) →
      l.filter (fun r => decide (r.From ∈ d.Participants.map (fun p => p.Name) ∧
        r.To ∈ d.Participants.map (fun p => p.Name))) = l := by
    intro l hl
    apply List.filter_eq_self.mpr
    intro m hm
    exact decide_eq_true (hc m (hl m hm))
  refine ⟨hc, ?_, ?_⟩
  · intro k m hm
    have hb : bound (participantBindings 2 d.Participants) m.From m.To = true := by
      rw [bound_participantBindings]
      exact decide_eq_true (hc m (List.getElem?_mem hm))
    have h3 := sequenceCells_message d k m hm hb
    have hk : k < d.Messages.length := (List.getElem?_eq_some.mp hm).1
    rw [filter_bound_participantBindings,
      hall (d.Messages.take k) (fun m hm => List.mem_of_mem_take hm),
      List.length_take, Nat.min_eq_left (Nat.le_of_lt hk)] at h3
    exact ⟨_, h3, rfl, rfl, rfl⟩
  · rw [sequenceCells_length, hall d.Messages (fun m hm => hm)]

/-! ## Entity-start lines (the general form) -/

theorem noHead_trimSpace (l : List Char) : NoHead isSpace (trimSpace l) :=
  noHead_dropWhileEnd isSpace isSpace _ (noHead_dropWhile isSpace l)

theorem parseEntityStart_some {t : List Char} {e : Entity} (hh : NoHead isSpace t)
    (he : parseEntityStart t = some e) :
    ∃ N ws r, t = N ++ (ws ++ '{' :: r) ∧ IsName N ∧ (∀ d ∈ ws, isReSpace d = true) ∧
      e = { Name := N, Attributes := [] } := by
  cases hr : entityRegex.run t Caps.none with
  | nil =>
    rw [parseEntityStart_eq_none_of_run hr] at he
    exact Option.noConfusion he
  | cons x xs =>
    have hx : x ∈ entityRegex.run t Caps.none := by rw [hr]; simp
    obtain ⟨ws, w, ws2, r, e1, hws, hw, hws2⟩ := entityRegex_sound hx
    have hws0 : ws = [] := by
      cases ws with
      | nil => rfl
      | cons d ws =>
        have h1 := hh d (ws ++ (w ++ (ws2 ++ '{' :: r))) (by rw [e1]; rfl)
        rw [isSpace_of_isReSpace (hws d (by simp))] at h1
        exact Bool.noConfusion h1
    rw [hws0, List.nil_append] at e1
    have h2 := parseEntityStart_line w ws2 r hw hws2
    rw [← e1, he] at h2
    exact ⟨w, ws2, r, e1, hw, hws2, Option.some.inj h2⟩

theorem shouldSkipLine_of_name_head (N rest : List Char) (hN : IsName N)
    (hk : hasPrefix (N ++ rest) "erDiagram".toList = false) :
    shouldSkipLine (N ++ rest) = false := by
  obtain ⟨n, N1, rfl⟩ := List.exists_cons_of_ne_nil hN.1
  have hf : n ≠ '%' := isWordChar_ne (hN.2 n (by simp)) (by decide)
  simp only [shouldSkipLine, Bool.or_eq_false_iff]
  refine ⟨⟨by simp, ?_⟩, hk⟩
  simp [hasPrefix, List.isPrefixOf, hf.symm]

theorem erStep_entityStart (st : ERState) (l : List Char) (e : Entity)
    (hk : hasPrefix (trimSpace l) "erDiagram".toList = false)
    (he : parseEntityStart (trimSpace l) = some e) :
    erStep st l =
      if hasSuffix (trimSpace l) "\x7b\x7d".toList = true then
        { diagram := st.diagram.addEntity e, currentEntity := none, inEntity := false }
      else { st with currentEntity := some e, inEntity := true } := by
  obtain ⟨N, ws, r, e1, hN, _, _⟩ := parseEntityStart_some (noHead_trimSpace l) he
  have hs : shouldSkipLine (trimSpace l) = false := by
    rw [e1] at hk ⊢
    exact shouldSkipLine_of_name_head N _ hN hk
  have hc : trimSpace l ≠ "\x7d".toList := by
    rw [e1]
    exact name_append_ne_close N _ hN
  unfold erStep
  generalize trimSpace l = L at hs hc he ⊢
  simp only [hs, hc, he, false_and, if_false, Bool.false_eq_true]

/-- C9 (amended): in state Outside (and in every other state of the loop), a line
that the scanner delivers and that, once trimmed, matches the entity-start pattern
(a name of word characters, white space if any, `{`) and does not begin with
`erDiagram`: when it ends in the literal `{}`, it appends one entity with that name
and no attributes and leaves the state Outside, so that a following line (not
skipped, no entity start) is given to `parseRelationship` and adds a relationship or
nothing, never an attribute; when it does not end in `{}`, it enters InBlock with a
fresh entity with that name and no attributes.  Every line `<name><blanks>{...` with
a word-character name matches the pattern with that name. -/
theorem inline_entity_stays_outside (st : ERState) (l : List Char) (e : Entity)
    (hk : hasPrefix (trimSpace l) "erDiagram".toList = false)
    (he : parseEntityStart (trimSpace l) = some e) :
    (∃ N ws r, trimSpace l = N ++ (ws ++ '{' :: r) ∧ IsName N ∧
      (∀ d ∈ ws, isReSpace d = true) ∧ e = { Name := N, Attributes := [] }) ∧
    (hasSuffix (trimSpace l) "\x7b\x7d".toList = true →
      erStep st l =
        { diagram := { Entities := st.diagram.Entities ++ [e],
                       Relationships := st.diagram.Relationships },
          currentEntity := none, inEntity := false } ∧
      ∀ l2 : List Char, shouldSkipLine (trimSpace l2) = false →
        parseEntityStart (trimSpace l2) = none →
        erStep (erStep st l) l2 =
          match parseRelationship (trimSpace l2) with
          | some rel =>
            { diagram := { Entities := st.diagram.Entities ++ [e],
                           Relationships := st.diagram.Relationships ++ [rel] },
              currentEntity := none, inEntity := false }
          | none => erStep st l) ∧
    (hasSuffix (trimSpace l) "\x7b\x7d".toList = false →
      erStep st l =
        { diagram := st.diagram, currentEntity := some e, inEntity := true }) ∧
    (∀ N ws r : List Char, IsName N → (∀ d ∈ ws, isReSpace d = true) →
      parseEntityStart (N ++ (ws ++ '{' :: r)) = some { Name := N, Attributes := [] }) := by
  have h0 := erStep_entityStart st l e hk he
  refine ⟨parseEntityStart_some (noHead_trimSpace l) he, ?_, ?_,
    fun N ws r hN hws => parseEntityStart_line N ws r hN hws⟩
  · intro hx
    rw [if_pos hx] at h0
    have h1 : erStep st l =
        { diagram := { Entities := st.diagram.Entities ++ [e],
                       Relationships := st.diagram.Relationships },
          currentEntity := none, inEntity := false } := h0
    refine ⟨h1, ?_⟩
    intro l2 hs he2
    rw [erStep_outside _ l2 (by rw [h1]) hs he2, h1]
  · intro hx
    rw [if_neg (by rw [hx]; exact Bool.false_ne_true)] at h0
    exact h0

/-- Witness of C9: the theorem `inline_entity_stays_outside` at `USER {}` after the
keyword line, followed by a relationship line, and at the indented line `ORDER{`
with a comment after the brace. -/
theorem inline_entity_stays_outside_witness :
    erStep (erStep ERState.init "USER \x7b\x7d".toList) "USER ||--o\x7b ORDER : places".toList =
      { diagram :=
          { Entities := [{ Name := "USER".toList, Attributes := [] }],
            Relationships :=
              [{ From := "USER".toList, To := "ORDER".toList, Typ := .OneToMany,
                 FromCardinality := "1".toList, ToCardinality := "M".toList,
                 Label := "places".toList }] },
        currentEntity := none, inEntity := false } ∧
    erStep ERState.init "  ORDER\x7b %% orders".toList =
      { diagram := { Entities := [], Relationships := [] },
        currentEntity := some { Name := "ORDER".toList, Attributes := [] },
        inEntity := true } :=
  ⟨((inline_entity_stays_outside ERState.init "USER \x7b\x7d".toList
      { Name := "USER".toList, Attributes := [] } (by decide) (by decide)).2.1
        (by decide)).2 "USER ||--o\x7b ORDER : places".toList (by decide) (by decide),
    (inline_entity_stays_outside ERState.init "  ORDER\x7b %% orders".toList
      { Name := "ORDER".toList, Attributes := [] } (by decide) (by decide)).2.2.1
        (by decide)⟩

/-! ## An entity block left open at the end of the input -/

theorem erStep_block_line (d : ERDiagram) (N : List Char) (A : List Attribute) (l : List Char)
    (hc : trimSpace l ≠ "\x7d".toList) (he : parseEntityStart (trimSpace l) = none) :
    erStep { diagram := d, currentEntity := some ⟨N, A⟩, inEntity := true } l =
      { diagram := d, currentEntity := some ⟨N, A ++ (blockAttribute l).toList⟩,
        inEntity := true } := by
  unfold erStep blockAttribute
  generalize trimSpace l = L at hc he
  by_cases hs : shouldSkipLine L = true
  · simp only [hs, if_true, Option.toList, List.append_nil]
  · simp only [hs, hc, he, false_and, if_false, Bool.false_eq_true]
    cases parseAttribute L with
    | none => simp only [Option.toList, List.append_nil]
    | some a => simp only [Option.toList]

theorem foldl_erStep_block_lines (d : ERDiagram) (N : List Char) :
    ∀ (ls : List (List Char)) (A : List Attribute),
      (∀ l ∈ ls, trimSpace l ≠ "\x7d".toList ∧ parseEntityStart (trimSpace l) = none) →
      ls.foldl erStep { diagram := d, currentEntity := some ⟨N, A⟩, inEntity := true } =
        { diagram := d, currentEntity := some ⟨N, A ++ ls.filterMap blockAttribute⟩,
          inEntity := true } := by
  intro ls
  induction ls with
  | nil => intro A _; simp
  | cons l ls ih =>
    intro A h
    have h1 := h l (by simp)
    rw [List.foldl_cons, erStep_block_line d N A l h1.1 h1.2,
      ih _ (fun m hm => h m (by simp [hm]))]
    cases hb : blockAttribute l with
    | none => simp [List.filterMap_cons, hb]
    | some a => simp [List.filterMap_cons, hb]

theorem attributeLine_in_block (a : AttributeLine) (h : a.WF)
    (hk : hasPrefix a.typ "erDiagram".toList = false) :
    trimSpace a.render ≠ "\x7d".toList ∧ parseEntityStart (trimSpace a.render) = none ∧
      blockAttribute a.render = some a.attribute := by
  have hlast := render_getLast_word a h
  have hattr := parseAttribute_attributeLine a h
  obtain ⟨hT, hN, hM⟩ := h
  have ht : trimSpace a.render = a.render :=
    trimSpace_of_ends _ (fun c h => isWordChar_not_space (head?_name_append hT _ c h)) hlast
  have hs : shouldSkipLine a.render = false :=
    shouldSkipLine_name a.typ ' ' _ hT (by decide) hk
  have hc : a.render ≠ "\x7d".toList := name_append_ne_close a.typ _ hT
  have he : parseEntityStart a.render = none :=
    parseEntityStart_two_words a.typ ' ' [] a.name _ hT (by decide) (by simp) hN
  unfold blockAttribute
  rw [ht]
  generalize a.render = L at hs hc he hattr
  refine ⟨hc, he, ?_⟩
  simp only [hs, if_false, Bool.false_eq_true, hattr]

theorem filterMap_blockAttribute_render (attrs : List AttributeLine)
    (hwf : ∀ a ∈ attrs, a.WF)
    (hk : ∀ a ∈ attrs, hasPrefix a.typ "erDiagram".toList = false) :
    (attrs.map AttributeLine.render).filterMap blockAttribute =
      attrs.map AttributeLine.attribute := by
  induction attrs with
  | nil => rfl
  | cons a attrs ih =>
    have h1 := (attributeLine_in_block a (hwf a (by simp)) (hk a (by simp))).2.2
    have h2 := ih (fun b hb => hwf b (by simp [hb])) (fun b hb => hk b (by simp [hb]))
    simp only [List.map_cons, List.filterMap_cons, h1, h2]

theorem entityOpen_is_start (N : List Char) (hN : IsName N)
    (hk : hasPrefix N "erDiagram".toList = false) :
    hasPrefix (trimSpace (N ++ " \x7b".toList)) "erDiagram".toList = false ∧
    parseEntityStart (trimSpace (N ++ " \x7b".toList)) =
      some { Name := N, Attributes := [] } ∧
    hasSuffix (trimSpace (N ++ " \x7b".toList)) "\x7b\x7d".toList = false := by
  have ht : trimSpace (N ++ " \x7b".toList) = N ++ " \x7b".toList :=
    trimSpace_of_ends _ (fun c h => isWordChar_not_space (head?_name_append hN _ c h))
      (fun c h => by
        have e : c = '{' := by
          have : (N ++ " \x7b".toList).getLast? = some '{' := by
            simp [List.getLast?_append]
          rw [this] at h
          exact (Option.some.inj h).symm
        subst e
        decide)
  have hp : hasPrefix (N ++ " \x7b".toList) "erDiagram".toList = false :=
    hasPrefix_append_of_class isWordChar "erDiagram".toList ' ' (by decide) (by decide) N _ hk
  have he : parseEntityStart (N ++ " \x7b".toList) = some { Name := N, Attributes := [] } :=
    parseEntityStart_line N [' '] [] hN (by decide)
  have hx : hasSuffix (N ++ " \x7b".toList) "\x7b\x7d".toList = false := by
    simp [hasSuffix, List.isPrefixOf]
  rw [ht]
  exact ⟨hp, he, hx⟩

/-- C8 (amended): for every ER text whose last entity block is opened by an
entity-start line (`<name> {` with a name of word characters; the line does not begin
with `erDiagram` and does not end in `{}`) and followed, up to the end of the input,
only by lines that neither close the block (`}`) nor start an entity, and in which
every line is shorter than 64 KiB, `ParseERDiagram` returns no error and commits,
after the entities of the lines before, exactly one entity for that block, with the
name of the entity-start line and, in order, every attribute parsed from the lines
of the block (a line that is skipped or that `parseAttribute` does not recognise adds
none); the relationships are those of the lines before.  Every line `<type> <name>`
or `<type> <name> <marker>` of word-character tokens whose type does not begin with
`erDiagram` is such a line and adds its attribute, and every line `<name> {` with a
word-character name that does not begin with `erDiagram` is such an entity-start
line. -/
theorem unterminated_block_committed (input : List Char) (pre : List (List Char))
    (l0 : List Char) (ls : List (List Char)) (e : Entity)
    (hraw : rawLines input = pre ++ l0 :: ls)
    (hshort : ∀ l ∈ rawLines input, utf8Len l < maxScanTokenSize)
    (hk0 : hasPrefix (trimSpace l0) "erDiagram".toList = false)
    (he0 : parseEntityStart (trimSpace l0) = some e)
    (hx0 : hasSuffix (trimSpace l0) "\x7b\x7d".toList = false)
    (hls : ∀ l ∈ ls, trimSpace l ≠ "\x7d".toList ∧ parseEntityStart (trimSpace l) = none) :
    ParseERDiagram input =
      ({ Entities := (pre.foldl erStep ERState.init).diagram.Entities ++
           [{ Name := e.Name, Attributes := ls.filterMap blockAttribute }],
         Relationships := (pre.foldl erStep ERState.init).diagram.Relationships }, none) ∧
    (∀ attrs : List AttributeLine, (∀ a ∈ attrs, a.WF) →
      (∀ a ∈ attrs, hasPrefix a.typ "erDiagram".toList = false) →
      (∀ a ∈ attrs, trimSpace a.render ≠ "\x7d".toList ∧
        parseEntityStart (trimSpace a.render) = none) ∧
      (attrs.map AttributeLine.render).filterMap blockAttribute =
        attrs.map AttributeLine.attribute) ∧
    (∀ N : List Char, IsName N → hasPrefix N "erDiagram".toList = false →
      hasPrefix (trimSpace (N ++ " \x7b".toList)) "erDiagram".toList = false ∧
      parseEntityStart (trimSpace (N ++ " \x7b".toList)) =
        some { Name := N, Attributes := [] } ∧
      hasSuffix (trimSpace (N ++ " \x7b".toList)) "\x7b\x7d".toList = false) := by
  refine ⟨?_, ?_, entityOpen_is_start⟩
  · obtain ⟨N, _, _, _, _, _, hN⟩ := parseEntityStart_some (noHead_trimSpace l0) he0
    have h1 := erStep_entityStart (pre.foldl erStep ERState.init) l0 e hk0 he0
    rw [if_neg (by rw [hx0]; exact Bool.false_ne_true)] at h1
    rw [ParseERDiagram_of_rawLines input _ hraw (by rw [← hraw]; exact hshort),
      List.foldl_append, List.foldl_cons, h1, hN,
      foldl_erStep_block_lines _ N ls [] hls]
    rfl
  · intro attrs hwf hk
    exact ⟨fun a ha => ⟨(attributeLine_in_block a (hwf a ha) (hk a ha)).1,
        (attributeLine_in_block a (hwf a ha) (hk a ha)).2.1⟩,
      filterMap_blockAttribute_render attrs hwf hk⟩

/-- Witness of C8: the theorem `unterminated_block_committed` at a text with one
closed block before the open one, whose lines are an attribute with a marker, a
comment, an attribute, and a line that is no attribute. -/
theorem unterminated_block_committed_witness :
    ParseERDiagram
        "erDiagram\nA \x7b\x7d\n  USER \x7b\nint id PK\n%% note\n  string name\n???".toList =
      ({ Entities := [{ Name := "A".toList, Attributes := [] },
          { Name := "USER".toList, Attributes :=
            [{ Name := "id".toList, Typ := "int".toList, IsPK := true },
             { Name := "name".toList, Typ := "string".toList }] }],
         Relationships := [] }, none) :=
  (unterminated_block_committed
    "erDiagram\nA \x7b\x7d\n  USER \x7b\nint id PK\n%% note\n  string name\n???".toList
    ["erDiagram".toList, "A \x7b\x7d".toList] "  USER \x7b".toList
    ["int id PK".toList, "%% note".toList, "  string name".toList, "???".toList]
    { Name := "USER".toList, Attributes := [] }
    (by decide) (by decide) (by decide) (by decide) (by decide) (by decide)).1

end Mermaid
